import Mathlib

/-!
# SLCSP index (`slcsp.go`): a shallow embedding

The Go program keeps one in-memory index (`RateAreasIndex`) made of five maps
keyed by strings.  The methods mutate the maps in place; here every method
takes the index and returns the updated index.

Modelling choices.

* A Go `map[string]V` is an association list `GoMap V`: `get?` is the lookup
  `v, ok := m[k]`, `set` is the assignment `m[k] = v` (the binding is replaced
  where it stands, or appended when the key is new).
* `rateAreasByName` holds `*RateArea`; every pointer stored is a fresh
  allocation made by `AddRateArea`, so no two keys alias and the mutation
  through the pointer in `AddPlan` is an update of the binding of that key.
* A `float64` rate is a value of `Float64`: a finite value is given by the
  rational number it denotes (`fin q`, with `fin 0` the zero `+0`), and the
  zero `-0`, the two infinities and NaN are values of their own.  The program
  performs no arithmetic on rates, only `<` and `== 0`, which are modelled as
  Go defines them: every comparison with NaN is false and `-0 == 0` is true.
* `strconv.ParseFloat` and `strconv.FormatFloat` belong to the Go standard
  library, not to this program: they are parameters of the model (`Strconv`).
  What `FormatFloat(x, 'f', -1, 64)` returns is given, from the documentation
  of the library, by the function `FormatFloat`; it is used where a statement
  is about the rendering itself.
* A file is read through a `bufio.Scanner`: the model of a file is `TextFile`
  (its lines, and whether reading fails), and the scanner gives up on a line
  of `MaxScanTokenSize` bytes or more, as `bufio` documents.
* `Error.Fatal`/`Error.Fatalf` end the process (`Abort.fatal`), a nil
  dereference or an index out of range is a run-time panic
  (`Abort.runtimePanic`); logging has no effect on the index and is left out.
-/

set_option linter.unusedVariables false

namespace Slcsp

/-! ## Go maps -/

/-- A Go map with string keys, as an association list. -/
abbrev GoMap (V : Type) := List (String × V)

namespace GoMap

variable {V : Type}

/-- The lookup `v, ok := m[k]`: `some v` when `ok`, `none` otherwise. -/
def get? : GoMap V → String → Option V
  | [], _ => none
  | (k', v) :: m, k => if k' = k then some v else get? m k

/-- The assignment `m[k] = v`. -/
def set : GoMap V → String → V → GoMap V
  | [], k, v => [(k, v)]
  | (k', v') :: m, k, v => if k' = k then (k, v) :: m else (k', v') :: set m k v

/-- The test `_, ok := m[k]`. -/
def contains (m : GoMap V) (k : String) : Bool := (m.get? k).isSome

end GoMap

/-! ## Outcomes -/

/-- The two ways a call can fail to return. -/
inductive Abort where
  /-- `Error.Fatal` / `Error.Fatalf`: the message is logged and the process exits. -/
  | fatal
  /-- Nil dereference or index out of range. -/
  | runtimePanic
deriving DecidableEq

deriving instance DecidableEq for Except

/-! ## `float64` -/

/-- A `float64` value: `fin q` is the finite value that denotes the rational `q` (`fin 0` is
the zero `+0`); `negZero` is the zero `-0`. -/
inductive Float64 where
  | nan
  | negInf
  | negZero
  | fin (q : ℚ)
  | posInf
deriving DecidableEq

namespace Float64

/-- The number a finite value denotes (0 for the two zeros). -/
def toRat : Float64 → ℚ
  | fin q => q
  | _ => 0

/-- Go's `a < b` on `float64`: false when one of the two is NaN. -/
def lt : Float64 → Float64 → Bool
  | nan, _ => false
  | _, nan => false
  | negInf, negInf => false
  | negInf, _ => true
  | _, negInf => false
  | posInf, _ => false
  | _, posInf => true
  | a, b => decide (a.toRat < b.toRat)

/-- Go's `a <= b` on `float64`: false when one of the two is NaN. -/
def le : Float64 → Float64 → Bool
  | nan, _ => false
  | _, nan => false
  | negInf, _ => true
  | _, negInf => false
  | _, posInf => true
  | posInf, _ => false
  | a, b => decide (a.toRat ≤ b.toRat)

instance : LT Float64 := ⟨fun a b => lt a b = true⟩

instance : LE Float64 := ⟨fun a b => le a b = true⟩

instance (a b : Float64) : Decidable (a < b) := inferInstanceAs (Decidable (lt a b = true))

instance (a b : Float64) : Decidable (a ≤ b) := inferInstanceAs (Decidable (le a b = true))

/-- The literal `n` is the finite value `n`; the zero value of the type is `+0`. -/
instance (n : Nat) : OfNat Float64 n := ⟨fin n⟩

/-- Go's `x == 0`: true of the two zeros, false of every other value. -/
def isZero (x : Float64) : Prop := x = fin 0 ∨ x = negZero

instance (x : Float64) : Decidable x.isZero := inferInstanceAs (Decidable (_ ∨ _))

end Float64

/-- The two functions of Go's `strconv` the program calls.
`ParseFloat s` is `some x` when `strconv.ParseFloat(s, 64)` returns the value
`x` with a nil error and `none` when the error is not nil; `FormatFloat x` is
`strconv.FormatFloat(x, 'f', -1, 64)`. -/
structure Strconv where
  ParseFloat : String → Option Float64
  FormatFloat : Float64 → String

/-! ## Rate areas -/

/-- The silver level name: `const LEVEL_NAME_SILVER = "Silver"`. -/
def LEVEL_NAME_SILVER : String := "Silver"

/-- The struct `RateArea`. -/
structure RateArea where
  state : String
  number : String
  top1SilverPlan : Float64
  top2SilverPlan : Float64
deriving DecidableEq

/-- `RateArea.GetName`: the form is "<state> <number>". -/
def RateArea.GetName (rateArea : RateArea) : String :=
  rateArea.state ++ " " ++ rateArea.number

/-- `RateArea.GetSlcspString`. -/
def RateArea.GetSlcspString (sc : Strconv) (rateArea : RateArea) : String :=
  sc.FormatFloat rateArea.top2SilverPlan

/-- `NewRateArea`: the zero value of the struct with `state` and `number` set. -/
def NewRateArea (state number : String) : RateArea :=
  { state := state, number := number, top1SilverPlan := 0, top2SilverPlan := 0 }

/-! ## The index -/

/-- The struct `RateAreasIndex`. -/
structure RateAreasIndex where
  rateAreaNamesByZip : GoMap String
  rateAreasByName : GoMap RateArea
  ambiguousZipcodes : GoMap Bool
  unmappedPlanRateAreas : GoMap Bool
  insufficientPlanZips : GoMap Bool
deriving DecidableEq

namespace RateAreasIndex

/-- The index `NewRateAreasIndex` initialises before it reads any line: five empty maps. -/
def empty : RateAreasIndex :=
  { rateAreaNamesByZip := [], rateAreasByName := [], ambiguousZipcodes := [],
    unmappedPlanRateAreas := [], insufficientPlanZips := [] }

/-- `AddRateArea`: creates the entry if missing, returns the rate area name in any case. -/
def AddRateArea (rai : RateAreasIndex) (state number : String) : RateAreasIndex × String :=
  match rai.rateAreasByName.get? (state ++ " " ++ number) with
  | some found => (rai, found.GetName)
  | none =>
    let rateArea := NewRateArea state number
    let rateAreaName := rateArea.GetName
    ({ rai with rateAreasByName := rai.rateAreasByName.set rateAreaName rateArea }, rateAreaName)

/-- `AddMapping`: add a mapping between the zip code and the rate area it corresponds to. -/
def AddMapping (rai : RateAreasIndex) (zipCode state number : String) : RateAreasIndex :=
  let r := rai.AddRateArea state number
  let rai1 := r.1
  let areaName := r.2
  match rai1.rateAreaNamesByZip.get? zipCode with
  | some mappedAreaName =>
    if mappedAreaName ≠ areaName then
      { rai1 with ambiguousZipcodes := rai1.ambiguousZipcodes.set zipCode true }
    else rai1
  | none => { rai1 with rateAreaNamesByZip := rai1.rateAreaNamesByZip.set zipCode areaName }

/-- `AddPlan`: the plan is taken into account when it is a silver plan of a registered area
and makes the top two; the boolean is `madeIt`. -/
def AddPlan (sc : Strconv) (rai : RateAreasIndex) (state number planId level rate : String) :
    Except Abort (RateAreasIndex × Bool) :=
  if LEVEL_NAME_SILVER = level then
    match sc.ParseFloat rate with
    | none => .error .fatal
    | some newRate =>
      let mappingAreaName := state ++ " " ++ number
      match rai.rateAreasByName.get? mappingAreaName with
      | some rateArea =>
        if newRate < rateArea.top1SilverPlan ∨ rateArea.top1SilverPlan.isZero then
          let updated : RateArea :=
            { rateArea with top2SilverPlan := rateArea.top1SilverPlan, top1SilverPlan := newRate }
          .ok ({ rai with rateAreasByName :=
                  rai.rateAreasByName.set mappingAreaName updated }, true)
        else if newRate < rateArea.top2SilverPlan ∨ rateArea.top2SilverPlan.isZero then
          let updated : RateArea := { rateArea with top2SilverPlan := newRate }
          .ok ({ rai with rateAreasByName :=
                  rai.rateAreasByName.set mappingAreaName updated }, true)
        else .ok (rai, false)
      | none =>
        .ok ({ rai with unmappedPlanRateAreas :=
                rai.unmappedPlanRateAreas.set mappingAreaName true }, false)
  else .ok (rai, false)

/-- `GetSlcspForZipcode`: the SLCSP for the zip code and the index after the call. -/
def GetSlcspForZipcode (sc : Strconv) (rai : RateAreasIndex) (zipCode : String) :
    Except Abort (String × RateAreasIndex) :=
  if rai.ambiguousZipcodes.contains zipCode then .ok ("", rai)
  else
    let looked : Except Abort String :=
      match rai.rateAreaNamesByZip.get? zipCode with
      | some existingAreaName =>
        match rai.rateAreasByName.get? existingAreaName with
        | some rateArea => .ok (rateArea.GetSlcspString sc)
        | none => .error .runtimePanic
      | none => .ok ""
    match looked with
    | .error e => .error e
    | .ok slcsp =>
      if slcsp = "0" then
        .ok ("", { rai with insufficientPlanZips := rai.insufficientPlanZips.set zipCode true })
      else .ok (slcsp, rai)

end RateAreasIndex

/-! ## Records fed to the index -/

/-- The three columns of a line of the zips file that `AddMapping` receives. -/
structure ZipRecord where
  zipCode : String
  state : String
  number : String
deriving DecidableEq

/-- The registry key of the rate area of a zip record: `state + " " + number`. -/
def ZipRecord.areaName (r : ZipRecord) : String := r.state ++ " " ++ r.number

/-- The five columns of a line of the plans file, as `AddPlan` receives them. -/
structure PlanRecord where
  state : String
  number : String
  planId : String
  level : String
  rate : String
deriving DecidableEq

/-- The registry key of the rate area a plan record refers to. -/
def PlanRecord.areaName (p : PlanRecord) : String := p.state ++ " " ++ p.number

namespace RateAreasIndex

/-- `AddMapping` called for each record in order, as the line handler of
`NewRateAreasIndex` does for each line of the zips file. -/
def AddMappings (rai : RateAreasIndex) (recs : List ZipRecord) : RateAreasIndex :=
  recs.foldl (fun acc r => acc.AddMapping r.zipCode r.state r.number) rai

/-- `AddPlan` called for each record in order, as the line handler of `ParsePlans`
does for each line of the plans file; the run stops at the first call that aborts. -/
def AddPlans (sc : Strconv) : RateAreasIndex → List PlanRecord → Except Abort RateAreasIndex
  | rai, [] => .ok rai
  | rai, p :: ps =>
    match rai.AddPlan sc p.state p.number p.planId p.level p.rate with
    | .error e => .error e
    | .ok r => AddPlans sc r.1 ps

end RateAreasIndex

/-! ## Lines and fields -/

/-- The fields of a list of characters cut at every occurrence of `sep`. -/
def splitChars (sep : Char) : List Char → List (List Char)
  | [] => [[]]
  | c :: cs =>
    if c = sep then [] :: splitChars sep cs
    else
      match splitChars sep cs with
      | [] => [[c]]
      | f :: fs => (c :: f) :: fs

/-- The call `strings.Split(line, ",")`, the only form in which the program splits. -/
def stringsSplit (line : String) : List String :=
  (splitChars ',' line.data).map String.mk

/-- What the program gets from a file it opens and reads: the lines of the file in order,
each taken without the line feed that ends it (so no line holds a line feed; a carriage
return before the line feed is still part of the line), and whether reading fails before the
end of the file is reached.  When reading fails the lines are those read until then; a file
that could not be opened has no lines and `readError` set. -/
structure TextFile where
  lines : List String
  readError : Bool

/-- `bufio.MaxScanTokenSize`: a scanner gives up on a line that has this many bytes or more
before its line feed. -/
def MaxScanTokenSize : Nat := 64 * 1024

/-- `dropCR` of `bufio`: a carriage return at the end of the line is dropped. -/
def dropCR (line : String) : String :=
  if line.data.getLast? = some '\r' then String.mk line.data.dropLast else line

/-- The longest prefix of whole characters that fits in `n` bytes. -/
def takeBytes : Nat → List Char → List Char
  | _, [] => []
  | n, c :: cs => if c.utf8Size ≤ n then c :: takeBytes (n - c.utf8Size) cs else []

/-- What the scanner holds of a line it gave up on: the first `MaxScanTokenSize` bytes of the
line, `dropCR` applied.  When the last of these bytes falls inside a character, the Go string
ends with the leading bytes of that character (none of which is a comma or a carriage
return); here the string ends before that character. -/
def heldText (line : String) : String :=
  let held := String.mk (takeBytes MaxScanTokenSize line.data)
  if held.utf8ByteSize = MaxScanTokenSize then dropCR held else held

/-- The outcomes of the successive calls of `scanner.Scan()` over the lines of a file, until
the scanner has nothing more to give (every later call returns false): `some text` for a call
that returns true with `scanner.Text() = text`, `none` for a call that returns false.  A line
is delivered with `dropCR` applied.  On a line of `MaxScanTokenSize` bytes or more the call
returns false (`bufio.ErrTooLong`); the call after that one returns true with the bytes the
scanner holds, and the rest of the file is not read. -/
def scanOutcomes : List String → List (Option String)
  | [] => []
  | line :: rest =>
    if MaxScanTokenSize ≤ line.utf8ByteSize then [none, some (heldText line)]
    else some (dropCR line) :: scanOutcomes rest

/-- A `bufio.Scanner` over a file, by what the program observes of it: the outcomes of the
calls of `Scan`, and whether `Err()` is not nil once `Scan` has returned false. -/
structure Scanner where
  outcomes : List (Option String)
  err : Bool

/-- `bufio.NewScanner(file)` with the default split function `bufio.ScanLines`: the scanner
ends with an error when reading fails or when a line is too long for it. -/
def NewScanner (file : TextFile) : Scanner :=
  { outcomes := scanOutcomes file.lines,
    err := file.readError || file.lines.any (fun line => MaxScanTokenSize ≤ line.utf8ByteSize) }

/-- The loop `for scanner.Scan()` of `readCsvFileLines` over the outcomes of the calls still
to come; `recordsCount` is the counter.  The loop ends at the first call that returns
false. -/
def scanLines {σ : Type} (lineHandler : σ → String → Except Abort σ) :
    List (Option String) → σ → Nat → Except Abort (σ × Nat)
  | some line :: rest, s, recordsCount =>
    match lineHandler s line with
    | .error e => .error e
    | .ok s1 => scanLines lineHandler rest s1 (recordsCount + 1)
  | _, s, recordsCount => .ok (s, recordsCount)

/-- The first lines of `readCsvFileLines`: when there is a `headlineHandler`, one call of
`Scan`, and the handler on the line if the call returned true.  Gives the state and the
outcomes of the calls still to come. -/
def scanHeadline {σ : Type} (headlineHandler : Option (σ → String → Except Abort σ))
    (outcomes : List (Option String)) (s : σ) : Except Abort (σ × List (Option String)) :=
  match headlineHandler, outcomes with
  | some handler, some headline :: rest =>
    match handler s headline with
    | .error e => .error e
    | .ok s1 => .ok (s1, rest)
  | some _, none :: rest => .ok (s, rest)
  | _, _ => .ok (s, outcomes)

/-- `readCsvFileLines` over a file: the first line goes to `headlineHandler` when there is
one, every other line to `lineHandler`; when the scanner ended with an error the process is
ended (`Error.Fatal`), else the number of records processed is returned.  The handlers act
on a state `σ`. -/
def readCsvFileLines {σ : Type} (file : TextFile) (lineHandler : σ → String → Except Abort σ)
    (headlineHandler : Option (σ → String → Except Abort σ)) (s : σ) : Except Abort (σ × Nat) :=
  let scanner := NewScanner file
  match scanHeadline headlineHandler scanner.outcomes s with
  | .error e => .error e
  | .ok (s1, rest) =>
    match scanLines lineHandler rest s1 0 with
    | .error e => .error e
    | .ok r => if scanner.err then .error .fatal else .ok r

/-- The labels of the plans file. -/
def LABELS_PLANS : List String := ["plan_id", "state", "metal_level", "rate", "rate_area"]

/-- The labels of the zips file. -/
def LABELS_ZIPS : List String := ["zipcode", "state", "county_code", "name", "rate_area"]

/-- The loop of `areLabelsEqual` over two slices of the same length. -/
def labelsLoop : List String → List String → Bool
  | x :: xs, y :: ys => if x ≠ y then false else labelsLoop xs ys
  | _, _ => true

/-- `areLabelsEqual`; a nil slice is `none`. -/
def areLabelsEqual (a b : Option (List String)) : Bool :=
  match a, b with
  | none, none => true
  | none, some _ => false
  | some _, none => false
  | some xs, some ys => if xs.length ≠ ys.length then false else labelsLoop xs ys

/-- `buildLabelsValidatingLinehandler`: the handler aborts unless the fields of the headline
are the labels. -/
def buildLabelsValidatingLinehandler {σ : Type} (labels : List String) :
    σ → String → Except Abort σ :=
  fun s line =>
    let fields := stringsSplit line
    if !areLabelsEqual (some labels) (some fields) then .error .fatal else .ok s

/-- The element `fields[i]` of a slice; an index out of range is a run-time panic. -/
def fieldAt (fields : List String) (i : Nat) : Except Abort String :=
  match fields[i]? with
  | some f => .ok f
  | none => .error .runtimePanic

namespace RateAreasIndex

/-- `NewRateAreasIndex` over the zips file. -/
def NewRateAreasIndex (file : TextFile) : Except Abort RateAreasIndex :=
  let linehandler : RateAreasIndex → String → Except Abort RateAreasIndex := fun rai line =>
    let fields := stringsSplit line
    match fieldAt fields 0, fieldAt fields 1, fieldAt fields 4 with
    | .ok zipCode, .ok state, .ok number => .ok (rai.AddMapping zipCode state number)
    | _, _, _ => .error .runtimePanic
  match readCsvFileLines file linehandler
      (some (buildLabelsValidatingLinehandler LABELS_ZIPS)) empty with
  | .error e => .error e
  | .ok r => .ok r.1

/-- `ParsePlans` over the plans file. -/
def ParsePlans (sc : Strconv) (rai : RateAreasIndex) (file : TextFile) :
    Except Abort RateAreasIndex :=
  let linehandler : RateAreasIndex → String → Except Abort RateAreasIndex := fun rai line =>
    let fields := stringsSplit line
    match fieldAt fields 1, fieldAt fields 4, fieldAt fields 0, fieldAt fields 2,
        fieldAt fields 3 with
    | .ok state, .ok number, .ok planId, .ok level, .ok rate =>
      match rai.AddPlan sc state number planId level rate with
      | .error e => .error e
      | .ok r => .ok r.1
    | _, _, _, _, _ => .error .runtimePanic
  match readCsvFileLines file linehandler
      (some (buildLabelsValidatingLinehandler LABELS_PLANS)) rai with
  | .error e => .error e
  | .ok r => .ok r.1

/-- The line handler of `ToFile`: the state is the index and the records handed to the
CSV writer so far. -/
def toFileLinehandler (sc : Strconv) :
    RateAreasIndex × List (List String) → String →
      Except Abort (RateAreasIndex × List (List String)) :=
  fun st line =>
    let fields := stringsSplit line
    match fieldAt fields 0 with
    | .error e => .error e
    | .ok zipCode =>
      match st.1.GetSlcspForZipcode sc zipCode with
      | .error e => .error e
      | .ok r => .ok (r.2, st.2 ++ [[zipCode, r.1]])

/-- The headline handler `cloneLabels` of `ToFile`. -/
def cloneLabels :
    RateAreasIndex × List (List String) → String →
      Except Abort (RateAreasIndex × List (List String)) :=
  fun st line => .ok (st.1, st.2 ++ [stringsSplit line])

/-- `ToFile` over the template file: the index after the run and the records handed to the
CSV writer, in order.  Creating the output file and writing to it are taken to succeed. -/
def ToFile (sc : Strconv) (rai : RateAreasIndex) (template : TextFile) :
    Except Abort (RateAreasIndex × List (List String)) :=
  match readCsvFileLines template (toFileLinehandler sc) (some cloneLabels) (rai, []) with
  | .error e => .error e
  | .ok r => .ok r.1

end RateAreasIndex

/-! ## Decimal literals

The number a literal denotes, read exactly: a plain decimal with an optional minus sign, or
one of the names "NaN", "Inf", "+Inf", "-Inf" that `ParseFloat` accepts. -/

/-- The value of a decimal digit. -/
def digitValue (c : Char) : Option Nat :=
  if '0' ≤ c ∧ c ≤ '9' then some (c.toNat - '0'.toNat) else none

/-- The number written by a list of decimal digits, after the digits read so far. -/
def readDigits : List Char → Nat → Option Nat
  | [], acc => some acc
  | c :: cs, acc =>
    match digitValue c with
    | some d => readDigits cs (10 * acc + d)
    | none => none

/-- The value of an unsigned literal `digits` or `digits.digits`. -/
def readUnsigned (cs : List Char) : Option ℚ :=
  let whole := cs.takeWhile (· ≠ '.')
  let frac := (cs.dropWhile (· ≠ '.')).drop 1
  if whole = [] then none
  else
    match readDigits whole 0, readDigits frac 0 with
    | some w, some f => some (mkRat (w * 10 ^ frac.length + f) (10 ^ frac.length))
    | _, _ => none

/-- The value of a literal: "NaN", a signed "Inf", or a decimal with an optional minus sign. -/
def readDecimal (s : String) : Option Float64 :=
  if s = "NaN" then some .nan
  else if s = "Inf" ∨ s = "+Inf" then some .posInf
  else if s = "-Inf" then some .negInf
  else
    match s.data with
    | '-' :: cs => (readUnsigned cs).map (fun x => if x = 0 then .negZero else .fin (-x))
    | cs => (readUnsigned cs).map .fin

/-! ## `strconv.FormatFloat(x, 'f', -1, 64)`

The call `GetSlcspString` makes.  The documentation of `strconv` gives the result: the
format 'f' is `-ddd.dddd` with no exponent, and the precision -1 "uses the smallest number
of digits necessary such that ParseFloat will return f exactly", `ParseFloat` returning "the
nearest floating-point number rounded using IEEE754 unbiased rounding".  The functions below
compute that result on the rational number a finite value denotes: `nearestFloat64` is the
rounding of `ParseFloat`, `RoundsTo` gives the numbers that round to a value by the two
bounds half way to the neighbouring values (the two agree, lemmas
`nearestFloat64_of_roundsTo` and `roundsTo_of_nearestFloat64`), `shortestDecimal` finds the
decimal with the fewest digits between the bounds and `fmtF` lays it out.  Sums and products
of rationals are computed on numerators and denominators with `mkRat`. -/

/-- The sum of two rationals. -/
def qadd (a b : ℚ) : ℚ := mkRat (a.num * b.den + b.num * a.den) (a.den * b.den)

/-- The difference of two rationals. -/
def qsub (a b : ℚ) : ℚ := mkRat (a.num * b.den - b.num * a.den) (a.den * b.den)

/-- The product of two rationals. -/
def qmul (a b : ℚ) : ℚ := mkRat (a.num * b.num) (a.den * b.den)

/-- The power `b ^ e` of a natural base with an integer exponent. -/
def powInt (b : Nat) (e : Int) : ℚ :=
  if 0 ≤ e then mkRat (b ^ e.toNat : Nat) 1 else mkRat 1 (b ^ (-e).toNat)

/-- The number of bits of `n`; `fuel` bounds the number of steps. -/
def bitLengthAux : Nat → Nat → Nat
  | 0, _ => 0
  | fuel + 1, n => if n = 0 then 0 else bitLengthAux fuel (n / 2) + 1

/-- The number of bits of `n`. -/
def bitLength (n : Nat) : Nat := bitLengthAux n n

/-- The binary exponent of a positive number `q`: the `e` with `2 ^ e ≤ q < 2 ^ (e + 1)`. -/
def binaryExponent (q : ℚ) : Int :=
  let a : Int := (bitLength q.num.natAbs : Int) - (bitLength q.den : Int)
  if powInt 2 a ≤ q then a else a - 1

/-- The exponent of the last bit of the mantissa of a positive `float64` value `q`: the
mantissa has 53 bits, and the exponent is not below -1074 (the subnormal values). -/
def lastBitExponent (q : ℚ) : Int := max (binaryExponent q - 52) (-1074)

/-- The mantissa of a positive `float64` value `q`, as an integer:
`q = mantissa q * 2 ^ lastBitExponent q`. -/
def mantissa (q : ℚ) : Int := ⌊qmul q (powInt 2 (-lastBitExponent q))⌋

/-- The lower end of the numbers that round to the positive `float64` value `q`: half way to
the `float64` value next below, which is half as far when the mantissa of `q` is the least
one of its exponent. -/
def lowerBound (q : ℚ) : ℚ :=
  if mantissa q = 2 ^ 52 ∧ -1074 < lastBitExponent q then
    qsub q (powInt 2 (lastBitExponent q - 2))
  else qsub q (powInt 2 (lastBitExponent q - 1))

/-- The upper end of the numbers that round to the positive `float64` value `q`: half way to
the `float64` value next above. -/
def upperBound (q : ℚ) : ℚ := qadd q (powInt 2 (lastBitExponent q - 1))

/-- The number `v` rounds to the positive `float64` value `q` under the rounding to nearest,
ties to even, that `ParseFloat` applies: `v` is between the two bounds, which count when the
mantissa of `q` is even. -/
def RoundsTo (q v : ℚ) : Prop :=
  if mantissa q % 2 = 0 then lowerBound q ≤ v ∧ v ≤ upperBound q
  else lowerBound q < v ∧ v < upperBound q

instance (q v : ℚ) : Decidable (RoundsTo q v) := by
  unfold RoundsTo
  exact inferInstance

/-- The integer nearest to `x`, the even one when two are as near. -/
def roundHalfEven (x : ℚ) : Int :=
  if qsub x (mkRat ⌊x⌋ 1) < mkRat 1 2 then ⌊x⌋
  else if mkRat 1 2 < qsub x (mkRat ⌊x⌋ 1) then ⌊x⌋ + 1
  else if ⌊x⌋ % 2 = 0 then ⌊x⌋ else ⌊x⌋ + 1

/-- The `float64` value nearest to the positive number `v`, the one with the even mantissa
when two are as near: the value `ParseFloat` returns for a literal that denotes `v` (0 when
`v` is too small for a subnormal value).  There is none when `v` is out of the range of
`float64`: the rounded value would be `2 ^ 1024` or more, and `ParseFloat` returns an
error. -/
def nearestFloat64 (v : ℚ) : Option ℚ :=
  let e := lastBitExponent v
  let m := roundHalfEven (qmul v (powInt 2 (-e)))
  if e < 971 ∨ (e = 971 ∧ m < 2 ^ 53) then some (qmul (mkRat m 1) (powInt 2 e)) else none

/-- The positive number `q` is a `float64` value: a mantissa of 53 bits times a power of two
of exponent -1074 to 971, or a smaller mantissa times `2 ^ (-1074)` (a subnormal value). -/
def IsFloat64 (q : ℚ) : Prop :=
  ∃ (m : Nat) (e : Int), q = (m : ℚ) * (2 : ℚ) ^ e ∧
    ((2 ^ 52 ≤ m ∧ m < 2 ^ 53 ∧ -1074 ≤ e ∧ e ≤ 971) ∨ (0 < m ∧ m < 2 ^ 52 ∧ e = -1074))

/-- The least `l` from `l` on with `num < den * 10 ^ l`; `fuel` bounds the number of steps. -/
def wholeLengthAux : Nat → Nat → Nat → Nat → Nat
  | 0, _, _, l => l
  | fuel + 1, num, den, l =>
    if num < den * 10 ^ l then l else wholeLengthAux fuel num den (l + 1)

/-- The least `k` from `k` on with `den ≤ num * 10 ^ k`; `fuel` bounds the number of
steps. -/
def fractionLeadAux : Nat → Nat → Nat → Nat → Nat
  | 0, _, _, k => k
  | fuel + 1, num, den, k =>
    if den ≤ num * 10 ^ k then k else fractionLeadAux fuel num den (k + 1)

/-- The decimal exponent of the first significant digit of a positive number `q`: the `p`
with `10 ^ p ≤ q < 10 ^ (p + 1)`. -/
def decimalExponent (q : ℚ) : Int :=
  if q.den ≤ q.num.natAbs then (wholeLengthAux q.num.natAbs q.num.natAbs q.den 1 : Int) - 1
  else -(fractionLeadAux q.den q.num.natAbs q.den 1 : Int)

/-- The digits of `q` down to the digit of exponent `j`, as an integer: `q` cut after that
digit is `digitsDownTo q j * 10 ^ j`. -/
def digitsDownTo (q : ℚ) (j : Int) : Int := ⌊qmul q (powInt 10 (-j))⌋

/-- The decimal number `d * 10 ^ j`. -/
def decimalOf (d j : Int) : ℚ := qmul (mkRat d 1) (powInt 10 j)

/-- The digits to write when the last digit written is the one of exponent `j`, if that is
enough: `q` is cut after that digit, or cut and the last digit raised by one, whichever
rounds to `q`, and the nearer to `q` when both do. -/
def chooseAt (q : ℚ) (j : Int) : Option Int :=
  let d := digitsDownTo q j
  let down := decimalOf d j
  let up := decimalOf (d + 1) j
  if RoundsTo q down then
    if RoundsTo q up then
      if qsub q down < qsub up q then some d
      else if qsub up q < qsub q down then some (d + 1)
      else if d % 2 = 0 then some d else some (d + 1)
    else some d
  else if RoundsTo q up then some (d + 1)
  else none

/-- The search for the least number of digits: from the digit of exponent `j` downwards, the
first exponent at which `choose` gives digits; at the last exponent the digits are those of
`cut` if `choose` gives none.  `fuel` is the number of exponents left after `j`. -/
def shortestAux (choose : Int → Option Int) (cut : Int → Int) : Nat → Int → Int × Int
  | 0, j => ((choose j).getD (cut j), j)
  | fuel + 1, j =>
    match choose j with
    | some d => (d, j)
    | none => shortestAux choose cut fuel (j - 1)

/-- The shortest decimal that rounds to the positive `float64` value `q`, as digits `d` and
an exponent `j` (the decimal is `d * 10 ^ j`).  The search starts at the first significant
digit of `q` and goes no further than the exponent at which one digit is less than the
distance from `q` to the bounds. -/
def shortestDecimal (q : ℚ) : Int × Int :=
  shortestAux (chooseAt q) (digitsDownTo q)
    (decimalExponent q - min 0 (lastBitExponent q - 2)).toNat (decimalExponent q)

/-- The zeros at the end of the digits `d` are taken off and the exponent raised; `fuel`
bounds the number of steps. -/
def trimZerosAux : Nat → Nat → Int → Nat × Int
  | 0, d, j => (d, j)
  | fuel + 1, d, j =>
    if d % 10 = 0 ∧ d ≠ 0 then trimZerosAux fuel (d / 10) (j + 1) else (d, j)

/-- The zeros at the end of the digits `d` are taken off and the exponent raised. -/
def trimZeros (d : Nat) (j : Int) : Nat × Int := trimZerosAux d d j

/-- The decimal digits of `n`, the most significant first; `fuel` bounds the number of
digits. -/
def decimalDigitsAux : Nat → Nat → List Char
  | 0, _ => []
  | fuel + 1, n =>
    if n < 10 then [Nat.digitChar n]
    else decimalDigitsAux fuel (n / 10) ++ [Nat.digitChar (n % 10)]

/-- The decimal digits of `n`, the most significant first. -/
def decimalDigits (n : Nat) : List Char := decimalDigitsAux (n + 1) n

/-- The format 'f': the digits of a number `d * 10 ^ j`, with `j` the exponent of the last
digit, laid out as `ddd.dddd`.  Zeros fill the places up to the decimal point; there is a
decimal point only when `j` is negative, with a "0" before it when no digit is. -/
def fmtF (digits : List Char) (j : Int) : List Char :=
  if 0 ≤ j then digits ++ List.replicate j.toNat '0'
  else if (-j).toNat < digits.length then
    digits.take (digits.length - (-j).toNat) ++
      '.' :: digits.drop (digits.length - (-j).toNat)
  else '0' :: '.' :: (List.replicate ((-j).toNat - digits.length) '0' ++ digits)

/-- `FormatFloat(q, 'f', -1, 64)` for a positive `float64` value `q`. -/
def formatPositive (q : ℚ) : String :=
  let t := trimZeros (shortestDecimal q).1.toNat (shortestDecimal q).2
  String.mk (fmtF (decimalDigits t.1) t.2)

/-- `strconv.FormatFloat(x, 'f', -1, 64)`. -/
def FormatFloat : Float64 → String
  | .nan => "NaN"
  | .posInf => "+Inf"
  | .negInf => "-Inf"
  | .negZero => "-0"
  | .fin q =>
    if q = 0 then "0"
    else if q < 0 then "-" ++ formatPositive (-q)
    else formatPositive q

/-! ## A sample `strconv`

Used to run the model on sample data. -/

/-- The sample `strconv`: a literal is read as the number it denotes (in the sample data every
literal denotes a `float64` value), a value is written by `FormatFloat`. -/
def sampleStrconv : Strconv :=
  { ParseFloat := readDecimal, FormatFloat := FormatFloat }

/-! ## Specification-side notions -/

/-- The registry stores every rate area under its own name; this is so in every index
built from the empty one by the methods of the program. -/
def RegistryNamed (rai : RateAreasIndex) : Prop :=
  ∀ k ra, rai.rateAreasByName.get? k = some ra → ra.GetName = k

/-- The rate area of the first record of the list that carries the zip code `z`. -/
def firstAreaOf (recs : List ZipRecord) (z : String) : Option String :=
  (recs.find? (fun r => r.zipCode = z)).map ZipRecord.areaName

/-- The update rule of the two slots `(lowest, secondLowest)` of a rate area for a silver
plan of rate `r`, a zero standing for "unset". -/
def slotsAfter (slots : Float64 × Float64) (r : Float64) : Float64 × Float64 :=
  if r < slots.1 ∨ slots.1.isZero then (r, slots.1)
  else if r < slots.2 ∨ slots.2.isZero then (slots.1, r)
  else slots

/-- The rates sorted in ascending order, duplicates kept. -/
def sortedRates (rs : List Float64) : List Float64 := rs.insertionSort (· ≤ ·)

/-- The first two elements of a list of rates, 0 standing for a missing element. -/
def firstTwo (l : List Float64) : Float64 × Float64 := ((l[0]?).getD 0, (l[1]?).getD 0)

/-- The value is a number (not NaN) and is not a zero. -/
def Float64.IsNonZeroNumber (x : Float64) : Prop := x ≠ .nan ∧ ¬x.isZero

instance (x : Float64) : Decidable x.IsNonZeroNumber := inferInstanceAs (Decidable (_ ∧ _))

/-- The place of a value in the order of the numbers: `-Inf` at the bottom, `+Inf` at the
top, a finite value at the rational it denotes (both zeros at 0; NaN, which has no place, is
put at 0 too). -/
def Float64.rank : Float64 → WithBot (WithTop ℚ)
  | .nan => ((0 : ℚ) : WithTop ℚ)
  | .negInf => ⊥
  | .negZero => ((0 : ℚ) : WithTop ℚ)
  | .fin q => ((q : ℚ) : WithTop ℚ)
  | .posInf => ((⊤ : WithTop ℚ) : WithBot (WithTop ℚ))

/-- The update rule of the two slots over any linear order, `z` standing for "unset". -/
def stepTwo {α : Type} [LinearOrder α] (z : α) (slots : α × α) (r : α) : α × α :=
  if r < slots.1 ∨ slots.1 = z then (r, slots.1)
  else if r < slots.2 ∨ slots.2 = z then (slots.1, r)
  else slots

/-- The first two elements of a list, `z` standing for a missing element. -/
def firstTwoOf {α : Type} (z : α) (l : List α) : α × α := ((l[0]?).getD z, (l[1]?).getD z)

/-- The number `v` is a decimal with at most `k` significant digits: a natural number below
`10 ^ k` times a power of ten. -/
def HasDigits (k : Nat) (v : ℚ) : Prop := ∃ (a : Nat) (i : Int), a < 10 ^ k ∧ v = a * (10 : ℚ) ^ i

/-- The silver plans of a list that refer to the rate area registered under `areaName`. -/
def silverPlansOf (areaName : String) (ps : List PlanRecord) : List PlanRecord :=
  ps.filter (fun p => p.level = LEVEL_NAME_SILVER ∧ p.areaName = areaName)

/-- Every zip code of the index is mapped to a registered rate area; this is so in every
index built from the empty one by the methods of the program. -/
def AreasRegistered (rai : RateAreasIndex) : Prop :=
  ∀ z a, rai.rateAreaNamesByZip.get? z = some a → rai.rateAreasByName.contains a = true

/-- The first comma-separated field of a line. -/
def firstField (line : String) : String := String.mk (line.data.takeWhile (· ≠ ','))

/-- The string `GetSlcspForZipcode` returns for a zip code on a given index (the empty string
when the call does not return). -/
def resolve (sc : Strconv) (rai : RateAreasIndex) (zipCode : String) : String :=
  match rai.GetSlcspForZipcode sc zipCode with
  | .ok r => r.1
  | .error _ => ""

/-- Every key of the map `m` is a key of the map `m'`. -/
def GoMap.KeysSubset {V : Type} (m m' : GoMap V) : Prop :=
  ∀ k, m.contains k = true → m'.contains k = true

/-- The index `b` has grown from the index `a`: each of the five maps of `b` has all the keys
of the same map of `a`, and a zip code mapped in `a` is mapped to the same name in `b`. -/
def Grows (a b : RateAreasIndex) : Prop :=
  a.rateAreasByName.KeysSubset b.rateAreasByName ∧
  a.rateAreaNamesByZip.KeysSubset b.rateAreaNamesByZip ∧
  a.ambiguousZipcodes.KeysSubset b.ambiguousZipcodes ∧
  a.unmappedPlanRateAreas.KeysSubset b.unmappedPlanRateAreas ∧
  a.insufficientPlanZips.KeysSubset b.insufficientPlanZips ∧
  ∀ z name, a.rateAreaNamesByZip.get? z = some name → b.rateAreaNamesByZip.get? z = some name

/-- Every rate area of the index `a` is in the index `b` under the same name, with the same
state, number and rates. -/
def RatesKept (a b : RateAreasIndex) : Prop :=
  ∀ k ra, a.rateAreasByName.get? k = some ra → b.rateAreasByName.get? k = some ra

/-! ## Lemmas on `float64` -/

namespace Float64

theorem zero_eq : (0 : Float64) = fin 0 := by
  show fin ((0 : ℕ) : ℚ) = fin 0
  rw [Nat.cast_zero]

theorem isZero_zero : (0 : Float64).isZero := Or.inl zero_eq

theorem lt_def (a b : Float64) : a < b ↔ lt a b = true := Iff.rfl

theorem le_def (a b : Float64) : a ≤ b ↔ le a b = true := Iff.rfl

theorem not_lt_self (a : Float64) : ¬a < a := by
  rw [lt_def]
  cases a <;> simp [lt, toRat]

theorem not_lt_of_le {a b : Float64} (h : a ≤ b) : ¬b < a := by
  rw [le_def] at h
  rw [lt_def]
  cases a <;> cases b <;> simp_all [lt, le, toRat]

theorem rank_zero : rank (0 : Float64) = (((0 : ℚ) : WithTop ℚ) : WithBot (WithTop ℚ)) := rfl

theorem lt_iff_rank {a b : Float64} (ha : a ≠ nan) (hb : b ≠ nan) :
    a < b ↔ rank a < rank b := by
  rw [lt_def]
  cases a <;> cases b <;>
    simp only [lt, toRat, rank, WithBot.coe_lt_coe, WithTop.coe_lt_coe, WithBot.bot_lt_coe,
      WithTop.coe_lt_top, lt_self_iff_false, not_lt_bot, not_top_lt, decide_eq_true_eq,
      ne_eq, not_true_eq_false, reduceCtorEq, not_false_eq_true] at ha hb ⊢

theorem le_iff_rank {a b : Float64} (ha : a ≠ nan) (hb : b ≠ nan) :
    a ≤ b ↔ rank a ≤ rank b := by
  rw [le_def]
  cases a <;> cases b <;>
    simp only [le, toRat, rank, WithBot.coe_le_coe, WithTop.coe_le_coe, bot_le,
      le_top, le_refl, le_bot_iff, top_le_iff, WithBot.coe_ne_bot, WithTop.coe_ne_top,
      decide_eq_true_eq,
      ne_eq, not_true_eq_false, reduceCtorEq, not_false_eq_true] at ha hb ⊢

theorem isZero_iff_rank {a : Float64} (ha : a ≠ nan) :
    a.isZero ↔ rank a = rank 0 := by
  cases a <;> simp only [isZero, rank, zero_eq, WithBot.coe_inj, WithTop.coe_inj,
      WithBot.bot_ne_coe, WithTop.top_ne_coe, fin.injEq, or_false, or_true, false_or,
      ne_eq, not_true_eq_false, reduceCtorEq, not_false_eq_true, Nat.cast_zero] at ha ⊢

theorem rank_inj {a b : Float64} (ha : a ≠ nan) (hb : b ≠ nan) (ha' : a ≠ negZero)
    (hb' : b ≠ negZero) (h : rank a = rank b) : a = b := by
  cases a <;> cases b <;> simp only [isZero, rank, zero_eq, WithBot.coe_inj, WithTop.coe_inj,
      WithBot.bot_ne_coe, WithTop.top_ne_coe, WithBot.coe_ne_bot, WithTop.coe_ne_top,
      fin.injEq, or_false, or_true, false_or,
      ne_eq, not_true_eq_false, reduceCtorEq, not_false_eq_true] at ha hb ha' hb' h ⊢
  all_goals exact h

end Float64

/-! ## Lemmas on Go maps -/

namespace GoMap

variable {V : Type}

theorem get?_set_self (m : GoMap V) (k : String) (v : V) : (m.set k v).get? k = some v := by
  induction m with
  | nil => simp [set, get?]
  | cons kv m ih =>
    obtain ⟨k', v'⟩ := kv
    by_cases h : k' = k
    · simp [set, get?, h]
    · simp [set, get?, h, ih]

theorem get?_set_ne (m : GoMap V) {k k' : String} (v : V) (h : k ≠ k') :
    (m.set k v).get? k' = m.get? k' := by
  induction m with
  | nil => simp [set, get?, h]
  | cons kv m ih =>
    obtain ⟨k0, v0⟩ := kv
    by_cases h0 : k0 = k
    · subst h0
      simp [set, get?, h]
    · by_cases h1 : k0 = k'
      · subst h1
        simp [set, get?, h0]
      · simp [set, get?, h0, h1, ih]

theorem set_eq_self (m : GoMap V) {k : String} {v : V} (h : m.get? k = some v) :
    m.set k v = m := by
  induction m with
  | nil => simp [get?] at h
  | cons kv m ih =>
    obtain ⟨k0, v0⟩ := kv
    by_cases h0 : k0 = k
    · subst h0
      simp [get?] at h
      simp [set, h]
    · simp [get?, h0] at h
      simp [set, h0, ih h]

theorem set_set_same (m : GoMap V) (k : String) (v : V) : (m.set k v).set k v = m.set k v :=
  set_eq_self _ (get?_set_self m k v)

theorem set_set (m : GoMap V) (k : String) (v w : V) : (m.set k v).set k w = m.set k w := by
  induction m with
  | nil => simp [set]
  | cons kv m ih =>
    obtain ⟨k0, v0⟩ := kv
    by_cases h0 : k0 = k
    · simp [set, h0]
    · simp [set, h0, ih]

theorem contains_set (m : GoMap V) (k k' : String) (v : V) :
    (m.set k v).contains k' = (decide (k = k') || m.contains k') := by
  by_cases h : k = k'
  · subst h
    simp [contains, get?_set_self]
  · simp [contains, get?_set_ne m v h, h]

end GoMap

/-! ## Lemmas on `AddRateArea` and `AddMapping` -/

namespace RateAreasIndex

theorem addRateArea_frame (rai : RateAreasIndex) (state number : String) :
    (rai.AddRateArea state number).1.rateAreaNamesByZip = rai.rateAreaNamesByZip ∧
    (rai.AddRateArea state number).1.ambiguousZipcodes = rai.ambiguousZipcodes ∧
    (rai.AddRateArea state number).1.unmappedPlanRateAreas = rai.unmappedPlanRateAreas ∧
    (rai.AddRateArea state number).1.insufficientPlanZips = rai.insufficientPlanZips := by
  unfold AddRateArea
  cases rai.rateAreasByName.get? (state ++ " " ++ number) <;> simp

theorem addRateArea_name (rai : RateAreasIndex) (h : RegistryNamed rai) (state number : String) :
    (rai.AddRateArea state number).2 = state ++ " " ++ number := by
  unfold AddRateArea
  cases hg : rai.rateAreasByName.get? (state ++ " " ++ number) with
  | none => simp [NewRateArea, RateArea.GetName]
  | some found => simpa using h _ _ hg

theorem addRateArea_named (rai : RateAreasIndex) (h : RegistryNamed rai) (state number : String) :
    RegistryNamed (rai.AddRateArea state number).1 := by
  unfold AddRateArea
  cases hg : rai.rateAreasByName.get? (state ++ " " ++ number) with
  | some found => simpa using h
  | none =>
    intro k ra hk
    simp only at hk
    by_cases hk' : (NewRateArea state number).GetName = k
    · rw [← hk', GoMap.get?_set_self] at hk
      cases hk
      exact hk'
    · rw [GoMap.get?_set_ne _ _ hk'] at hk
      exact h k ra hk

theorem addMapping_named (rai : RateAreasIndex) (h : RegistryNamed rai)
    (zipCode state number : String) : RegistryNamed (rai.AddMapping zipCode state number) := by
  have h1 := addRateArea_named rai h state number
  unfold AddMapping
  simp only
  split
  · split
    · exact h1
    · exact h1
  · exact h1

theorem addMapping_names (rai : RateAreasIndex) (h : RegistryNamed rai)
    (zipCode state number z : String) :
    (rai.AddMapping zipCode state number).rateAreaNamesByZip.get? z =
      (rai.rateAreaNamesByZip.get? z).or
        (if zipCode = z then some (state ++ " " ++ number) else none) := by
  have hn := addRateArea_name rai h state number
  have hf := (addRateArea_frame rai state number).1
  unfold AddMapping
  simp only
  rw [hf, hn]
  cases hz : rai.rateAreaNamesByZip.get? zipCode with
  | some mapped =>
    have hgoal : rai.rateAreaNamesByZip.get? z =
        (rai.rateAreaNamesByZip.get? z).or
          (if zipCode = z then some (state ++ " " ++ number) else none) := by
      by_cases hzz : zipCode = z
      · subst hzz
        simp [hz]
      · cases rai.rateAreaNamesByZip.get? z <;> simp [hzz]
    simp only
    by_cases hne : mapped ≠ state ++ " " ++ number
    · rw [if_pos hne]
      exact hgoal
    · rw [if_neg hne, hf]
      exact hgoal
  | none =>
    simp only
    by_cases hzz : zipCode = z
    · subst hzz
      simp [GoMap.get?_set_self, hz]
    · rw [GoMap.get?_set_ne _ _ hzz]
      cases rai.rateAreaNamesByZip.get? z <;> simp [hzz]

theorem addMapping_ambiguous (rai : RateAreasIndex) (h : RegistryNamed rai)
    (zipCode state number z : String) :
    (rai.AddMapping zipCode state number).ambiguousZipcodes.contains z = true ↔
      rai.ambiguousZipcodes.contains z = true ∨
        (zipCode = z ∧ ∃ a, rai.rateAreaNamesByZip.get? z = some a ∧
          a ≠ state ++ " " ++ number) := by
  have hn := addRateArea_name rai h state number
  obtain ⟨hf, ha, -, -⟩ := addRateArea_frame rai state number
  unfold AddMapping
  simp only
  rw [hf, hn]
  cases hz : rai.rateAreaNamesByZip.get? zipCode with
  | some mapped =>
    simp only
    by_cases hne : mapped ≠ state ++ " " ++ number
    · rw [if_pos hne]
      simp only [GoMap.contains_set, ha, Bool.or_eq_true, decide_eq_true_eq]
      constructor
      · rintro (rfl | hc)
        · exact Or.inr ⟨rfl, mapped, hz, hne⟩
        · exact Or.inl hc
      · rintro (hc | ⟨rfl, -⟩)
        · exact Or.inr hc
        · exact Or.inl rfl
    · rw [if_neg hne, ha]
      constructor
      · exact Or.inl
      · rintro (hc | ⟨rfl, a, hza, hane⟩)
        · exact hc
        · rw [hz] at hza
          cases hza
          exact absurd hane hne
  | none =>
    simp only [ha]
    constructor
    · exact Or.inl
    · rintro (hc | ⟨rfl, a, hza, -⟩)
      · exact hc
      · rw [hz] at hza
        cases hza

theorem addMappings_named (recs : List ZipRecord) (rai : RateAreasIndex) (h : RegistryNamed rai) :
    RegistryNamed (rai.AddMappings recs) := by
  induction recs generalizing rai with
  | nil => exact h
  | cons r rs ih => exact ih _ (addMapping_named rai h _ _ _)

theorem registryNamed_empty : RegistryNamed empty := by
  intro k ra hk
  simp [empty, GoMap.get?] at hk

theorem firstAreaOf_cons (r : ZipRecord) (rs : List ZipRecord) (z : String) :
    firstAreaOf (r :: rs) z = if r.zipCode = z then some r.areaName else firstAreaOf rs z := by
  unfold firstAreaOf
  by_cases h : r.zipCode = z <;> simp [List.find?, h]

theorem addMappings_names (recs : List ZipRecord) (rai : RateAreasIndex)
    (h : RegistryNamed rai) (z : String) :
    (rai.AddMappings recs).rateAreaNamesByZip.get? z =
      (rai.rateAreaNamesByZip.get? z).or (firstAreaOf recs z) := by
  induction recs generalizing rai with
  | nil => simp [AddMappings, firstAreaOf]
  | cons r rs ih =>
    have := ih (rai.AddMapping r.zipCode r.state r.number) (addMapping_named rai h _ _ _)
    simp only [AddMappings, List.foldl_cons] at this ⊢
    have e : r.state ++ " " ++ r.number = r.areaName := rfl
    rw [this, addMapping_names rai h, firstAreaOf_cons, e]
    cases rai.rateAreaNamesByZip.get? z <;> by_cases hz : r.zipCode = z <;> simp [hz]

theorem addMappings_ambiguous (recs : List ZipRecord) (rai : RateAreasIndex)
    (h : RegistryNamed rai) (z : String) :
    (rai.AddMappings recs).ambiguousZipcodes.contains z = true ↔
      rai.ambiguousZipcodes.contains z = true ∨
        ∃ r ∈ recs, r.zipCode = z ∧
          some r.areaName ≠ (rai.rateAreaNamesByZip.get? z).or (firstAreaOf recs z) := by
  induction recs generalizing rai with
  | nil => simp [AddMappings]
  | cons r rs ih =>
    have := ih (rai.AddMapping r.zipCode r.state r.number) (addMapping_named rai h _ _ _)
    simp only [AddMappings, List.foldl_cons] at this ⊢
    have e : r.state ++ " " ++ r.number = r.areaName := rfl
    rw [this, addMapping_ambiguous rai h, addMapping_names rai h, firstAreaOf_cons, e]
    simp only [List.mem_cons, exists_eq_or_imp]
    cases hg : rai.rateAreaNamesByZip.get? z <;> by_cases hz : r.zipCode = z <;>
      simp [hz, or_assoc]
    rename_i v
    rw [show (v = r.areaName) = (r.areaName = v) from propext eq_comm]

theorem firstAreaOf_isSome (recs : List ZipRecord) (z : String) :
    (firstAreaOf recs z).isSome = true ↔ ∃ r ∈ recs, r.zipCode = z := by
  induction recs with
  | nil => simp [firstAreaOf]
  | cons r rs ih =>
    rw [firstAreaOf_cons]
    by_cases h : r.zipCode = z
    · simp [h]
    · simp [h, ih]

theorem firstAreaOf_mem (recs : List ZipRecord) (z a : String) (h : firstAreaOf recs z = some a) :
    ∃ r ∈ recs, r.zipCode = z ∧ r.areaName = a := by
  induction recs with
  | nil => simp [firstAreaOf] at h
  | cons r rs ih =>
    rw [firstAreaOf_cons] at h
    by_cases hz : r.zipCode = z
    · rw [if_pos hz] at h
      cases h
      exact ⟨r, List.mem_cons_self _ _, hz, rfl⟩
    · rw [if_neg hz] at h
      obtain ⟨r', hr', h1, h2⟩ := ih h
      exact ⟨r', List.mem_cons_of_mem _ hr', h1, h2⟩

end RateAreasIndex

/-! ## Lemmas on `AddPlan` -/

namespace RateAreasIndex

/-- The rate area `ra` with its two slots replaced. -/
theorem withSlots_eta (ra : RateArea) :
    ({ ra with top1SilverPlan := ra.top1SilverPlan, top2SilverPlan := ra.top2SilverPlan } :
      RateArea) = ra := rfl

theorem addPlan_of_not_silver (sc : Strconv) (rai : RateAreasIndex)
    (state number planId level rate : String) (h : level ≠ LEVEL_NAME_SILVER) :
    rai.AddPlan sc state number planId level rate = .ok (rai, false) := by
  unfold AddPlan
  rw [if_neg (fun e => h e.symm)]

theorem addPlan_of_unregistered (sc : Strconv) (rai : RateAreasIndex)
    (state number planId rate : String) (r : Float64) (hparse : sc.ParseFloat rate = some r)
    (hreg : rai.rateAreasByName.get? (state ++ " " ++ number) = none) :
    rai.AddPlan sc state number planId LEVEL_NAME_SILVER rate =
      .ok ({ rai with unmappedPlanRateAreas :=
              rai.unmappedPlanRateAreas.set (state ++ " " ++ number) true }, false) := by
  unfold AddPlan
  simp [hparse, hreg]

theorem addPlan_of_registered (sc : Strconv) (rai : RateAreasIndex)
    (state number planId rate : String) (r : Float64) (ra : RateArea)
    (hparse : sc.ParseFloat rate = some r)
    (hreg : rai.rateAreasByName.get? (state ++ " " ++ number) = some ra) :
    ∃ madeIt, rai.AddPlan sc state number planId LEVEL_NAME_SILVER rate =
      .ok ({ rai with
              rateAreasByName := rai.rateAreasByName.set (state ++ " " ++ number)
                { ra with
                  top1SilverPlan := (slotsAfter (ra.top1SilverPlan, ra.top2SilverPlan) r).1,
                  top2SilverPlan := (slotsAfter (ra.top1SilverPlan, ra.top2SilverPlan) r).2 } },
           madeIt) := by
  unfold AddPlan slotsAfter
  simp only [hparse, hreg, if_true]
  by_cases h1 : r < ra.top1SilverPlan ∨ ra.top1SilverPlan.isZero
  · exact ⟨true, by simp only [if_pos h1]⟩
  · by_cases h2 : r < ra.top2SilverPlan ∨ ra.top2SilverPlan.isZero
    · exact ⟨true, by simp only [if_neg h1, if_pos h2]⟩
    · refine ⟨false, ?_⟩
      simp only [if_neg h1, if_neg h2]
      rw [withSlots_eta, GoMap.set_eq_self _ hreg]

theorem addPlans_one_area (sc : Strconv) (areaName : String) (ps : List PlanRecord)
    (rs : List Float64) (rai : RateAreasIndex) (ra : RateArea)
    (hreg : rai.rateAreasByName.get? areaName = some ra)
    (hps : ∀ p ∈ ps, p.level = LEVEL_NAME_SILVER ∧ p.areaName = areaName)
    (hparse : ps.map (fun p => sc.ParseFloat p.rate) = rs.map some) :
    AddPlans sc rai ps =
      .ok { rai with
            rateAreasByName := rai.rateAreasByName.set areaName
              { ra with
                top1SilverPlan :=
                  (rs.foldl slotsAfter (ra.top1SilverPlan, ra.top2SilverPlan)).1,
                top2SilverPlan :=
                  (rs.foldl slotsAfter (ra.top1SilverPlan, ra.top2SilverPlan)).2 } } := by
  induction ps generalizing rs rai ra with
  | nil =>
    cases rs with
    | nil =>
      simp only [AddPlans, List.foldl_nil]
      rw [withSlots_eta, GoMap.set_eq_self _ hreg]
    | cons r rs => simp at hparse
  | cons p ps ih =>
    cases rs with
    | nil => simp at hparse
    | cons r rs =>
      simp only [List.map_cons, List.cons.injEq] at hparse
      obtain ⟨hlevel, hname⟩ := hps p (List.mem_cons_self _ _)
      have hreg' : rai.rateAreasByName.get? (p.state ++ " " ++ p.number) = some ra := by
        rw [← hname] at hreg
        exact hreg
      obtain ⟨madeIt, hstep⟩ := addPlan_of_registered sc rai p.state p.number p.planId p.rate r ra
        hparse.1 hreg'
      have hname' : p.state ++ " " ++ p.number = areaName := hname
      rw [hname'] at hstep
      simp only [AddPlans, hlevel, hstep]
      rw [ih rs _ _ (GoMap.get?_set_self _ _ _)
        (fun q hq => hps q (List.mem_cons_of_mem _ hq)) hparse.2]
      simp only [GoMap.set_set, List.foldl_cons]

theorem addPlan_frame (sc : Strconv) (rai rai' : RateAreasIndex)
    (state number planId level rate : String) (madeIt : Bool)
    (h : rai.AddPlan sc state number planId level rate = .ok (rai', madeIt)) :
    rai'.rateAreaNamesByZip = rai.rateAreaNamesByZip ∧
    rai'.ambiguousZipcodes = rai.ambiguousZipcodes ∧
    rai'.insufficientPlanZips = rai.insufficientPlanZips := by
  by_cases hl : level = LEVEL_NAME_SILVER
  · subst hl
    cases hparse : sc.ParseFloat rate with
    | none =>
      unfold AddPlan at h
      simp [hparse] at h
    | some r =>
      cases hreg : rai.rateAreasByName.get? (state ++ " " ++ number) with
      | none =>
        rw [addPlan_of_unregistered sc rai state number planId rate r hparse hreg] at h
        cases h
        exact ⟨rfl, rfl, rfl⟩
      | some ra =>
        obtain ⟨b, hb⟩ := addPlan_of_registered sc rai state number planId rate r ra hparse hreg
        rw [hb] at h
        cases h
        exact ⟨rfl, rfl, rfl⟩
  · rw [addPlan_of_not_silver sc rai state number planId level rate hl] at h
    cases h
    exact ⟨rfl, rfl, rfl⟩

theorem addPlan_other_area (sc : Strconv) (rai rai' : RateAreasIndex)
    (state number planId level rate areaName : String) (madeIt : Bool)
    (h : rai.AddPlan sc state number planId level rate = .ok (rai', madeIt))
    (hother : ¬(level = LEVEL_NAME_SILVER ∧ state ++ " " ++ number = areaName)) :
    rai'.rateAreasByName.get? areaName = rai.rateAreasByName.get? areaName := by
  by_cases hl : level = LEVEL_NAME_SILVER
  · have hk : state ++ " " ++ number ≠ areaName := fun e => hother ⟨hl, e⟩
    subst hl
    cases hparse : sc.ParseFloat rate with
    | none =>
      unfold AddPlan at h
      simp [hparse] at h
    | some r =>
      cases hreg : rai.rateAreasByName.get? (state ++ " " ++ number) with
      | none =>
        rw [addPlan_of_unregistered sc rai state number planId rate r hparse hreg] at h
        cases h
        rfl
      | some ra =>
        obtain ⟨b, hb⟩ := addPlan_of_registered sc rai state number planId rate r ra hparse hreg
        rw [hb] at h
        cases h
        exact GoMap.get?_set_ne _ _ hk
  · rw [addPlan_of_not_silver sc rai state number planId level rate hl] at h
    cases h
    rfl

theorem addPlans_frame (sc : Strconv) (ps : List PlanRecord) (rai rai' : RateAreasIndex)
    (h : AddPlans sc rai ps = .ok rai') :
    rai'.rateAreaNamesByZip = rai.rateAreaNamesByZip ∧
    rai'.ambiguousZipcodes = rai.ambiguousZipcodes ∧
    rai'.insufficientPlanZips = rai.insufficientPlanZips := by
  induction ps generalizing rai with
  | nil =>
    simp only [AddPlans] at h
    cases h
    exact ⟨rfl, rfl, rfl⟩
  | cons p ps ih =>
    simp only [AddPlans] at h
    split at h
    · cases h
    · rename_i r hr
      obtain ⟨h1, h2, h3⟩ := ih _ h
      obtain ⟨g1, g2, g3⟩ := addPlan_frame sc rai r.1 _ _ _ _ _ r.2 hr
      exact ⟨h1.trans g1, h2.trans g2, h3.trans g3⟩

theorem addPlans_other_area (sc : Strconv) (areaName : String) (ps : List PlanRecord)
    (rai rai' : RateAreasIndex) (h : AddPlans sc rai ps = .ok rai')
    (hnone : silverPlansOf areaName ps = []) :
    rai'.rateAreasByName.get? areaName = rai.rateAreasByName.get? areaName := by
  induction ps generalizing rai with
  | nil =>
    simp only [AddPlans] at h
    cases h
    rfl
  | cons p ps ih =>
    simp only [AddPlans] at h
    split at h
    · cases h
    · rename_i r hr
      have hp : ¬(p.level = LEVEL_NAME_SILVER ∧ p.areaName = areaName) := by
        intro hc
        simp [silverPlansOf, List.filter_cons, hc] at hnone
      have hrest : silverPlansOf areaName ps = [] := by
        simpa [silverPlansOf, List.filter_cons, hp] using hnone
      rw [ih _ h hrest]
      exact addPlan_other_area sc rai r.1 _ _ _ _ _ areaName r.2 hr hp

theorem addPlans_at_most_one (sc : Strconv) (areaName : String) (ps : List PlanRecord)
    (rai rai' : RateAreasIndex) (ra : RateArea) (h : AddPlans sc rai ps = .ok rai')
    (hreg : rai.rateAreasByName.get? areaName = some ra)
    (hfresh : ra.top1SilverPlan = 0 ∧ ra.top2SilverPlan = 0)
    (hcount : (silverPlansOf areaName ps).length ≤ 1) :
    ∃ ra', rai'.rateAreasByName.get? areaName = some ra' ∧ ra'.top2SilverPlan = 0 := by
  induction ps generalizing rai with
  | nil =>
    simp only [AddPlans] at h
    cases h
    exact ⟨ra, hreg, hfresh.2⟩
  | cons p ps ih =>
    simp only [AddPlans] at h
    split at h
    · cases h
    · rename_i r hr
      by_cases hp : p.level = LEVEL_NAME_SILVER ∧ p.areaName = areaName
      · have hcons : silverPlansOf areaName (p :: ps) = p :: silverPlansOf areaName ps := by
          simp [silverPlansOf, List.filter_cons, hp]
        have hrest : silverPlansOf areaName ps = [] := by
          rw [hcons, List.length_cons] at hcount
          exact List.length_eq_zero.mp (by omega)
        rw [addPlans_other_area sc areaName ps _ _ h hrest]
        have hname : p.state ++ " " ++ p.number = areaName := hp.2
        have hreg' : rai.rateAreasByName.get? (p.state ++ " " ++ p.number) = some ra := by
          rw [hname]
          exact hreg
        rw [hp.1] at hr
        cases hparse : sc.ParseFloat p.rate with
        | none =>
          unfold AddPlan at hr
          simp [hparse] at hr
        | some x =>
          obtain ⟨b, hstep⟩ := addPlan_of_registered sc rai p.state p.number p.planId p.rate x ra
            hparse hreg'
          rw [hstep] at hr
          cases hr
          rw [hname]
          refine ⟨_, GoMap.get?_set_self _ _ _, ?_⟩
          simp [slotsAfter, hfresh.1, hfresh.2, Float64.isZero_zero]
      · have hrest : (silverPlansOf areaName ps).length ≤ 1 := by
          simpa [silverPlansOf, List.filter_cons, hp] using hcount
        have hsame := addPlan_other_area sc rai r.1 _ _ _ _ _ areaName r.2 hr hp
        exact ih _ h (hsame.trans hreg) hrest

/-! ## Lemmas on `GetSlcspForZipcode` -/

theorem getSlcsp_of_ambiguous (sc : Strconv) (rai : RateAreasIndex) (z : String)
    (h : rai.ambiguousZipcodes.contains z = true) :
    rai.GetSlcspForZipcode sc z = .ok ("", rai) := by
  unfold GetSlcspForZipcode
  rw [if_pos h]

theorem getSlcsp_of_unmapped (sc : Strconv) (rai : RateAreasIndex) (z : String)
    (h : rai.rateAreaNamesByZip.get? z = none) :
    rai.GetSlcspForZipcode sc z = .ok ("", rai) := by
  unfold GetSlcspForZipcode
  split
  · rfl
  · simp [h]

theorem getSlcsp_of_mapped (sc : Strconv) (rai : RateAreasIndex) (z a : String) (ra : RateArea)
    (hamb : rai.ambiguousZipcodes.contains z = false)
    (hmap : rai.rateAreaNamesByZip.get? z = some a)
    (hreg : rai.rateAreasByName.get? a = some ra) :
    rai.GetSlcspForZipcode sc z =
      if sc.FormatFloat ra.top2SilverPlan = "0" then
        .ok ("", { rai with insufficientPlanZips := rai.insufficientPlanZips.set z true })
      else .ok (sc.FormatFloat ra.top2SilverPlan, rai) := by
  unfold GetSlcspForZipcode
  simp [hamb, hmap, hreg, RateArea.GetSlcspString]

theorem getSlcsp_total (sc : Strconv) (rai : RateAreasIndex) (z : String)
    (hwf : AreasRegistered rai) :
    ∃ ins, rai.GetSlcspForZipcode sc z =
      .ok (resolve sc rai z, { rai with insufficientPlanZips := ins }) := by
  by_cases hamb : rai.ambiguousZipcodes.contains z = true
  · refine ⟨rai.insufficientPlanZips, ?_⟩
    simp only [resolve, getSlcsp_of_ambiguous sc rai z hamb]
  · cases hmap : rai.rateAreaNamesByZip.get? z with
    | none =>
      refine ⟨rai.insufficientPlanZips, ?_⟩
      simp only [resolve, getSlcsp_of_unmapped sc rai z hmap]
    | some a =>
      have hreg := hwf z a hmap
      obtain ⟨ra, hra⟩ := Option.isSome_iff_exists.mp hreg
      have hamb' : rai.ambiguousZipcodes.contains z = false := by simpa using hamb
      have hget := getSlcsp_of_mapped sc rai z a ra hamb' hmap hra
      by_cases hzero : sc.FormatFloat ra.top2SilverPlan = "0"
      · rw [if_pos hzero] at hget
        exact ⟨rai.insufficientPlanZips.set z true, by simp only [resolve, hget]⟩
      · rw [if_neg hzero] at hget
        exact ⟨rai.insufficientPlanZips, by simp only [resolve, hget]⟩

theorem resolve_insufficient (sc : Strconv) (rai : RateAreasIndex) (ins : GoMap Bool)
    (z : String) :
    resolve sc { rai with insufficientPlanZips := ins } z = resolve sc rai z := by
  unfold resolve GetSlcspForZipcode
  simp only
  by_cases hamb : rai.ambiguousZipcodes.contains z = true
  · simp [hamb]
  · cases hmap : rai.rateAreaNamesByZip.get? z with
    | none => simp [hamb]
    | some a =>
      cases hreg : rai.rateAreasByName.get? a with
      | none => simp [hamb, hreg]
      | some ra => by_cases hz : ra.GetSlcspString sc = "0" <;> simp [hamb, hreg, hz]

/-! ## Every zip code of a built index is mapped to a registered area -/

theorem addRateArea_contains (rai : RateAreasIndex) (state number a : String)
    (h : rai.rateAreasByName.contains a = true) :
    (rai.AddRateArea state number).1.rateAreasByName.contains a = true := by
  unfold AddRateArea
  cases rai.rateAreasByName.get? (state ++ " " ++ number) with
  | some found => exact h
  | none => simp [GoMap.contains_set, h]

theorem addRateArea_contains_self (rai : RateAreasIndex) (state number : String) :
    (rai.AddRateArea state number).1.rateAreasByName.contains (state ++ " " ++ number) =
      true := by
  unfold AddRateArea
  cases hreg : rai.rateAreasByName.get? (state ++ " " ++ number) with
  | some found => simp [GoMap.contains, hreg]
  | none => simp [GoMap.contains_set, NewRateArea, RateArea.GetName]

theorem addMapping_registry (rai : RateAreasIndex) (zipCode state number : String) :
    (rai.AddMapping zipCode state number).rateAreasByName =
      (rai.AddRateArea state number).1.rateAreasByName := by
  unfold AddMapping
  simp only
  split
  · split <;> rfl
  · rfl

theorem areasRegistered_addMapping (rai : RateAreasIndex) (h : RegistryNamed rai)
    (hwf : AreasRegistered rai) (zipCode state number : String) :
    AreasRegistered (rai.AddMapping zipCode state number) := by
  intro z a hz
  rw [addMapping_names rai h] at hz
  rw [addMapping_registry]
  cases hold : rai.rateAreaNamesByZip.get? z with
  | some b =>
    rw [hold] at hz
    simp only [Option.or_some, Option.some.injEq] at hz
    subst hz
    exact addRateArea_contains rai state number b (hwf z b hold)
  | none =>
    rw [hold] at hz
    by_cases hzz : zipCode = z
    · simp only [hzz, if_true, Option.or_some, Option.none_or, Option.some.injEq] at hz
      subst hz
      exact addRateArea_contains_self rai state number
    · simp [hzz] at hz

theorem areasRegistered_addMappings (recs : List ZipRecord) (rai : RateAreasIndex)
    (h : RegistryNamed rai) (hwf : AreasRegistered rai) :
    AreasRegistered (rai.AddMappings recs) := by
  induction recs generalizing rai with
  | nil => exact hwf
  | cons r rs ih =>
    exact ih _ (addMapping_named rai h _ _ _) (areasRegistered_addMapping rai h hwf _ _ _)

theorem addPlan_contains (sc : Strconv) (rai rai' : RateAreasIndex)
    (state number planId level rate a : String) (madeIt : Bool)
    (h : rai.AddPlan sc state number planId level rate = .ok (rai', madeIt)) :
    rai'.rateAreasByName.contains a = rai.rateAreasByName.contains a := by
  by_cases hother : level = LEVEL_NAME_SILVER ∧ state ++ " " ++ number = a
  · obtain ⟨hl, hk⟩ := hother
    subst hl
    cases hparse : sc.ParseFloat rate with
    | none =>
      unfold AddPlan at h
      simp [hparse] at h
    | some r =>
      cases hreg : rai.rateAreasByName.get? (state ++ " " ++ number) with
      | none =>
        rw [addPlan_of_unregistered sc rai state number planId rate r hparse hreg] at h
        cases h
        rfl
      | some ra =>
        obtain ⟨b, hb⟩ := addPlan_of_registered sc rai state number planId rate r ra hparse hreg
        rw [hb] at h
        cases h
        rw [← hk]
        simp [GoMap.contains, GoMap.get?_set_self, hreg]
  · unfold GoMap.contains
    rw [addPlan_other_area sc rai rai' state number planId level rate a madeIt h hother]

theorem areasRegistered_addPlans (sc : Strconv) (ps : List PlanRecord)
    (rai rai' : RateAreasIndex) (h : AddPlans sc rai ps = .ok rai')
    (hwf : AreasRegistered rai) : AreasRegistered rai' := by
  induction ps generalizing rai with
  | nil =>
    simp only [AddPlans] at h
    cases h
    exact hwf
  | cons p ps ih =>
    simp only [AddPlans] at h
    split at h
    · cases h
    · rename_i r hr
      apply ih _ h
      intro z a hz
      rw [(addPlan_frame sc rai r.1 _ _ _ _ _ r.2 hr).1] at hz
      rw [addPlan_contains sc rai r.1 _ _ _ _ _ a r.2 hr]
      exact hwf z a hz

theorem areasRegistered_built (sc : Strconv) (recs : List ZipRecord) (ps : List PlanRecord)
    (rai : RateAreasIndex) (h : AddPlans sc (empty.AddMappings recs) ps = .ok rai) :
    AreasRegistered rai := by
  apply areasRegistered_addPlans sc ps _ rai h
  apply areasRegistered_addMappings recs empty registryNamed_empty
  intro z a hz
  simp [empty, GoMap.get?] at hz

/-! ## Lemmas on lines -/

theorem splitChars_head (sep : Char) (cs : List Char) :
    ∃ rest, splitChars sep cs = cs.takeWhile (· ≠ sep) :: rest := by
  induction cs with
  | nil => exact ⟨[], rfl⟩
  | cons c cs ih =>
    obtain ⟨rest, hrest⟩ := ih
    by_cases hc : c = sep
    · exact ⟨splitChars sep cs, by simp [splitChars, hc]⟩
    · exact ⟨rest, by simp [splitChars, hc, hrest]⟩

theorem fieldAt_zero (line : String) : fieldAt (stringsSplit line) 0 = .ok (firstField line) := by
  obtain ⟨rest, hrest⟩ := splitChars_head ',' line.data
  simp [fieldAt, stringsSplit, firstField, hrest]

theorem scanLines_toFile (sc : Strconv) (rai : RateAreasIndex) (hwf : AreasRegistered rai)
    (ls : List String) (ins : GoMap Bool) (out : List (List String)) (n : Nat) :
    ∃ ins', scanLines (toFileLinehandler sc) (ls.map some)
        ({ rai with insufficientPlanZips := ins }, out) n =
      .ok (({ rai with insufficientPlanZips := ins' },
            out ++ ls.map (fun l => [firstField l, resolve sc rai (firstField l)])),
           n + ls.length) := by
  induction ls generalizing ins out n with
  | nil => exact ⟨ins, by simp [scanLines]⟩
  | cons l ls ih =>
    have hwf' : AreasRegistered { rai with insufficientPlanZips := ins } := hwf
    obtain ⟨ins1, h1⟩ := getSlcsp_total sc { rai with insufficientPlanZips := ins }
      (firstField l) hwf'
    rw [resolve_insufficient] at h1
    obtain ⟨ins2, h2⟩ := ih ins1 (out ++ [[firstField l, resolve sc rai (firstField l)]]) (n + 1)
    refine ⟨ins2, ?_⟩
    simp only [List.map_cons, scanLines, toFileLinehandler, fieldAt_zero, h1]
    rw [h2]
    simp [Nat.add_assoc, Nat.add_comm 1]

theorem scanOutcomes_of_short (ls : List String)
    (hshort : ∀ l ∈ ls, l.utf8ByteSize < MaxScanTokenSize) :
    scanOutcomes ls = (ls.map dropCR).map some := by
  induction ls with
  | nil => rfl
  | cons l ls ih =>
    have hl : ¬MaxScanTokenSize ≤ l.utf8ByteSize := Nat.not_le.mpr (hshort l (by simp))
    simp only [scanOutcomes, if_neg hl, List.map_cons]
    rw [ih (fun x hx => hshort x (List.mem_cons_of_mem _ hx))]

theorem any_tooLong_of_short (ls : List String)
    (hshort : ∀ l ∈ ls, l.utf8ByteSize < MaxScanTokenSize) :
    ls.any (fun line => MaxScanTokenSize ≤ line.utf8ByteSize) = false := by
  rw [List.any_eq_false]
  intro l hl
  simpa using hshort l hl

theorem toFile_of_long_line (sc : Strconv) (rai : RateAreasIndex) (header long : String)
    (hhead : header.utf8ByteSize < MaxScanTokenSize)
    (hlong : MaxScanTokenSize ≤ long.utf8ByteSize) :
    rai.ToFile sc ⟨[header, long], false⟩ = .error .fatal := by
  have hhead' : ¬MaxScanTokenSize ≤ header.utf8ByteSize := Nat.not_le.mpr hhead
  simp only [ToFile, readCsvFileLines, NewScanner, scanOutcomes, if_neg hhead', if_pos hlong,
    scanHeadline, cloneLabels, scanLines, List.any_cons, decide_eq_true hlong, Bool.true_or,
    Bool.or_true, if_true]

theorem utf8ByteSize_replicate (n : Nat) :
    (String.mk (List.replicate n '1')).utf8ByteSize = n := by
  show String.utf8ByteSize.go (List.replicate n '1') = n
  induction n with
  | zero => rfl
  | succ k ih =>
    rw [List.replicate_succ]
    show String.utf8ByteSize.go (List.replicate k '1') + Char.utf8Size '1' = k + 1
    rw [ih]
    rfl

end RateAreasIndex

/-! ## Lemmas on the two slots, over a linear order -/

section TwoSlots

variable {α : Type} [LinearOrder α]

theorem stepTwo_firstTwoOf (z : α) (srt : List α) (r : α) (hs : srt.Sorted (· ≤ ·))
    (hnz : ∀ x ∈ srt, x ≠ z) :
    stepTwo z (firstTwoOf z srt) r = firstTwoOf z (srt.orderedInsert (· ≤ ·) r) := by
  match srt, hs, hnz with
  | [], _, _ => simp [stepTwo, firstTwoOf]
  | [a], _, hnz =>
    have ha : a ≠ z := hnz a (by simp)
    by_cases h1 : r < a
    · simp [stepTwo, firstTwoOf, List.orderedInsert, h1, le_of_lt h1]
    · by_cases h2 : r ≤ a
      · have : r = a := le_antisymm h2 (not_lt.mp h1)
        subst this
        simp [stepTwo, firstTwoOf, List.orderedInsert, ha]
      · simp [stepTwo, firstTwoOf, List.orderedInsert, h1, h2, ha]
  | a :: b :: rest, hs, hnz =>
    have ha : a ≠ z := hnz a (by simp)
    have hb : b ≠ z := hnz b (by simp)
    have hab : a ≤ b := List.rel_of_sorted_cons hs b (by simp)
    by_cases h1 : r < a
    · simp [stepTwo, firstTwoOf, List.orderedInsert, h1, le_of_lt h1]
    · by_cases h2 : r ≤ a
      · have hra : r = a := le_antisymm h2 (not_lt.mp h1)
        subst hra
        by_cases h3 : r < b
        · simp [stepTwo, firstTwoOf, List.orderedInsert, ha, h3]
        · have : b = r := le_antisymm (not_lt.mp h3) hab
          subst this
          simp [stepTwo, firstTwoOf, List.orderedInsert, ha]
      · by_cases h3 : r < b
        · simp [stepTwo, firstTwoOf, List.orderedInsert, h1, h2, ha, h3, le_of_lt h3]
        · by_cases h4 : r ≤ b
          · have : r = b := le_antisymm h4 (not_lt.mp h3)
            subst this
            simp [stepTwo, firstTwoOf, List.orderedInsert, h1, h2, ha, hb]
          · simp [stepTwo, firstTwoOf, List.orderedInsert, h1, h2, h3, h4, ha, hb]

theorem foldl_stepTwo_firstTwoOf (z : α) (rs : List α) (srt : List α)
    (hs : srt.Sorted (· ≤ ·)) (hnz : ∀ x ∈ srt, x ≠ z) (hrs : ∀ x ∈ rs, x ≠ z) :
    rs.foldl (stepTwo z) (firstTwoOf z srt) =
      firstTwoOf z (rs.foldl (fun acc r => acc.orderedInsert (· ≤ ·) r) srt) := by
  induction rs generalizing srt with
  | nil => rfl
  | cons r rs ih =>
    simp only [List.foldl_cons]
    rw [stepTwo_firstTwoOf z srt r hs hnz]
    apply ih _ (hs.orderedInsert r srt)
    · intro x hx
      rcases (List.mem_orderedInsert (· ≤ ·)).mp hx with rfl | hx
      · exact hrs _ (by simp)
      · exact hnz x hx
    · intro x hx
      exact hrs x (List.mem_cons_of_mem _ hx)

theorem foldl_orderedInsert_perm (rs srt : List α) :
    (rs.foldl (fun acc r => acc.orderedInsert (· ≤ ·) r) srt).Perm (srt ++ rs) := by
  induction rs generalizing srt with
  | nil => simp
  | cons r rs ih =>
    simp only [List.foldl_cons]
    refine (ih _).trans ?_
    refine ((List.perm_orderedInsert (· ≤ ·) r srt).append_right rs).trans ?_
    exact (List.perm_middle).symm

theorem foldl_orderedInsert_sorted (rs srt : List α) (hs : srt.Sorted (· ≤ ·)) :
    (rs.foldl (fun acc r => acc.orderedInsert (· ≤ ·) r) srt).Sorted (· ≤ ·) := by
  induction rs generalizing srt with
  | nil => exact hs
  | cons r rs ih => exact ih _ (hs.orderedInsert r srt)

theorem foldl_stepTwo_sorted (z : α) (rs : List α) (hrs : ∀ x ∈ rs, x ≠ z) :
    rs.foldl (stepTwo z) (z, z) = firstTwoOf z (rs.insertionSort (· ≤ ·)) := by
  have h := foldl_stepTwo_firstTwoOf z rs [] List.sorted_nil (by simp) hrs
  have h0 : firstTwoOf z ([] : List α) = (z, z) := by simp [firstTwoOf]
  rw [h0] at h
  rw [h]
  congr 1
  apply List.eq_of_perm_of_sorted (r := (· ≤ ·))
  · refine (foldl_orderedInsert_perm rs []).trans ?_
    simpa using (List.perm_insertionSort (· ≤ ·) rs).symm
  · exact foldl_orderedInsert_sorted rs [] List.sorted_nil
  · exact List.sorted_insertionSort (· ≤ ·) rs

theorem firstTwoOf_ordered (z : α) (srt : List α) (hs : srt.Sorted (· ≤ ·))
    (hnz : ∀ x ∈ srt, x ≠ z) :
    ((firstTwoOf z srt).2 ≠ z → (firstTwoOf z srt).1 ≠ z ∧
        (firstTwoOf z srt).1 ≤ (firstTwoOf z srt).2) ∧
    (srt ≠ [] → (firstTwoOf z srt).1 ≠ z) := by
  match srt, hs, hnz with
  | [], _, _ => simp [firstTwoOf]
  | [a], _, hnz => simp [firstTwoOf, hnz a (by simp)]
  | a :: b :: rest, hs, hnz =>
    have ha : a ≠ z := hnz a (by simp)
    have hab : a ≤ b := List.rel_of_sorted_cons hs b (by simp)
    simp [firstTwoOf, ha, hab]

end TwoSlots

/-! ## Lemmas on the two slots of a rate area -/

theorem slotsAfter_rank (s : Float64 × Float64) (r : Float64)
    (h1 : s.1 ≠ .nan) (h2 : s.2 ≠ .nan) (hr : r ≠ .nan) :
    Prod.map Float64.rank Float64.rank (slotsAfter s r) =
      stepTwo (Float64.rank 0) (Prod.map Float64.rank Float64.rank s) (Float64.rank r) := by
  simp only [slotsAfter, stepTwo, Prod.map_fst, Prod.map_snd, Float64.lt_iff_rank hr h1,
    Float64.lt_iff_rank hr h2, Float64.isZero_iff_rank h1, Float64.isZero_iff_rank h2]
  split_ifs <;> rfl

theorem slotsAfter_mem (s : Float64 × Float64) (r : Float64) (P : Float64 → Prop)
    (h1 : P s.1) (h2 : P s.2) (hr : P r) :
    P (slotsAfter s r).1 ∧ P (slotsAfter s r).2 := by
  unfold slotsAfter
  split_ifs
  · exact ⟨hr, h1⟩
  · exact ⟨h1, hr⟩
  · exact ⟨h1, h2⟩

theorem foldl_slotsAfter_mem (rs : List Float64) (s : Float64 × Float64) (P : Float64 → Prop)
    (h1 : P s.1) (h2 : P s.2) (hrs : ∀ r ∈ rs, P r) :
    P (rs.foldl slotsAfter s).1 ∧ P (rs.foldl slotsAfter s).2 := by
  induction rs generalizing s with
  | nil => exact ⟨h1, h2⟩
  | cons r rs ih =>
    simp only [List.foldl_cons]
    have h := slotsAfter_mem s r P h1 h2 (hrs r (by simp))
    exact ih _ h.1 h.2 (fun x hx => hrs x (List.mem_cons_of_mem _ hx))

theorem foldl_slotsAfter_rank (rs : List Float64) (s : Float64 × Float64)
    (h1 : s.1 ≠ .nan) (h2 : s.2 ≠ .nan) (hrs : ∀ r ∈ rs, r ≠ .nan) :
    Prod.map Float64.rank Float64.rank (rs.foldl slotsAfter s) =
      (rs.map Float64.rank).foldl (stepTwo (Float64.rank 0))
        (Prod.map Float64.rank Float64.rank s) := by
  induction rs generalizing s with
  | nil => rfl
  | cons r rs ih =>
    simp only [List.foldl_cons, List.map_cons]
    have hr : r ≠ .nan := hrs r (by simp)
    have h := slotsAfter_mem s r (· ≠ .nan) h1 h2 hr
    rw [ih _ h.1 h.2 (fun x hx => hrs x (List.mem_cons_of_mem _ hx)), slotsAfter_rank s r h1 h2 hr]

theorem sortedRates_perm (rs : List Float64) : (sortedRates rs).Perm rs :=
  List.perm_insertionSort _ rs

theorem sortedRates_rank (rs : List Float64) (hrs : ∀ r ∈ rs, r ≠ .nan) :
    (sortedRates rs).map Float64.rank = (rs.map Float64.rank).insertionSort (· ≤ ·) := by
  unfold sortedRates
  exact List.map_insertionSort (· ≤ ·) (· ≤ ·) Float64.rank rs
    (fun a ha b hb => Float64.le_iff_rank (hrs a ha) (hrs b hb))

theorem firstTwo_rank (l : List Float64) :
    Prod.map Float64.rank Float64.rank (firstTwo l) =
      firstTwoOf (Float64.rank 0) (l.map Float64.rank) := by
  match l with
  | [] => rfl
  | [a] => rfl
  | a :: b :: rest => simp [firstTwo, firstTwoOf]

theorem firstTwo_mem (l : List Float64) (P : Float64 → Prop) (h0 : P 0) (hl : ∀ x ∈ l, P x) :
    P (firstTwo l).1 ∧ P (firstTwo l).2 := by
  match l, hl with
  | [], _ => exact ⟨h0, h0⟩
  | [a], hl => exact ⟨hl a (by simp), h0⟩
  | a :: b :: rest, hl =>
    have hb : (firstTwo (a :: b :: rest)).2 = b := by simp [firstTwo]
    rw [hb]
    exact ⟨hl a (by simp), hl b (by simp)⟩

theorem isNonZeroNumber_rank {x : Float64} (h : x.IsNonZeroNumber) :
    Float64.rank x ≠ Float64.rank 0 := fun he => h.2 ((Float64.isZero_iff_rank h.1).mpr he)

theorem isNonZeroNumber_ne_negZero {x : Float64} (h : x.IsNonZeroNumber) : x ≠ .negZero :=
  fun he => h.2 (Or.inr he)

/-- From two unset slots, a run of rates that are non-zero numbers leaves the first two of
the sorted rates in the slots. -/
theorem foldl_slotsAfter_sorted (rs : List Float64) (hnz : ∀ r ∈ rs, r.IsNonZeroNumber) :
    rs.foldl slotsAfter (0, 0) = firstTwo (sortedRates rs) := by
  have hnan : ∀ r ∈ rs, r ≠ .nan := fun r hr => (hnz r hr).1
  have hgood : ∀ r ∈ rs, r ≠ .nan ∧ r ≠ .negZero :=
    fun r hr => ⟨(hnz r hr).1, isNonZeroNumber_ne_negZero (hnz r hr)⟩
  have h0 : (0 : Float64) ≠ .nan ∧ (0 : Float64) ≠ .negZero := by decide
  have hrank : Prod.map Float64.rank Float64.rank (rs.foldl slotsAfter (0, 0)) =
      Prod.map Float64.rank Float64.rank (firstTwo (sortedRates rs)) := by
    rw [foldl_slotsAfter_rank rs (0, 0) h0.1 h0.1 hnan, firstTwo_rank, sortedRates_rank rs hnan]
    apply foldl_stepTwo_sorted
    intro x hx
    obtain ⟨r, hr, rfl⟩ := List.mem_map.mp hx
    exact isNonZeroNumber_rank (hnz r hr)
  have hl := foldl_slotsAfter_mem rs (0, 0) (fun x => x ≠ .nan ∧ x ≠ .negZero) h0 h0 hgood
  have hr := firstTwo_mem (sortedRates rs) (fun x => x ≠ .nan ∧ x ≠ .negZero) h0
    (fun x hx => hgood x ((sortedRates_perm rs).subset hx))
  have e1 := congrArg Prod.fst hrank
  have e2 := congrArg Prod.snd hrank
  simp only [Prod.map_fst, Prod.map_snd] at e1 e2
  exact Prod.ext (Float64.rank_inj hl.1.1 hr.1.1 hl.1.2 hr.1.2 e1)
    (Float64.rank_inj hl.2.1 hr.2.1 hl.2.2 hr.2.2 e2)

/-- The head of the sorted rates is not above any of the rates, when none of them is NaN. -/
theorem sortedRates_head_le (rs : List Float64) (hrs : ∀ r ∈ rs, r ≠ .nan) (a : Float64)
    (l : List Float64) (h : sortedRates rs = a :: l) : a ∈ rs ∧ ∀ r ∈ rs, a ≤ r := by
  have hperm := sortedRates_perm rs
  have ha : a ∈ rs := hperm.subset (by rw [h]; simp)
  refine ⟨ha, ?_⟩
  intro r hr
  rw [Float64.le_iff_rank (hrs a ha) (hrs r hr)]
  have hs : ((sortedRates rs).map Float64.rank).Sorted (· ≤ ·) := by
    rw [sortedRates_rank rs hrs]
    exact List.sorted_insertionSort (· ≤ ·) _
  rw [h, List.map_cons] at hs
  have hmem : r ∈ a :: l := by
    rw [← h]
    exact hperm.symm.subset hr
  rcases List.mem_cons.mp hmem with rfl | hin
  · exact le_refl _
  · exact List.rel_of_sorted_cons hs _ (List.mem_map_of_mem _ hin)

/-- The first two of the sorted rates are ordered, when the rates are non-zero numbers. -/
theorem firstTwo_sortedRates_ordered (rs : List Float64)
    (hnz : ∀ r ∈ rs, r.IsNonZeroNumber) :
    (¬(firstTwo (sortedRates rs)).2.isZero →
      ¬(firstTwo (sortedRates rs)).1.isZero ∧
        (firstTwo (sortedRates rs)).1 ≤ (firstTwo (sortedRates rs)).2) ∧
    (rs ≠ [] → ¬(firstTwo (sortedRates rs)).1.isZero) := by
  have hnan : ∀ r ∈ rs, r ≠ .nan := fun r hr => (hnz r hr).1
  have h0 : (0 : Float64) ≠ .nan := by decide
  have hm := firstTwo_mem (sortedRates rs) (· ≠ .nan) h0
    (fun x hx => hnan x ((sortedRates_perm rs).subset hx))
  have hgen := firstTwoOf_ordered (Float64.rank 0) ((rs.map Float64.rank).insertionSort (· ≤ ·))
    (List.sorted_insertionSort (· ≤ ·) _)
    (by
      intro x hx
      obtain ⟨r, hr, rfl⟩ := List.mem_map.mp ((List.perm_insertionSort _ _).subset hx)
      exact isNonZeroNumber_rank (hnz r hr))
  rw [← sortedRates_rank rs hnan, ← firstTwo_rank] at hgen
  simp only [Prod.map_fst, Prod.map_snd] at hgen
  rw [Float64.isZero_iff_rank hm.1, Float64.isZero_iff_rank hm.2,
    Float64.le_iff_rank hm.1 hm.2]
  refine ⟨hgen.1, ?_⟩
  intro hne
  apply hgen.2
  intro hnil
  have hlen := congrArg List.length hnil
  rw [List.length_map, (sortedRates_perm rs).length_eq] at hlen
  exact hne (List.length_eq_zero.mp hlen)

namespace RateAreasIndex

/-! ## Lemmas on header validation -/

theorem labelsLoop_eq (a b : List String) (h : a.length = b.length) :
    labelsLoop a b = true ↔ a = b := by
  induction a generalizing b with
  | nil =>
    cases b with
    | nil => simp [labelsLoop]
    | cons y ys => simp at h
  | cons x xs ih =>
    cases b with
    | nil => simp at h
    | cons y ys =>
      simp only [List.length_cons, Nat.add_right_cancel_iff] at h
      by_cases hxy : x = y
      · simp [labelsLoop, hxy, ih ys h]
      · simp [labelsLoop, hxy]

theorem areLabelsEqual_iff (a b : List String) :
    areLabelsEqual (some a) (some b) = true ↔ a = b := by
  unfold areLabelsEqual
  by_cases h : a.length = b.length
  · simp [h, labelsLoop_eq a b h]
  · simp only [ne_eq, h, not_false_eq_true, if_true]
    constructor
    · intro hf
      cases hf
    · intro hab
      exact absurd (congrArg List.length hab) h

/-! ## Lemmas on runs of plans -/

theorem addPlans_contains (sc : Strconv) (ps : List PlanRecord) (rai rai' : RateAreasIndex)
    (a : String) (h : AddPlans sc rai ps = .ok rai') :
    rai'.rateAreasByName.contains a = rai.rateAreasByName.contains a := by
  induction ps generalizing rai with
  | nil =>
    simp only [AddPlans] at h
    cases h
    rfl
  | cons p ps ih =>
    simp only [AddPlans] at h
    split at h
    · cases h
    · rename_i r hr
      rw [ih _ h]
      exact addPlan_contains sc rai r.1 _ _ _ _ _ a r.2 hr

theorem silverPlansOf_cons_pos (areaName : String) (p : PlanRecord) (ps : List PlanRecord)
    (hp : p.level = LEVEL_NAME_SILVER ∧ p.areaName = areaName) :
    silverPlansOf areaName (p :: ps) = p :: silverPlansOf areaName ps := by
  simp [silverPlansOf, List.filter_cons, hp]

theorem silverPlansOf_cons_neg (areaName : String) (p : PlanRecord) (ps : List PlanRecord)
    (hp : ¬(p.level = LEVEL_NAME_SILVER ∧ p.areaName = areaName)) :
    silverPlansOf areaName (p :: ps) = silverPlansOf areaName ps := by
  simp [silverPlansOf, List.filter_cons, hp]

theorem addPlans_area_fold (sc : Strconv) (areaName : String) (ps : List PlanRecord)
    (rai rai' : RateAreasIndex) (ra : RateArea) (h : AddPlans sc rai ps = .ok rai')
    (hreg : rai.rateAreasByName.get? areaName = some ra) :
    rai'.rateAreasByName.get? areaName =
      some { ra with
        top1SilverPlan :=
          (((silverPlansOf areaName ps).filterMap (fun p => sc.ParseFloat p.rate)).foldl
            slotsAfter (ra.top1SilverPlan, ra.top2SilverPlan)).1,
        top2SilverPlan :=
          (((silverPlansOf areaName ps).filterMap (fun p => sc.ParseFloat p.rate)).foldl
            slotsAfter (ra.top1SilverPlan, ra.top2SilverPlan)).2 } := by
  induction ps generalizing rai ra with
  | nil =>
    simp only [AddPlans] at h
    cases h
    simpa [silverPlansOf] using hreg
  | cons p ps ih =>
    simp only [AddPlans] at h
    split at h
    · cases h
    · rename_i r hr
      by_cases hp : p.level = LEVEL_NAME_SILVER ∧ p.areaName = areaName
      · have hname : p.state ++ " " ++ p.number = areaName := hp.2
        have hreg' : rai.rateAreasByName.get? (p.state ++ " " ++ p.number) = some ra := by
          rw [hname]
          exact hreg
        rw [hp.1] at hr
        cases hparse : sc.ParseFloat p.rate with
        | none =>
          unfold AddPlan at hr
          simp [hparse] at hr
        | some x =>
          obtain ⟨b, hstep⟩ := addPlan_of_registered sc rai p.state p.number p.planId p.rate x ra
            hparse hreg'
          rw [hstep] at hr
          cases hr
          rw [hname] at h
          rw [ih _ _ h (GoMap.get?_set_self _ _ _), silverPlansOf_cons_pos areaName p ps hp]
          simp [List.filterMap_cons, hparse]
      · have hsame := addPlan_other_area sc rai r.1 _ _ _ _ _ areaName r.2 hr hp
        rw [ih _ _ h (hsame.trans hreg), silverPlansOf_cons_neg areaName p ps hp]

theorem getSlcsp_fst_congr (sc : Strconv) (a b : RateAreasIndex) (z : String)
    (hamb : a.ambiguousZipcodes = b.ambiguousZipcodes)
    (hnames : a.rateAreaNamesByZip = b.rateAreaNamesByZip)
    (hreg : ∀ areaName, a.rateAreaNamesByZip.get? z = some areaName →
      a.rateAreasByName.get? areaName = b.rateAreasByName.get? areaName) :
    (a.GetSlcspForZipcode sc z).map Prod.fst = (b.GetSlcspForZipcode sc z).map Prod.fst := by
  unfold GetSlcspForZipcode
  rw [← hamb, ← hnames]
  by_cases h1 : a.ambiguousZipcodes.contains z = true
  · simp [h1, Except.map]
  · cases h2 : a.rateAreaNamesByZip.get? z with
    | none => simp [h1, Except.map]
    | some areaName =>
      have e := hreg areaName h2
      cases h3 : a.rateAreasByName.get? areaName with
      | none =>
        rw [h3] at e
        simp [h1, h3, ← e, Except.map]
      | some ra =>
        rw [h3] at e
        by_cases h4 : ra.GetSlcspString sc = "0" <;> simp [h1, h3, ← e, h4, Except.map]

/-! ## Lemmas on rate area names -/

theorem append_sep_inj (a : Char) (l1 l2 r1 r2 : List Char) (h1 : a ∉ l1) (h2 : a ∉ l2)
    (h : l1 ++ a :: r1 = l2 ++ a :: r2) : l1 = l2 ∧ r1 = r2 := by
  induction l1 generalizing l2 with
  | nil =>
    cases l2 with
    | nil => simpa using h
    | cons c cs =>
      simp only [List.nil_append, List.cons_append, List.cons.injEq] at h
      exact absurd (h.1 ▸ List.mem_cons_self _ _) h2
  | cons c cs ih =>
    cases l2 with
    | nil =>
      simp only [List.nil_append, List.cons_append, List.cons.injEq] at h
      exact absurd (h.1 ▸ List.mem_cons_self _ _) h1
    | cons d ds =>
      simp only [List.cons_append, List.cons.injEq] at h
      obtain ⟨e1, e2⟩ := ih ds (fun hm => h1 (List.mem_cons_of_mem _ hm))
        (fun hm => h2 (List.mem_cons_of_mem _ hm)) h.2
      exact ⟨by rw [h.1, e1], e2⟩

theorem areaName_inj (s1 n1 s2 n2 : String) (h1 : ' ' ∉ s1.data) (h2 : ' ' ∉ s2.data)
    (h : s1 ++ " " ++ n1 = s2 ++ " " ++ n2) : s1 = s2 ∧ n1 = n2 := by
  have hd := congrArg String.data h
  simp only [String.data_append, List.append_assoc] at hd
  obtain ⟨e1, e2⟩ := append_sep_inj ' ' s1.data s2.data n1.data n2.data h1 h2 hd
  exact ⟨String.ext e1, String.ext e2⟩

theorem addRateArea_of_unregistered (rai : RateAreasIndex) (state number : String)
    (hreg : rai.rateAreasByName.get? (state ++ " " ++ number) = none) :
    rai.AddRateArea state number =
      ({ rai with rateAreasByName :=
          rai.rateAreasByName.set (state ++ " " ++ number) (NewRateArea state number) },
        state ++ " " ++ number) := by
  unfold AddRateArea
  rw [hreg]
  rfl

theorem addMapping_frame (rai : RateAreasIndex) (zipCode state number : String) :
    (rai.AddMapping zipCode state number).unmappedPlanRateAreas = rai.unmappedPlanRateAreas ∧
    (rai.AddMapping zipCode state number).insufficientPlanZips = rai.insufficientPlanZips := by
  obtain ⟨-, -, hu, hi⟩ := addRateArea_frame rai state number
  unfold AddMapping
  simp only
  split
  · split
    · exact ⟨hu, hi⟩
    · exact ⟨hu, hi⟩
  · exact ⟨hu, hi⟩

/-! ## Lemmas on the growth of the index -/

theorem keysSubset_refl {V : Type} (m : GoMap V) : m.KeysSubset m := fun _ h => h

theorem keysSubset_set {V : Type} (m : GoMap V) (k : String) (v : V) :
    m.KeysSubset (m.set k v) := by
  intro k' h
  simp [GoMap.contains_set, h]

theorem keysSubset_of_contains_eq {V : Type} (m m' : GoMap V)
    (h : ∀ k, m'.contains k = m.contains k) : m.KeysSubset m' := by
  intro k hk
  rw [h k]
  exact hk

theorem grows_addRateArea (rai : RateAreasIndex) (state number : String) :
    Grows rai (rai.AddRateArea state number).1 ∧ RatesKept rai (rai.AddRateArea state number).1 := by
  cases hreg : rai.rateAreasByName.get? (state ++ " " ++ number) with
  | some found =>
    have e : rai.AddRateArea state number = (rai, found.GetName) := by
      unfold AddRateArea
      rw [hreg]
    rw [e]
    exact ⟨⟨keysSubset_refl _, keysSubset_refl _, keysSubset_refl _, keysSubset_refl _,
      keysSubset_refl _, fun _ _ h => h⟩, fun _ _ h => h⟩
  | none =>
    rw [addRateArea_of_unregistered rai state number hreg]
    refine ⟨⟨keysSubset_set _ _ _, keysSubset_refl _, keysSubset_refl _, keysSubset_refl _,
      keysSubset_refl _, fun _ _ h => h⟩, ?_⟩
    intro k ra hk
    have hne : state ++ " " ++ number ≠ k := by
      intro e
      rw [e, hk] at hreg
      cases hreg
    simp only
    rw [GoMap.get?_set_ne _ _ hne]
    exact hk

theorem grows_trans (a b c : RateAreasIndex) (h1 : Grows a b) (h2 : Grows b c) : Grows a c := by
  obtain ⟨a1, a2, a3, a4, a5, a6⟩ := h1
  obtain ⟨b1, b2, b3, b4, b5, b6⟩ := h2
  exact ⟨fun k h => b1 k (a1 k h), fun k h => b2 k (a2 k h), fun k h => b3 k (a3 k h),
    fun k h => b4 k (a4 k h), fun k h => b5 k (a5 k h), fun z n h => b6 z n (a6 z n h)⟩

theorem grows_addMapping (rai : RateAreasIndex) (zipCode state number : String) :
    Grows rai (rai.AddMapping zipCode state number) ∧
      RatesKept rai (rai.AddMapping zipCode state number) := by
  obtain ⟨hg, hk⟩ := grows_addRateArea rai state number
  refine ⟨grows_trans _ _ _ hg ?_, ?_⟩
  · unfold AddMapping
    simp only
    cases hz : (rai.AddRateArea state number).1.rateAreaNamesByZip.get? zipCode with
    | some mapped =>
      simp only
      split
      · exact ⟨keysSubset_refl _, keysSubset_refl _, keysSubset_set _ _ _, keysSubset_refl _,
          keysSubset_refl _, fun _ _ h => h⟩
      · exact ⟨keysSubset_refl _, keysSubset_refl _, keysSubset_refl _, keysSubset_refl _,
          keysSubset_refl _, fun _ _ h => h⟩
    | none =>
      refine ⟨keysSubset_refl _, keysSubset_set _ _ _, keysSubset_refl _, keysSubset_refl _,
        keysSubset_refl _, ?_⟩
      intro z name h
      have hne : zipCode ≠ z := by
        intro e
        rw [e, h] at hz
        cases hz
      simp only
      rw [GoMap.get?_set_ne _ _ hne]
      exact h
  · intro k ra h
    rw [addMapping_registry]
    exact hk k ra h

theorem addPlan_unmapped_grows (sc : Strconv) (rai rai' : RateAreasIndex)
    (state number planId level rate : String) (madeIt : Bool)
    (h : rai.AddPlan sc state number planId level rate = .ok (rai', madeIt)) :
    rai.unmappedPlanRateAreas.KeysSubset rai'.unmappedPlanRateAreas := by
  by_cases hl : level = LEVEL_NAME_SILVER
  · subst hl
    cases hparse : sc.ParseFloat rate with
    | none =>
      unfold AddPlan at h
      simp [hparse] at h
    | some r =>
      cases hreg : rai.rateAreasByName.get? (state ++ " " ++ number) with
      | none =>
        rw [addPlan_of_unregistered sc rai state number planId rate r hparse hreg] at h
        cases h
        exact keysSubset_set _ _ _
      | some ra =>
        obtain ⟨b, hb⟩ := addPlan_of_registered sc rai state number planId rate r ra hparse hreg
        rw [hb] at h
        cases h
        exact keysSubset_refl _
  · rw [addPlan_of_not_silver sc rai state number planId level rate hl] at h
    cases h
    exact keysSubset_refl _

theorem grows_addPlan (sc : Strconv) (rai rai' : RateAreasIndex)
    (state number planId level rate : String) (madeIt : Bool)
    (h : rai.AddPlan sc state number planId level rate = .ok (rai', madeIt)) :
    Grows rai rai' := by
  obtain ⟨hn, ha, hi⟩ := addPlan_frame sc rai rai' state number planId level rate madeIt h
  refine ⟨keysSubset_of_contains_eq _ _
      (fun k => addPlan_contains sc rai rai' state number planId level rate k madeIt h),
    ?_, ?_, addPlan_unmapped_grows sc rai rai' state number planId level rate madeIt h, ?_, ?_⟩
  · rw [hn]
    exact keysSubset_refl _
  · rw [ha]
    exact keysSubset_refl _
  · rw [hi]
    exact keysSubset_refl _
  · intro z name hz
    rw [hn]
    exact hz

theorem getSlcsp_frame (sc : Strconv) (rai rai' : RateAreasIndex) (z slcsp : String)
    (h : rai.GetSlcspForZipcode sc z = .ok (slcsp, rai')) :
    rai' = rai ∨
      (slcsp = "" ∧
        rai' = { rai with insufficientPlanZips := rai.insufficientPlanZips.set z true }) := by
  by_cases hamb : rai.ambiguousZipcodes.contains z = true
  · rw [getSlcsp_of_ambiguous sc rai z hamb] at h
    cases h
    exact Or.inl rfl
  · cases hmap : rai.rateAreaNamesByZip.get? z with
    | none =>
      rw [getSlcsp_of_unmapped sc rai z hmap] at h
      cases h
      exact Or.inl rfl
    | some a =>
      have hamb' : rai.ambiguousZipcodes.contains z = false := by simpa using hamb
      cases hreg : rai.rateAreasByName.get? a with
      | none =>
        unfold GetSlcspForZipcode at h
        simp [hamb, hmap, hreg] at h
      | some ra =>
        rw [getSlcsp_of_mapped sc rai z a ra hamb' hmap hreg] at h
        split at h
        · cases h
          exact Or.inr ⟨rfl, rfl⟩
        · cases h
          exact Or.inl rfl

theorem grows_getSlcsp (sc : Strconv) (rai rai' : RateAreasIndex) (z slcsp : String)
    (h : rai.GetSlcspForZipcode sc z = .ok (slcsp, rai')) :
    Grows rai rai' ∧ RatesKept rai rai' := by
  rcases getSlcsp_frame sc rai rai' z slcsp h with e | ⟨-, e⟩
  · rw [e]
    exact ⟨⟨keysSubset_refl _, keysSubset_refl _, keysSubset_refl _, keysSubset_refl _,
      keysSubset_refl _, fun _ _ h => h⟩, fun _ _ h => h⟩
  · rw [e]
    exact ⟨⟨keysSubset_refl _, keysSubset_refl _, keysSubset_refl _, keysSubset_refl _,
      keysSubset_set _ _ _, fun _ _ h => h⟩, fun _ _ h => h⟩

/-! ## A zip code registered for an area that was not registered before -/

theorem getSlcsp_after_late_mapping (sc : Strconv) (rai1 : RateAreasIndex)
    (state number z : String)
    (hnone : rai1.rateAreasByName.get? (state ++ " " ++ number) = none)
    (hfmt : sc.FormatFloat 0 = "0") :
    (rai1.AddMapping z state number).rateAreasByName.get? (state ++ " " ++ number) =
        some ⟨state, number, 0, 0⟩ ∧
      ∃ rai3, (rai1.AddMapping z state number).GetSlcspForZipcode sc z = .ok ("", rai3) := by
  have hadd := addRateArea_of_unregistered rai1 state number hnone
  have hregs : (rai1.AddMapping z state number).rateAreasByName.get?
      (state ++ " " ++ number) = some ⟨state, number, 0, 0⟩ := by
    rw [addMapping_registry, hadd]
    exact GoMap.get?_set_self _ _ _
  refine ⟨hregs, ?_⟩
  by_cases hamb : (rai1.AddMapping z state number).ambiguousZipcodes.contains z = true
  · exact ⟨_, getSlcsp_of_ambiguous sc _ z hamb⟩
  · have hamb' : (rai1.AddMapping z state number).ambiguousZipcodes.contains z = false := by
      simpa using hamb
    have hmap : (rai1.AddMapping z state number).rateAreaNamesByZip.get? z =
        some (state ++ " " ++ number) := by
      revert hamb'
      unfold AddMapping
      rw [hadd]
      simp only
      cases hz : rai1.rateAreaNamesByZip.get? z with
      | none =>
        intro _
        exact GoMap.get?_set_self _ _ _
      | some mapped =>
        simp only
        by_cases hne : mapped ≠ state ++ " " ++ number
        · rw [if_pos hne]
          intro hc
          simp [GoMap.contains_set] at hc
        · rw [if_neg hne]
          intro _
          simp only [ne_eq, not_not] at hne
          rw [hz, hne]
    have hget := getSlcsp_of_mapped sc _ z _ _ hamb' hmap hregs
    simp only [hfmt, if_true] at hget
    exact ⟨_, hget⟩

/-! ## What `AddPlan` and `GetSlcspForZipcode` keep -/

theorem areasRegistered_getSlcsp (sc : Strconv) (rai rai' : RateAreasIndex) (z slcsp : String)
    (h : rai.GetSlcspForZipcode sc z = .ok (slcsp, rai')) (hwf : AreasRegistered rai) :
    AreasRegistered rai' := by
  rcases getSlcsp_frame sc rai rai' z slcsp h with e | ⟨-, e⟩
  · rw [e]
    exact hwf
  · rw [e]
    exact hwf

theorem addPlan_keeps_identity (sc : Strconv) (rai rai' : RateAreasIndex)
    (state number planId level rate : String) (madeIt : Bool)
    (h : rai.AddPlan sc state number planId level rate = .ok (rai', madeIt))
    (k : String) (ra : RateArea) (hk : rai.rateAreasByName.get? k = some ra) :
    ∃ ra', rai'.rateAreasByName.get? k = some ra' ∧ ra'.state = ra.state ∧
      ra'.number = ra.number := by
  by_cases hother : level = LEVEL_NAME_SILVER ∧ state ++ " " ++ number = k
  · obtain ⟨hl, hkey⟩ := hother
    subst hl
    rw [← hkey] at hk
    cases hparse : sc.ParseFloat rate with
    | none =>
      unfold AddPlan at h
      simp [hparse] at h
    | some r =>
      obtain ⟨b, hb⟩ := addPlan_of_registered sc rai state number planId rate r ra hparse hk
      rw [hb] at h
      cases h
      rw [← hkey]
      exact ⟨_, GoMap.get?_set_self _ _ _, rfl, rfl⟩
  · rw [addPlan_other_area sc rai rai' state number planId level rate k madeIt h hother]
    exact ⟨ra, hk, rfl, rfl⟩

end RateAreasIndex

/-! ## Lemmas on `FormatFloat` -/

theorem qadd_eq (a b : ℚ) : qadd a b = a + b := (Rat.add_def' a b).symm

theorem qsub_eq (a b : ℚ) : qsub a b = a - b := (Rat.sub_def' a b).symm

theorem qmul_eq (a b : ℚ) : qmul a b = a * b := by
  unfold qmul
  rw [← Rat.mkRat_mul_mkRat, Rat.mkRat_self, Rat.mkRat_self]

theorem powInt_eq (b : Nat) (e : Int) : powInt b e = (b : ℚ) ^ e := by
  unfold powInt
  split_ifs with h
  · obtain ⟨n, rfl⟩ := Int.eq_ofNat_of_zero_le h
    simp [Rat.mkRat_eq_div]
  · have h' : 0 ≤ -e := by omega
    obtain ⟨n, hn⟩ := Int.eq_ofNat_of_zero_le h'
    have he : e = -(n : ℤ) := by omega
    subst he
    simp [Rat.mkRat_eq_div]

theorem powInt_pos (b : Nat) (hb : 0 < b) (e : Int) : 0 < powInt b e := by
  rw [powInt_eq]
  exact zpow_pos (by exact_mod_cast hb) e

theorem decimalOf_eq (d j : Int) : decimalOf d j = (d : ℚ) * (10 : ℚ) ^ j := by
  unfold decimalOf
  rw [qmul_eq, powInt_eq]
  simp [Rat.mkRat_eq_div]

theorem lowerBound_lt (q : ℚ) : lowerBound q < q := by
  unfold lowerBound
  split_ifs <;> rw [qsub_eq] <;> linarith [powInt_pos 2 (by norm_num) (lastBitExponent q - 2),
    powInt_pos 2 (by norm_num) (lastBitExponent q - 1)]

theorem lt_upperBound (q : ℚ) : q < upperBound q := by
  unfold upperBound
  rw [qadd_eq]
  linarith [powInt_pos 2 (by norm_num) (lastBitExponent q - 1)]

theorem powInt_two_half (e : Int) : powInt 2 (e - 1) = 2 * powInt 2 (e - 2) := by
  rw [powInt_eq, powInt_eq]
  have : e - 1 = (e - 2) + 1 := by ring
  rw [this, zpow_add_one₀ (by norm_num)]
  push_cast
  ring

/-- The numbers less than a quarter of the last bit away from `q` round to `q`. -/
theorem roundsTo_of_near (q v : ℚ) (h1 : q - powInt 2 (lastBitExponent q - 2) < v)
    (h2 : v < q + powInt 2 (lastBitExponent q - 2)) : RoundsTo q v := by
  have hpos := powInt_pos 2 (by norm_num) (lastBitExponent q - 2)
  have hhalf := powInt_two_half (lastBitExponent q)
  have hl : lowerBound q < v := by
    unfold lowerBound
    split_ifs <;> rw [qsub_eq] <;> linarith
  have hu : v < upperBound q := by
    unfold upperBound
    rw [qadd_eq]
    linarith
  unfold RoundsTo
  split_ifs
  · exact ⟨le_of_lt hl, le_of_lt hu⟩
  · exact ⟨hl, hu⟩

theorem roundsTo_self (q : ℚ) : RoundsTo q q :=
  roundsTo_of_near q q (by linarith [powInt_pos 2 (by norm_num) (lastBitExponent q - 2)])
    (by linarith [powInt_pos 2 (by norm_num) (lastBitExponent q - 2)])

/-- The numbers that round to `q` form an interval. -/
theorem roundsTo_between (q a b v : ℚ) (ha : RoundsTo q a) (hb : RoundsTo q b)
    (hav : a ≤ v) (hvb : v ≤ b) : RoundsTo q v := by
  unfold RoundsTo at ha hb ⊢
  split_ifs at ha hb ⊢
  · exact ⟨le_trans ha.1 hav, le_trans hvb hb.2⟩
  · exact ⟨lt_of_lt_of_le ha.1 hav, lt_of_le_of_lt hvb hb.2⟩


theorem wholeLengthAux_spec (num den : Nat) (fuel l : Nat) (hl : 1 ≤ l)
    (hlow : den * 10 ^ (l - 1) ≤ num) (hfuel : num < den * 10 ^ (l + fuel)) :
    1 ≤ wholeLengthAux fuel num den l ∧
    den * 10 ^ (wholeLengthAux fuel num den l - 1) ≤ num ∧
      num < den * 10 ^ wholeLengthAux fuel num den l := by
  induction fuel generalizing l with
  | zero => exact ⟨hl, hlow, by simpa using hfuel⟩
  | succ fuel ih =>
    unfold wholeLengthAux
    split_ifs with h
    · exact ⟨hl, hlow, h⟩
    · apply ih (l + 1) (by omega)
      · simpa using Nat.not_lt.mp h
      · have : l + 1 + fuel = l + (fuel + 1) := by omega
        rw [this]
        exact hfuel

theorem fractionLeadAux_spec (num den : Nat) (fuel k : Nat) (hk : 1 ≤ k)
    (hlow : num * 10 ^ (k - 1) < den) (hfuel : den ≤ num * 10 ^ (k + fuel)) :
    1 ≤ fractionLeadAux fuel num den k ∧
    num * 10 ^ (fractionLeadAux fuel num den k - 1) < den ∧
      den ≤ num * 10 ^ fractionLeadAux fuel num den k := by
  induction fuel generalizing k with
  | zero => exact ⟨hk, hlow, by simpa using hfuel⟩
  | succ fuel ih =>
    unfold fractionLeadAux
    split_ifs with h
    · exact ⟨hk, hlow, h⟩
    · apply ih (k + 1) (by omega)
      · simpa using Nat.not_le.mp h
      · have : k + 1 + fuel = k + (fuel + 1) := by omega
        rw [this]
        exact hfuel

theorem rat_eq_natAbs_div (q : ℚ) (hq : 0 < q) : q = (q.num.natAbs : ℚ) / (q.den : ℚ) := by
  have hnum : 0 < q.num := Rat.num_pos.mpr hq
  have h' : (q.num.natAbs : ℚ) = (q.num : ℚ) := by
    rw [Nat.cast_natAbs, abs_of_pos hnum]
  rw [h']
  exact (Rat.num_div_den q).symm

theorem decimalExponent_aux (num den : Nat) (hnum : 0 < num) (hden : 0 < den) :
    (10 : ℚ) ^ (if den ≤ num then (wholeLengthAux num num den 1 : Int) - 1
        else -(fractionLeadAux den num den 1 : Int)) ≤ (num : ℚ) / den ∧
    (num : ℚ) / den < (10 : ℚ) ^ ((if den ≤ num then (wholeLengthAux num num den 1 : Int) - 1
        else -(fractionLeadAux den num den 1 : Int)) + 1) := by
  have hdenq : (0 : ℚ) < (den : ℚ) := by exact_mod_cast hden
  split_ifs with h
  · obtain ⟨h1, h2, h3⟩ := wholeLengthAux_spec num den num 1 (le_refl 1) (by simpa using h)
      (by
        have h10 : num < 10 ^ (1 + num) :=
          lt_trans (Nat.lt_pow_self (by norm_num : 1 < 10) num)
            (Nat.pow_lt_pow_right (by norm_num) (by omega))
        calc num < 10 ^ (1 + num) := h10
          _ ≤ den * 10 ^ (1 + num) := Nat.le_mul_of_pos_left _ hden)
    generalize wholeLengthAux num num den 1 = l at h1 h2 h3
    obtain ⟨l', rfl⟩ : ∃ l', l = l' + 1 := ⟨l - 1, by omega⟩
    simp only [Nat.add_sub_cancel] at h2
    have e1 : (((l' + 1 : ℕ) : ℤ) - 1) = (l' : ℤ) := by push_cast; ring
    have e2 : (((l' + 1 : ℕ) : ℤ) - 1 + 1) = ((l' + 1 : ℕ) : ℤ) := by ring
    rw [e2, e1, zpow_natCast, zpow_natCast]
    constructor
    · rw [le_div_iff₀ hdenq]
      have : ((den * 10 ^ l' : ℕ) : ℚ) ≤ (num : ℚ) := by exact_mod_cast h2
      push_cast at this
      linarith
    · rw [div_lt_iff₀ hdenq]
      have : ((num : ℕ) : ℚ) < ((den * 10 ^ (l' + 1) : ℕ) : ℚ) := by exact_mod_cast h3
      push_cast at this
      linarith
  · obtain ⟨h1, h2, h3⟩ := fractionLeadAux_spec num den den 1 (le_refl 1)
      (by simpa using Nat.not_le.mp h)
      (by
        have h10 : den < 10 ^ (1 + den) :=
          lt_trans (Nat.lt_pow_self (by norm_num : 1 < 10) den)
            (Nat.pow_lt_pow_right (by norm_num) (by omega))
        calc den ≤ 10 ^ (1 + den) := le_of_lt h10
          _ ≤ num * 10 ^ (1 + den) := Nat.le_mul_of_pos_left _ hnum)
    generalize fractionLeadAux den num den 1 = k at h1 h2 h3
    obtain ⟨k', rfl⟩ : ∃ k', k = k' + 1 := ⟨k - 1, by omega⟩
    simp only [Nat.add_sub_cancel] at h2
    have e1 : (-((k' + 1 : ℕ) : ℤ) + 1) = -(k' : ℤ) := by push_cast; ring
    have hp1 : (0 : ℚ) < (10 : ℚ) ^ (k' + 1) := by positivity
    have hp2 : (0 : ℚ) < (10 : ℚ) ^ k' := by positivity
    rw [e1, zpow_neg, zpow_neg, zpow_natCast, zpow_natCast]
    constructor
    · rw [le_div_iff₀ hdenq, inv_mul_le_iff₀ hp1]
      have : ((den : ℕ) : ℚ) ≤ ((num * 10 ^ (k' + 1) : ℕ) : ℚ) := by exact_mod_cast h3
      push_cast at this
      linarith
    · rw [div_lt_iff₀ hdenq, lt_inv_mul_iff₀ hp2]
      have : ((num * 10 ^ k' : ℕ) : ℚ) < ((den : ℕ) : ℚ) := by exact_mod_cast h2
      push_cast at this
      linarith

/-- The decimal exponent of a positive number is the exponent of its first digit. -/
theorem decimalExponent_spec (q : ℚ) (hq : 0 < q) :
    (10 : ℚ) ^ decimalExponent q ≤ q ∧ q < (10 : ℚ) ^ (decimalExponent q + 1) := by
  have hden : 0 < q.den := q.den_pos
  have hnum : 0 < q.num.natAbs := Int.natAbs_pos.mpr (ne_of_gt (Rat.num_pos.mpr hq))
  have h := decimalExponent_aux q.num.natAbs q.den hnum hden
  rw [← rat_eq_natAbs_div q hq] at h
  exact h

theorem bitLengthAux_zero (fuel : Nat) : bitLengthAux fuel 0 = 0 := by
  cases fuel <;> simp [bitLengthAux]

theorem bitLengthAux_spec (fuel n : Nat) (hfuel : n ≤ fuel) :
    n < 2 ^ bitLengthAux fuel n ∧ (0 < n → 2 ^ (bitLengthAux fuel n - 1) ≤ n) := by
  induction fuel generalizing n with
  | zero =>
    have : n = 0 := by omega
    subst this
    simp [bitLengthAux]
  | succ fuel ih =>
    unfold bitLengthAux
    split_ifs with h
    · subst h
      simp
    · obtain ⟨h1, h2⟩ := ih (n / 2) (by omega)
      constructor
      · rw [pow_succ]
        omega
      · intro _
        simp only [Nat.add_sub_cancel]
        by_cases hn : n / 2 = 0
        · rw [hn, bitLengthAux_zero]
          simp
          omega
        · have h3 := h2 (by omega)
          obtain ⟨b, hb⟩ : ∃ b, bitLengthAux fuel (n / 2) = b + 1 := by
            refine ⟨bitLengthAux fuel (n / 2) - 1, ?_⟩
            have : bitLengthAux fuel (n / 2) ≠ 0 := by
              intro h0
              rw [h0] at h1
              simp at h1
              exact hn h1
            omega
          rw [hb] at h3 ⊢
          simp only [Nat.add_sub_cancel] at h3
          rw [pow_succ]
          omega

theorem bitLength_spec (n : Nat) (hn : 0 < n) :
    2 ^ (bitLength n - 1) ≤ n ∧ n < 2 ^ bitLength n :=
  ⟨(bitLengthAux_spec n n (le_refl n)).2 hn, (bitLengthAux_spec n n (le_refl n)).1⟩

/-- The binary exponent of a positive number is the exponent of its first bit. -/
theorem binaryExponent_spec (q : ℚ) (hq : 0 < q) :
    (2 : ℚ) ^ binaryExponent q ≤ q ∧ q < (2 : ℚ) ^ (binaryExponent q + 1) := by
  have hden : 0 < q.den := q.den_pos
  have hnum : 0 < q.num.natAbs := Int.natAbs_pos.mpr (ne_of_gt (Rat.num_pos.mpr hq))
  obtain ⟨hn1, hn2⟩ := bitLength_spec q.num.natAbs hnum
  obtain ⟨hd1, hd2⟩ := bitLength_spec q.den hden
  have hbn : 1 ≤ bitLength q.num.natAbs := by
    by_contra h
    have : bitLength q.num.natAbs = 0 := by omega
    rw [this, pow_zero] at hn2
    omega
  have hbd : 1 ≤ bitLength q.den := by
    by_contra h
    have : bitLength q.den = 0 := by omega
    rw [this, pow_zero] at hd2
    omega
  have hqeq := rat_eq_natAbs_div q hq
  have hdenq : (0 : ℚ) < (q.den : ℚ) := by exact_mod_cast hden
  unfold binaryExponent
  simp only [powInt_eq, Nat.cast_ofNat]
  generalize bitLength q.num.natAbs = bn at hn1 hn2 hbn
  generalize bitLength q.den = bd at hd1 hd2 hbd
  generalize q.num.natAbs = num at hn1 hn2 hqeq hnum
  generalize q.den = den at hd1 hd2 hqeq hden hdenq
  obtain ⟨bn', rfl⟩ : ∃ b, bn = b + 1 := ⟨bn - 1, by omega⟩
  obtain ⟨bd', rfl⟩ : ∃ b, bd = b + 1 := ⟨bd - 1, by omega⟩
  simp only [Nat.add_sub_cancel] at hn1 hd1
  have hn1q : (2 : ℚ) ^ bn' ≤ (num : ℚ) := by exact_mod_cast hn1
  have hn2q : (num : ℚ) < (2 : ℚ) ^ (bn' + 1) := by exact_mod_cast hn2
  have hd1q : (2 : ℚ) ^ bd' ≤ (den : ℚ) := by exact_mod_cast hd1
  have hd2q : (den : ℚ) < (2 : ℚ) ^ (bd' + 1) := by exact_mod_cast hd2
  have e0 : (((bn' + 1 : ℕ) : ℤ) - ((bd' + 1 : ℕ) : ℤ)) = (bn' : ℤ) - (bd' : ℤ) := by
    push_cast
    ring
  rw [e0]
  have hpos : ∀ k : ℕ, (0 : ℚ) < (2 : ℚ) ^ k := fun k => by positivity
  have hz : ∀ a b : ℕ, (2 : ℚ) ^ ((a : ℤ) - (b : ℤ)) = (2 : ℚ) ^ a / (2 : ℚ) ^ b := by
    intro a b
    rw [zpow_sub₀ (by norm_num), zpow_natCast, zpow_natCast]
  have hup : q < (2 : ℚ) ^ ((bn' : ℤ) - (bd' : ℤ) + 1) := by
    have e : (bn' : ℤ) - (bd' : ℤ) + 1 = ((bn' + 1 : ℕ) : ℤ) - (bd' : ℤ) := by push_cast; ring
    rw [e, hz, hqeq, div_lt_div_iff₀ hdenq (hpos _)]
    calc (num : ℚ) * 2 ^ bd' < 2 ^ (bn' + 1) * 2 ^ bd' :=
          mul_lt_mul_of_pos_right hn2q (hpos _)
      _ ≤ 2 ^ (bn' + 1) * den := mul_le_mul_of_nonneg_left hd1q (le_of_lt (hpos _))
  have hlow : (2 : ℚ) ^ ((bn' : ℤ) - (bd' : ℤ) - 1) ≤ q := by
    have e : (bn' : ℤ) - (bd' : ℤ) - 1 = (bn' : ℤ) - ((bd' + 1 : ℕ) : ℤ) := by push_cast; ring
    rw [e, hz, hqeq, div_le_div_iff₀ (hpos _) hdenq]
    calc (2 : ℚ) ^ bn' * den ≤ 2 ^ bn' * 2 ^ (bd' + 1) :=
          mul_le_mul_of_nonneg_left (le_of_lt hd2q) (le_of_lt (hpos _))
      _ ≤ num * 2 ^ (bd' + 1) := mul_le_mul_of_nonneg_right hn1q (le_of_lt (hpos _))
  split_ifs with h
  · exact ⟨h, hup⟩
  · refine ⟨hlow, ?_⟩
    have e : (bn' : ℤ) - (bd' : ℤ) - 1 + 1 = (bn' : ℤ) - (bd' : ℤ) := by ring
    rw [e]
    exact not_le.mp h

theorem binaryExponent_unique (q : ℚ) (hq : 0 < q) (r : Int)
    (h1 : (2 : ℚ) ^ r ≤ q) (h2 : q < (2 : ℚ) ^ (r + 1)) : binaryExponent q = r := by
  obtain ⟨h3, h4⟩ := binaryExponent_spec q hq
  have ha : r < binaryExponent q + 1 :=
    (zpow_lt_zpow_iff_right₀ (by norm_num : (1 : ℚ) < 2)).mp (lt_of_le_of_lt h1 h4)
  have hb : binaryExponent q < r + 1 :=
    (zpow_lt_zpow_iff_right₀ (by norm_num : (1 : ℚ) < 2)).mp (lt_of_le_of_lt h3 h2)
  omega

/-- The mantissa and the exponent of a `float64` value `m * 2 ^ e` with a mantissa of 53
bits. -/
theorem float64_normal (m : Nat) (e : Int) (hm1 : 2 ^ 52 ≤ m) (hm2 : m < 2 ^ 53)
    (he : -1074 ≤ e) :
    lastBitExponent ((m : ℚ) * (2 : ℚ) ^ e) = e ∧ mantissa ((m : ℚ) * (2 : ℚ) ^ e) = m := by
  have hpos : (0 : ℚ) < (2 : ℚ) ^ e := zpow_pos (by norm_num) e
  have hmq1 : (2 : ℚ) ^ (52 : ℕ) ≤ (m : ℚ) := by exact_mod_cast hm1
  have hmq2 : (m : ℚ) < (2 : ℚ) ^ (53 : ℕ) := by exact_mod_cast hm2
  have hq : (0 : ℚ) < (m : ℚ) * (2 : ℚ) ^ e := mul_pos (by linarith [pow_pos (by norm_num : (0:ℚ) < 2) 52]) hpos
  have hbe : binaryExponent ((m : ℚ) * (2 : ℚ) ^ e) = 52 + e := by
    apply binaryExponent_unique _ hq
    · rw [zpow_add₀ (by norm_num)]
      exact mul_le_mul_of_nonneg_right (by exact_mod_cast hmq1) (le_of_lt hpos)
    · have e1 : (52 : ℤ) + e + 1 = 53 + e := by ring
      rw [e1, zpow_add₀ (by norm_num)]
      exact mul_lt_mul_of_pos_right (by exact_mod_cast hmq2) hpos
  have hl : lastBitExponent ((m : ℚ) * (2 : ℚ) ^ e) = e := by
    unfold lastBitExponent
    rw [hbe]
    have : (52 : ℤ) + e - 52 = e := by ring
    rw [this]
    exact max_eq_left he
  refine ⟨hl, ?_⟩
  unfold mantissa
  rw [hl, qmul_eq, powInt_eq, zpow_neg]
  push_cast
  rw [mul_assoc, mul_inv_cancel₀ (ne_of_gt hpos), mul_one]
  exact Int.floor_natCast m

/-- The mantissa and the exponent of a subnormal `float64` value `m * 2 ^ (-1074)`. -/
theorem float64_subnormal (m : Nat) (hm0 : 0 < m) (hm : m < 2 ^ 52) :
    lastBitExponent ((m : ℚ) * (2 : ℚ) ^ (-1074 : ℤ)) = -1074 ∧
      mantissa ((m : ℚ) * (2 : ℚ) ^ (-1074 : ℤ)) = m := by
  have hpos : (0 : ℚ) < (2 : ℚ) ^ (-1074 : ℤ) := zpow_pos (by norm_num) _
  have hmq : (m : ℚ) < (2 : ℚ) ^ (52 : ℕ) := by exact_mod_cast hm
  have hm0q : (0 : ℚ) < (m : ℚ) := by exact_mod_cast hm0
  have hq : (0 : ℚ) < (m : ℚ) * (2 : ℚ) ^ (-1074 : ℤ) := mul_pos hm0q hpos
  obtain ⟨h1, h2⟩ := binaryExponent_spec _ hq
  have hlt : (2 : ℚ) ^ binaryExponent ((m : ℚ) * (2 : ℚ) ^ (-1074 : ℤ)) <
      (2 : ℚ) ^ ((52 : ℤ) + (-1074)) := by
    refine lt_of_le_of_lt h1 ?_
    rw [zpow_add₀ (by norm_num)]
    exact mul_lt_mul_of_pos_right (by exact_mod_cast hmq) hpos
  have hbe := (zpow_lt_zpow_iff_right₀ (by norm_num : (1 : ℚ) < 2)).mp hlt
  have hl : lastBitExponent ((m : ℚ) * (2 : ℚ) ^ (-1074 : ℤ)) = -1074 := by
    unfold lastBitExponent
    apply max_eq_right
    omega
  refine ⟨hl, ?_⟩
  unfold mantissa
  rw [hl, qmul_eq, powInt_eq]
  have e : (m : ℚ) * (2 : ℚ) ^ (-1074 : ℤ) * ((2 : ℕ) : ℚ) ^ (-(-1074 : ℤ)) = (m : ℚ) := by
    push_cast
    rw [mul_assoc, ← zpow_add₀ (by norm_num)]
    norm_num
  rw [e]
  exact Int.floor_natCast m

theorem roundHalfEven_eq (x : ℚ) (m : Int)
    (h : ((m : ℚ) - 1 / 2 < x ∧ x < (m : ℚ) + 1 / 2) ∨
      (m % 2 = 0 ∧ (m : ℚ) - 1 / 2 ≤ x ∧ x ≤ (m : ℚ) + 1 / 2)) :
    roundHalfEven x = m := by
  have hlo : (m : ℚ) - 1 / 2 ≤ x := by rcases h with h | h <;> linarith [h.1, h.2]
  have hhi : x ≤ (m : ℚ) + 1 / 2 := by rcases h with h | h <;> linarith [h.1, h.2]
  have hf1 : m - 1 ≤ ⌊x⌋ := by
    rw [Int.le_floor]
    push_cast
    linarith
  have hf2 : ⌊x⌋ ≤ m := by
    have : ⌊x⌋ < m + 1 := by
      rw [Int.floor_lt]
      push_cast
      linarith
    omega
  have hfl := Int.floor_le x
  have hfu := Int.lt_floor_add_one x
  have hhalf : mkRat 1 2 = (1 / 2 : ℚ) := by norm_num [Rat.mkRat_eq_div]
  have hfr : mkRat ⌊x⌋ 1 = (⌊x⌋ : ℚ) := by simp [Rat.mkRat_eq_div]
  unfold roundHalfEven
  rw [qsub_eq, hhalf, hfr]
  rcases (by omega : ⌊x⌋ = m ∨ ⌊x⌋ = m - 1) with hm | hm
  · rw [hm] at hfl hfu ⊢
    split_ifs with h1 h2 h3
    · rfl
    · exfalso
      linarith
    · rfl
    · exfalso
      rcases h with h | h
      · linarith [h.2]
      · exact h3 h.1
  · rw [hm] at hfl hfu ⊢
    push_cast at hfl hfu ⊢
    split_ifs with h1 h2 h3
    · exfalso
      linarith
    · ring
    · exfalso
      rcases h with h | h
      · linarith [h.1]
      · omega
    · ring

theorem lastBitExponent_of_range (v : ℚ) (hv : 0 < v) (e : Int) (he : -1074 ≤ e)
    (h1 : (2 : ℚ) ^ (52 + e) ≤ v) (h2 : v < (2 : ℚ) ^ (52 + e + 1)) :
    lastBitExponent v = e := by
  unfold lastBitExponent
  rw [binaryExponent_unique v hv (52 + e) h1 h2]
  have : (52 : ℤ) + e - 52 = e := by ring
  rw [this]
  exact max_eq_left he

theorem lastBitExponent_of_small (v : ℚ) (hv : 0 < v)
    (h : v < (2 : ℚ) ^ ((52 : ℤ) + (-1074))) : lastBitExponent v = -1074 := by
  obtain ⟨h1, h2⟩ := binaryExponent_spec v hv
  have hbe := (zpow_lt_zpow_iff_right₀ (by norm_num : (1 : ℚ) < 2)).mp (lt_of_le_of_lt h1 h)
  unfold lastBitExponent
  apply max_eq_right
  omega

theorem nearestFloat64_eq (v : ℚ) (e : Int) (m : Int)
    (he : lastBitExponent v = e) (hm : roundHalfEven (v * ((2 : ℚ) ^ e)⁻¹) = m)
    (hr : e < 971 ∨ (e = 971 ∧ m < 2 ^ 53)) :
    nearestFloat64 v = some ((m : ℚ) * (2 : ℚ) ^ e) := by
  unfold nearestFloat64
  simp only [he, qmul_eq, powInt_eq, zpow_neg, Nat.cast_ofNat, hm, if_pos hr]
  simp [Rat.mkRat_eq_div]

theorem nearestFloat64_same_exponent (v : ℚ) (m : Nat) (e : Int)
    (hev : lastBitExponent v = e) (hr : e < 971 ∨ (e = 971 ∧ (m : ℤ) < 2 ^ 53))
    (hx : ((m : ℚ) * 2 ^ e - 2 ^ e / 2 < v ∧ v < (m : ℚ) * 2 ^ e + 2 ^ e / 2) ∨
      ((m : ℤ) % 2 = 0 ∧ (m : ℚ) * 2 ^ e - 2 ^ e / 2 ≤ v ∧ v ≤ (m : ℚ) * 2 ^ e + 2 ^ e / 2)) :
    nearestFloat64 v = some ((m : ℚ) * (2 : ℚ) ^ e) := by
  have hP : (0 : ℚ) < (2 : ℚ) ^ e := zpow_pos (by norm_num) e
  have h := nearestFloat64_eq v e (m : ℤ) hev ?_ hr
  · rw [h]
    push_cast
    rfl
  apply roundHalfEven_eq
  rcases hx with ⟨h1, h2⟩ | ⟨h0, h1, h2⟩
  · left
    constructor
    · rw [lt_mul_inv_iff₀ hP]
      push_cast
      linarith
    · rw [mul_inv_lt_iff₀ hP]
      push_cast
      linarith
  · right
    refine ⟨h0, ?_, ?_⟩
    · rw [le_mul_inv_iff₀ hP]
      push_cast
      linarith
    · rw [mul_inv_le_iff₀ hP]
      push_cast
      linarith

/-- A number that rounds to a `float64` value is read as that value. -/
theorem nearestFloat64_of_roundsTo (q v : ℚ) (hq : IsFloat64 q) (hv : 0 < v)
    (h : RoundsTo q v) : nearestFloat64 v = some q := by
  obtain ⟨m, e, rfl, hme⟩ := hq
  have hP : (0 : ℚ) < (2 : ℚ) ^ e := zpow_pos (by norm_num) e
  have e1 : powInt 2 (e - 1) = (2 : ℚ) ^ e / 2 := by
    rw [powInt_eq, zpow_sub_one₀ (by norm_num)]
    push_cast
    ring
  have e2 : powInt 2 (e - 2) = (2 : ℚ) ^ e / 4 := by
    have : e - 2 = e - 1 - 1 := by ring
    rw [powInt_eq, this, zpow_sub_one₀ (by norm_num), zpow_sub_one₀ (by norm_num)]
    push_cast
    ring
  have e52 : (2 : ℚ) ^ (52 + e) = 2 ^ 52 * (2 : ℚ) ^ e := by
    rw [zpow_add₀ (by norm_num)]
    norm_num
  have e53 : (2 : ℚ) ^ (52 + e + 1) = 2 ^ 53 * (2 : ℚ) ^ e := by
    rw [zpow_add_one₀ (by norm_num), zpow_add₀ (by norm_num)]
    norm_num
    ring
  have hlm : lastBitExponent ((m : ℚ) * (2 : ℚ) ^ e) = e ∧
      mantissa ((m : ℚ) * (2 : ℚ) ^ e) = m := by
    rcases hme with ⟨hm1, hm2, he1, he2⟩ | ⟨hm0, hm2, rfl⟩
    · exact float64_normal m e hm1 hm2 he1
    · exact float64_subnormal m hm0 hm2
  obtain ⟨hl, hmant⟩ := hlm
  have hm0 : 0 < m := by
    rcases hme with ⟨hm1, -, -, -⟩ | ⟨hm0, -, -⟩
    · exact lt_of_lt_of_le (by norm_num) hm1
    · exact hm0
  have hm53 : m < 2 ^ 53 := by
    rcases hme with ⟨-, hm2, -, -⟩ | ⟨-, hm2, -⟩
    · exact hm2
    · exact lt_trans hm2 (by norm_num)
  have he971 : e ≤ 971 := by
    rcases hme with ⟨-, -, -, he2⟩ | ⟨-, -, rfl⟩
    · exact he2
    · norm_num
  have hemin : -1074 ≤ e := by
    rcases hme with ⟨-, -, he1, -⟩ | ⟨-, -, rfl⟩
    · exact he1
    · norm_num
  have hm53q : (m : ℚ) + 1 ≤ (2 : ℚ) ^ 53 := by exact_mod_cast hm53
  have hrange : e < 971 ∨ (e = 971 ∧ (m : ℤ) < 2 ^ 53) := by
    have : (m : ℤ) < 2 ^ 53 := by exact_mod_cast hm53
    omega
  unfold RoundsTo lowerBound upperBound at h
  rw [hl, hmant, qadd_eq, qsub_eq, qsub_eq, e1, e2] at h
  have hup : v ≤ (m : ℚ) * (2 : ℚ) ^ e + (2 : ℚ) ^ e / 2 := by
    split_ifs at h <;> linarith [h.2]
  by_cases hbelow : (m : ℤ) = 2 ^ 52 ∧ -1074 < e ∧ v < (2 : ℚ) ^ 52 * (2 : ℚ) ^ e
  · -- the mantissa is the least one and the number is in the binade below
    obtain ⟨hm52, he, hvb⟩ := hbelow
    have hm52q : (m : ℚ) = (2 : ℚ) ^ 52 := by exact_mod_cast hm52
    have heven : (m : ℤ) % 2 = 0 := by
      rw [hm52]
      norm_num
    rw [if_pos heven, if_pos ⟨hm52, he⟩] at h
    have hP' : (2 : ℚ) ^ (e - 1) = (2 : ℚ) ^ e / 2 := by
      rw [zpow_sub_one₀ (by norm_num)]
      ring
    have hev : lastBitExponent v = e - 1 := by
      apply lastBitExponent_of_range v hv (e - 1) (by omega)
      · have : (52 : ℤ) + (e - 1) = 52 + e - 1 := by ring
        rw [this, zpow_sub_one₀ (by norm_num), e52]
        rw [hm52q] at h
        nlinarith [h.1]
      · have : (52 : ℤ) + (e - 1) + 1 = 52 + e := by ring
        rw [this, e52]
        exact hvb
    have hres := nearestFloat64_same_exponent v (2 ^ 53) (e - 1) hev (Or.inl (by omega))
      (Or.inr ⟨by norm_num, by
        rw [hP']
        rw [hm52q] at h
        push_cast
        nlinarith [h.1], by
        rw [hP']
        push_cast
        nlinarith⟩)
    rw [hres, hP', hm52q]
    congr 1
    push_cast
    ring
  · have hev : lastBitExponent v = e := by
      by_cases hvb : (2 : ℚ) ^ 52 * (2 : ℚ) ^ e ≤ v
      · apply lastBitExponent_of_range v hv e hemin
        · rw [e52]
          exact hvb
        · rw [e53]
          nlinarith
      · have hee : e = -1074 := by
          by_contra hne
          have he : -1074 < e := by omega
          have hm52 : ¬((m : ℤ) = 2 ^ 52) := fun hc => hbelow ⟨hc, he, not_le.mp hvb⟩
          have hnot : ¬((m : ℤ) = 2 ^ 52 ∧ -1074 < e) := fun hc => hm52 hc.1
          rw [if_neg hnot] at h
          have hlo : (m : ℚ) * 2 ^ e - 2 ^ e / 2 ≤ v := by
            split_ifs at h <;> linarith [h.1]
          rcases hme with ⟨hm1, -, -, -⟩ | ⟨-, -, hcon⟩
          · have hm1' : 2 ^ 52 + 1 ≤ m := by
              have : m ≠ 2 ^ 52 := fun hc => hm52 (by exact_mod_cast hc)
              omega
            have hq' : (2 : ℚ) ^ 52 + 1 ≤ (m : ℚ) := by exact_mod_cast hm1'
            nlinarith
          · exact hne hcon
        subst hee
        apply lastBitExponent_of_small v hv
        rw [e52]
        exact not_le.mp hvb
    apply nearestFloat64_same_exponent v m e hev hrange
    have hnot : ¬((m : ℤ) = 2 ^ 52 ∧ -1074 < e) ∨ (2 : ℚ) ^ 52 * (2 : ℚ) ^ e ≤ v := by
      by_contra hcon
      push_neg at hcon
      exact hbelow ⟨hcon.1.1, hcon.1.2, hcon.2⟩
    split_ifs at h with hev2 hb hb
    · right
      refine ⟨hev2, ?_, h.2⟩
      have hmq : (m : ℚ) = (2 : ℚ) ^ 52 := by exact_mod_cast hb.1
      rcases hnot with hn | hn
      · exact absurd hb hn
      · rw [hmq]
        linarith
    · right
      exact ⟨hev2, h.1, h.2⟩
    · left
      refine ⟨?_, h.2⟩
      have hmq : (m : ℚ) = (2 : ℚ) ^ 52 := by exact_mod_cast hb.1
      rcases hnot with hn | hn
      · exact absurd hb hn
      · rw [hmq]
        linarith
    · left
      exact ⟨h.1, h.2⟩

theorem roundHalfEven_spec (x : ℚ) :
    (((roundHalfEven x : ℤ) : ℚ) - 1 / 2 < x ∧ x < ((roundHalfEven x : ℤ) : ℚ) + 1 / 2) ∨
      (roundHalfEven x % 2 = 0 ∧ ((roundHalfEven x : ℤ) : ℚ) - 1 / 2 ≤ x ∧
        x ≤ ((roundHalfEven x : ℤ) : ℚ) + 1 / 2) := by
  have hfl := Int.floor_le x
  have hfu := Int.lt_floor_add_one x
  have hhalf : mkRat 1 2 = (1 / 2 : ℚ) := by norm_num [Rat.mkRat_eq_div]
  have hfr : mkRat ⌊x⌋ 1 = (⌊x⌋ : ℚ) := by simp [Rat.mkRat_eq_div]
  unfold roundHalfEven
  rw [qsub_eq, hhalf, hfr]
  split_ifs with h1 h2 h3
  · left
    constructor <;> linarith
  · left
    push_cast
    constructor <;> linarith
  · right
    refine ⟨h3, ?_, ?_⟩ <;> linarith
  · right
    refine ⟨by omega, ?_, ?_⟩ <;> push_cast <;> linarith

theorem lastBitExponent_range (v : ℚ) (hv : 0 < v) :
    v < (2 : ℚ) ^ 53 * (2 : ℚ) ^ lastBitExponent v ∧
    ((2 : ℚ) ^ 52 * (2 : ℚ) ^ lastBitExponent v ≤ v ∨ lastBitExponent v = -1074) ∧
    -1074 ≤ lastBitExponent v := by
  obtain ⟨h1, h2⟩ := binaryExponent_spec v hv
  unfold lastBitExponent
  rcases le_total (binaryExponent v - 52) (-1074) with hle | hle
  · rw [max_eq_right hle]
    refine ⟨?_, Or.inr rfl, le_refl _⟩
    refine lt_of_lt_of_le h2 ?_
    rw [← zpow_natCast, ← zpow_add₀ (by norm_num)]
    exact zpow_le_zpow_right₀ (by norm_num) (by push_cast; omega)
  · rw [max_eq_left hle]
    refine ⟨?_, Or.inl ?_, hle⟩
    · refine lt_of_lt_of_le h2 (le_of_eq ?_)
      rw [← zpow_natCast, ← zpow_add₀ (by norm_num)]
      congr 1
      push_cast
      ring
    · refine le_trans (le_of_eq ?_) h1
      rw [← zpow_natCast, ← zpow_add₀ (by norm_num)]
      congr 1
      push_cast
      ring

theorem roundsTo_of_decomposition (v : ℚ) (n : Nat) (e : Int)
    (hl : lastBitExponent ((n : ℚ) * (2 : ℚ) ^ e) = e)
    (hmant : mantissa ((n : ℚ) * (2 : ℚ) ^ e) = n)
    (hquarter : (n : ℤ) = 2 ^ 52 ∧ -1074 < e → (n : ℚ) * 2 ^ e - 2 ^ e / 4 ≤ v)
    (hx : ((n : ℚ) * 2 ^ e - 2 ^ e / 2 < v ∧ v < (n : ℚ) * 2 ^ e + 2 ^ e / 2) ∨
      ((n : ℤ) % 2 = 0 ∧ (n : ℚ) * 2 ^ e - 2 ^ e / 2 ≤ v ∧ v ≤ (n : ℚ) * 2 ^ e + 2 ^ e / 2)) :
    RoundsTo ((n : ℚ) * (2 : ℚ) ^ e) v := by
  have hP : (0 : ℚ) < (2 : ℚ) ^ e := zpow_pos (by norm_num) e
  have e1 : powInt 2 (e - 1) = (2 : ℚ) ^ e / 2 := by
    rw [powInt_eq, zpow_sub_one₀ (by norm_num)]
    push_cast
    ring
  have e2 : powInt 2 (e - 2) = (2 : ℚ) ^ e / 4 := by
    have : e - 2 = e - 1 - 1 := by ring
    rw [powInt_eq, this, zpow_sub_one₀ (by norm_num), zpow_sub_one₀ (by norm_num)]
    push_cast
    ring
  unfold RoundsTo lowerBound upperBound
  rw [hl, hmant, qadd_eq, qsub_eq, qsub_eq, e1, e2]
  split_ifs with hev hb hb
  · have := hquarter hb
    rcases hx with h | h
    · exact ⟨this, le_of_lt h.2⟩
    · exact ⟨this, h.2.2⟩
  · rcases hx with h | h
    · exact ⟨le_of_lt h.1, le_of_lt h.2⟩
    · exact ⟨h.2.1, h.2.2⟩
  · have heven : (n : ℤ) % 2 = 0 := by
      rw [hb.1]
      norm_num
    exact absurd heven hev
  · rcases hx with h | h
    · exact ⟨h.1, h.2⟩
    · exact absurd h.1 hev

/-- What is read from a positive number is a `float64` value to which the number rounds,
when it is not zero. -/
theorem roundsTo_of_nearestFloat64 (q v : ℚ) (hq : 0 < q) (hv : 0 < v)
    (h : nearestFloat64 v = some q) : RoundsTo q v ∧ IsFloat64 q := by
  obtain ⟨hlt, hnormal, hemin⟩ := lastBitExponent_range v hv
  have hspec := roundHalfEven_spec (v * ((2 : ℚ) ^ lastBitExponent v)⁻¹)
  unfold nearestFloat64 at h
  simp only [qmul_eq, powInt_eq, zpow_neg, Nat.cast_ofNat] at h
  generalize lastBitExponent v = e at hlt hnormal hemin hspec h
  generalize hM : roundHalfEven (v * ((2 : ℚ) ^ e)⁻¹) = M at hspec h
  have hP : (0 : ℚ) < (2 : ℚ) ^ e := zpow_pos (by norm_num) e
  split_ifs at h with hr
  simp only [Option.some.injEq] at h
  have hqM : q = (M : ℚ) * (2 : ℚ) ^ e := by
    rw [← h]
    simp [Rat.mkRat_eq_div]
  subst hqM
  generalize hx : v * ((2 : ℚ) ^ e)⁻¹ = x at hspec
  have hvx : v = x * (2 : ℚ) ^ e := by
    rw [← hx, mul_assoc, inv_mul_cancel₀ (ne_of_gt hP), mul_one]
  subst hvx
  have hx53 : x < (2 : ℚ) ^ 53 := lt_of_mul_lt_mul_right hlt (le_of_lt hP)
  have hx52 : (2 : ℚ) ^ 52 ≤ x ∨ e = -1074 := by
    rcases hnormal with h1 | h1
    · exact Or.inl (le_of_mul_le_mul_right h1 hP)
    · exact Or.inr h1
  have hMpos : 0 < M := by
    have : (0 : ℚ) < (M : ℚ) := (pos_iff_pos_of_mul_pos hq).mpr hP
    exact_mod_cast this
  have hlo : (M : ℚ) - 1 / 2 ≤ x := by rcases hspec with h1 | h1 <;> linarith [h1.1, h1.2]
  have hhi : x ≤ (M : ℚ) + 1 / 2 := by rcases hspec with h1 | h1 <;> linarith [h1.1, h1.2]
  have hM53 : M ≤ 2 ^ 53 := by
    have h1 : (M : ℚ) < (2 : ℚ) ^ 53 + 1 := by linarith
    have h2 : M < 2 ^ 53 + 1 := by exact_mod_cast h1
    omega
  obtain ⟨n, rfl⟩ := Int.eq_ofNat_of_zero_le (le_of_lt hMpos)
  have hn53 : n ≤ 2 ^ 53 := by exact_mod_cast hM53
  have hn0 : 0 < n := by exact_mod_cast hMpos
  push_cast at hlo hhi hspec hr ⊢
  have hxs : ((n : ℚ) * 2 ^ e - 2 ^ e / 2 < x * 2 ^ e ∧
        x * 2 ^ e < (n : ℚ) * 2 ^ e + 2 ^ e / 2) ∨
      (((n : ℕ) : ℤ) % 2 = 0 ∧ (n : ℚ) * 2 ^ e - 2 ^ e / 2 ≤ x * 2 ^ e ∧
        x * 2 ^ e ≤ (n : ℚ) * 2 ^ e + 2 ^ e / 2) := by
    rcases hspec with h1 | h1
    · left
      constructor <;> nlinarith [h1.1, h1.2]
    · right
      refine ⟨h1.1, ?_, ?_⟩ <;> nlinarith [h1.2.1, h1.2.2]
  by_cases htop : n = 2 ^ 53
  · -- the mantissa is carried to the next exponent
    have hr' : e < 971 := by
      rcases hr with h1 | h1
      · exact h1
      · exfalso
        have h2 : n < 2 ^ 53 := by exact_mod_cast h1.2
        omega
    have hqe : (n : ℚ) * (2 : ℚ) ^ e = ((2 ^ 52 : ℕ) : ℚ) * (2 : ℚ) ^ (e + 1) := by
      rw [htop, zpow_add_one₀ (by norm_num)]
      push_cast
      ring
    obtain ⟨hl, hmant⟩ := float64_normal (2 ^ 52) (e + 1) (le_refl _) (by norm_num) (by omega)
    rw [hqe]
    have hnq : (n : ℚ) = (2 : ℚ) ^ 53 := by exact_mod_cast htop
    have hP1 : (2 : ℚ) ^ (e + 1) = 2 * (2 : ℚ) ^ e := by
      rw [zpow_add_one₀ (by norm_num)]
      ring
    rw [hnq] at hlo
    constructor
    · apply roundsTo_of_decomposition _ (2 ^ 52) (e + 1) hl hmant
      · intro _
        rw [hP1]
        push_cast
        nlinarith
      · right
        refine ⟨by norm_num, ?_, ?_⟩
        · rw [hP1]
          push_cast
          nlinarith
        · rw [hP1]
          push_cast
          nlinarith
    · exact ⟨2 ^ 52, e + 1, rfl, Or.inl ⟨le_refl _, by norm_num, by omega, by omega⟩⟩
  · have hn53' : n < 2 ^ 53 := by omega
    have he971 : e ≤ 971 := by
      rcases hr with h1 | h1
      · omega
      · omega
    by_cases hbig : 2 ^ 52 ≤ n
    · obtain ⟨hl, hmant⟩ := float64_normal n e hbig hn53' hemin
      constructor
      · apply roundsTo_of_decomposition _ n e hl hmant _ hxs
        rintro ⟨hn52, he⟩
        have hnq : (n : ℚ) = (2 : ℚ) ^ 52 := by exact_mod_cast hn52
        rcases hx52 with h1 | h1
        · rw [hnq]
          nlinarith
        · omega
      · exact ⟨n, e, rfl, Or.inl ⟨hbig, hn53', hemin, he971⟩⟩
    · have hsmall : n < 2 ^ 52 := by omega
      have hee : e = -1074 := by
        rcases hx52 with h1 | h1
        · exfalso
          have h2 : (n : ℚ) + 1 ≤ (2 : ℚ) ^ 52 := by exact_mod_cast hsmall
          linarith
        · exact h1
      subst hee
      obtain ⟨hl, hmant⟩ := float64_subnormal n hn0 hsmall
      constructor
      · apply roundsTo_of_decomposition _ n (-1074) hl hmant _ hxs
        rintro ⟨-, he⟩
        omega
      · exact ⟨n, -1074, rfl, Or.inr ⟨hn0, hsmall, rfl⟩⟩

theorem digitsDownTo_eq (q : ℚ) (j : Int) : digitsDownTo q j = ⌊q / (10 : ℚ) ^ j⌋ := by
  unfold digitsDownTo
  rw [qmul_eq, powInt_eq, zpow_neg, div_eq_mul_inv]
  norm_cast

theorem digitsDownTo_le (q : ℚ) (j : Int) : (digitsDownTo q j : ℚ) * (10 : ℚ) ^ j ≤ q := by
  have hpos : (0 : ℚ) < (10 : ℚ) ^ j := zpow_pos (by norm_num) j
  rw [digitsDownTo_eq, ← le_div_iff₀ hpos]
  exact Int.floor_le _

theorem lt_digitsDownTo_succ (q : ℚ) (j : Int) :
    q < ((digitsDownTo q j : ℚ) + 1) * (10 : ℚ) ^ j := by
  have hpos : (0 : ℚ) < (10 : ℚ) ^ j := zpow_pos (by norm_num) j
  rw [digitsDownTo_eq, ← div_lt_iff₀ hpos]
  exact Int.lt_floor_add_one _

theorem le_digitsDownTo (q : ℚ) (j : Int) (a : Int) (h : (a : ℚ) * (10 : ℚ) ^ j ≤ q) :
    a ≤ digitsDownTo q j := by
  have hpos : (0 : ℚ) < (10 : ℚ) ^ j := zpow_pos (by norm_num) j
  rw [digitsDownTo_eq, Int.le_floor, le_div_iff₀ hpos]
  exact h

theorem digitsDownTo_lt (q : ℚ) (j : Int) (a : Int) (h : q < (a : ℚ) * (10 : ℚ) ^ j) :
    digitsDownTo q j < a := by
  have hpos : (0 : ℚ) < (10 : ℚ) ^ j := zpow_pos (by norm_num) j
  rw [digitsDownTo_eq, Int.floor_lt, div_lt_iff₀ hpos]
  exact h

theorem chooseAt_some (q : ℚ) (j d : Int) (h : chooseAt q j = some d) :
    RoundsTo q ((d : ℚ) * (10 : ℚ) ^ j) ∧
      (d = digitsDownTo q j ∨ d = digitsDownTo q j + 1) := by
  unfold chooseAt at h
  simp only [decimalOf_eq] at h
  split_ifs at h with h1 h2 h3 h4 h5 h6 <;> simp only [Option.some.injEq] at h <;> subst h
  · exact ⟨h1, Or.inl rfl⟩
  · exact ⟨h2, Or.inr rfl⟩
  · exact ⟨h1, Or.inl rfl⟩
  · exact ⟨h2, Or.inr rfl⟩
  · exact ⟨h1, Or.inl rfl⟩
  · exact ⟨h6, Or.inr rfl⟩

theorem chooseAt_of_roundsTo (q : ℚ) (j : Int)
    (h : RoundsTo q ((digitsDownTo q j : ℚ) * (10 : ℚ) ^ j) ∨
      RoundsTo q (((digitsDownTo q j : ℚ) + 1) * (10 : ℚ) ^ j)) :
    chooseAt q j ≠ none := by
  unfold chooseAt
  simp only [decimalOf_eq]
  push_cast
  rcases h with h | h
  · rw [if_pos h]
    split_ifs <;> simp
  · split_ifs <;> simp

theorem ten_zpow_le_two_zpow (j e : Int) (h0 : j ≤ 0) (he : j ≤ e) :
    (10 : ℚ) ^ j ≤ (2 : ℚ) ^ e := by
  have h1 : (10 : ℚ) ^ j ≤ (2 : ℚ) ^ j := by
    obtain ⟨n, hn⟩ := Int.eq_ofNat_of_zero_le (by omega : 0 ≤ -j)
    have hj : j = -(n : ℤ) := by omega
    rw [hj, zpow_neg, zpow_neg, zpow_natCast, zpow_natCast]
    apply inv_anti₀ (by positivity)
    exact pow_le_pow_left₀ (by norm_num) (by norm_num) n
  exact le_trans h1 (zpow_le_zpow_right₀ (by norm_num) he)

/-- At an exponent where one digit is less than a quarter of the last bit, `q` cut after
that digit rounds to `q`. -/
theorem roundsTo_digitsDownTo (q : ℚ) (j : Int) (h : j ≤ min 0 (lastBitExponent q - 2)) :
    RoundsTo q ((digitsDownTo q j : ℚ) * (10 : ℚ) ^ j) := by
  have hle := ten_zpow_le_two_zpow j (lastBitExponent q - 2) (le_trans h (min_le_left _ _))
    (le_trans h (min_le_right _ _))
  have h2 : powInt 2 (lastBitExponent q - 2) = (2 : ℚ) ^ (lastBitExponent q - 2) := by
    rw [powInt_eq]
    norm_cast
  have hpos : (0 : ℚ) < (10 : ℚ) ^ j := zpow_pos (by norm_num) j
  have hd := digitsDownTo_le q j
  have hu := lt_digitsDownTo_succ q j
  apply roundsTo_of_near <;> rw [h2] <;> nlinarith

theorem shortestAux_spec (q : ℚ) (fuel : Nat) (j : Int)
    (hlast : j - fuel ≤ min 0 (lastBitExponent q - 2)) :
    RoundsTo q (((shortestAux (chooseAt q) (digitsDownTo q) fuel j).1 : ℚ) *
      (10 : ℚ) ^ (shortestAux (chooseAt q) (digitsDownTo q) fuel j).2) ∧
    ((shortestAux (chooseAt q) (digitsDownTo q) fuel j).1 =
        digitsDownTo q (shortestAux (chooseAt q) (digitsDownTo q) fuel j).2 ∨
      (shortestAux (chooseAt q) (digitsDownTo q) fuel j).1 =
        digitsDownTo q (shortestAux (chooseAt q) (digitsDownTo q) fuel j).2 + 1) ∧
    (shortestAux (chooseAt q) (digitsDownTo q) fuel j).2 ≤ j ∧
    ∀ i, (shortestAux (chooseAt q) (digitsDownTo q) fuel j).2 < i → i ≤ j →
      chooseAt q i = none := by
  generalize hch : chooseAt q = choose
  induction fuel generalizing j with
  | zero =>
    have hr := roundsTo_digitsDownTo q j (by simpa using hlast)
    cases hc : choose j with
    | none =>
      rw [← hch] at hc
      exact absurd hc (chooseAt_of_roundsTo q j (Or.inl hr))
    | some d =>
      obtain ⟨h1, h2⟩ := chooseAt_some q j d (by rw [hch]; exact hc)
      simp only [shortestAux, hc, Option.getD_some]
      exact ⟨h1, h2, le_refl _, fun i hi hij => absurd hij (not_le.mpr hi)⟩
  | succ fuel ih =>
    cases hc : choose j with
    | some d =>
      obtain ⟨h1, h2⟩ := chooseAt_some q j d (by rw [hch]; exact hc)
      simp only [shortestAux, hc]
      exact ⟨h1, h2, le_refl _, fun i hi hij => absurd hij (not_le.mpr hi)⟩
    | none =>
      have hlast' : j - 1 - (fuel : ℤ) ≤ min 0 (lastBitExponent q - 2) := by
        have e : j - 1 - (fuel : ℤ) = j - ((fuel + 1 : ℕ) : ℤ) := by push_cast; ring
        rw [e]
        exact hlast
      obtain ⟨h1, h2, h3, h4⟩ := ih (j - 1) hlast'
      simp only [shortestAux, hc]
      refine ⟨h1, h2, by linarith, ?_⟩
      intro i hi hij
      by_cases hj : i = j
      · rw [hj]
        exact hc
      · exact h4 i hi (by omega)

/-- When a decimal with at most `k` digits rounds to `q`, so does `q` cut at its `k`-th
significant digit, or that raised by one in the last digit. -/
theorem chooseAt_of_hasDigits (q : ℚ) (hq : 0 < q) (k : Nat) (hk : 1 ≤ k) (a : Nat) (i : Int)
    (ha : a < 10 ^ k) (hv : RoundsTo q ((a : ℚ) * (10 : ℚ) ^ i)) :
    chooseAt q (decimalExponent q - k + 1) ≠ none := by
  obtain ⟨hp1, hp2⟩ := decimalExponent_spec q hq
  generalize decimalExponent q = p at hp1 hp2 ⊢
  generalize hj : p - (k : ℤ) + 1 = j
  have hjpos : (0 : ℚ) < (10 : ℚ) ^ j := zpow_pos (by norm_num) j
  have hpj : (10 : ℚ) ^ p = ((10 ^ (k - 1) : ℕ) : ℤ) * (10 : ℚ) ^ j := by
    have e : p = ((k - 1 : ℕ) : ℤ) + j := by
      rw [Nat.cast_sub hk]
      push_cast
      omega
    rw [e, zpow_add₀ (by norm_num), zpow_natCast]
    push_cast
    ring
  apply chooseAt_of_roundsTo
  by_cases hlow : (a : ℚ) * (10 : ℚ) ^ i < (10 : ℚ) ^ p
  · left
    have h10 : RoundsTo q ((10 : ℚ) ^ p) :=
      roundsTo_between q _ q _ hv (roundsTo_self q) (le_of_lt hlow) hp1
    have hd : ((10 ^ (k - 1) : ℕ) : ℤ) ≤ digitsDownTo q j :=
      le_digitsDownTo q j _ (by rw [← hpj]; exact hp1)
    have hd' : (10 : ℚ) ^ p ≤ (digitsDownTo q j : ℚ) * (10 : ℚ) ^ j := by
      rw [hpj]
      exact mul_le_mul_of_nonneg_right (by exact_mod_cast hd) (le_of_lt hjpos)
    exact roundsTo_between q _ q _ h10 (roundsTo_self q) hd' (digitsDownTo_le q j)
  · have hij : j ≤ i := by
      by_contra hcon
      have hi : i + k ≤ p := by omega
      apply hlow
      calc (a : ℚ) * (10 : ℚ) ^ i < ((10 ^ k : ℕ) : ℚ) * (10 : ℚ) ^ i :=
            mul_lt_mul_of_pos_right (by exact_mod_cast ha) (zpow_pos (by norm_num) i)
        _ = (10 : ℚ) ^ (i + (k : ℤ)) := by
            rw [zpow_add₀ (by norm_num), zpow_natCast]
            push_cast
            ring
        _ ≤ (10 : ℚ) ^ p := zpow_le_zpow_right₀ (by norm_num) hi
    obtain ⟨n, hn⟩ := Int.eq_ofNat_of_zero_le (by omega : 0 ≤ i - j)
    have hval : (a : ℚ) * (10 : ℚ) ^ i = (((a * 10 ^ n : ℕ) : ℤ) : ℚ) * (10 : ℚ) ^ j := by
      have e : i = (n : ℤ) + j := by omega
      rw [e, zpow_add₀ (by norm_num), zpow_natCast]
      push_cast
      ring
    rw [hval] at hv
    by_cases hvq : (((a * 10 ^ n : ℕ) : ℤ) : ℚ) * (10 : ℚ) ^ j ≤ q
    · left
      have hd := le_digitsDownTo q j _ hvq
      exact roundsTo_between q _ q _ hv (roundsTo_self q)
        (mul_le_mul_of_nonneg_right (by exact_mod_cast hd) (le_of_lt hjpos))
        (digitsDownTo_le q j)
    · right
      have hd := digitsDownTo_lt q j _ (not_le.mp hvq)
      have hd' : digitsDownTo q j + 1 ≤ ((a * 10 ^ n : ℕ) : ℤ) := hd
      refine roundsTo_between q q _ _ (roundsTo_self q) hv
        (le_of_lt (lt_digitsDownTo_succ q j)) ?_
      apply mul_le_mul_of_nonneg_right _ (le_of_lt hjpos)
      exact_mod_cast hd'

/-- The shortest decimal of a positive number: it rounds to the number, and it has no more
significant digits than any decimal that rounds to the number. -/
theorem shortestDecimal_spec (q : ℚ) (hq : 0 < q) :
    0 < (shortestDecimal q).1 ∧
    RoundsTo q (((shortestDecimal q).1 : ℚ) * (10 : ℚ) ^ (shortestDecimal q).2) ∧
    ∀ (k a : Nat) (i : Int), 0 < a → a < 10 ^ k → RoundsTo q ((a : ℚ) * (10 : ℚ) ^ i) →
      HasDigits k (((shortestDecimal q).1 : ℚ) * (10 : ℚ) ^ (shortestDecimal q).2) := by
  obtain ⟨hp1, hp2⟩ := decimalExponent_spec q hq
  have hspec := shortestAux_spec q
    (decimalExponent q - min 0 (lastBitExponent q - 2)).toNat (decimalExponent q)
    (by
      have := Int.self_le_toNat (decimalExponent q - min 0 (lastBitExponent q - 2))
      linarith)
  unfold shortestDecimal
  generalize shortestAux (chooseAt q) (digitsDownTo q)
    (decimalExponent q - min 0 (lastBitExponent q - 2)).toNat (decimalExponent q) = r at hspec ⊢
  obtain ⟨h1, h2, h3, h4⟩ := hspec
  generalize hp : decimalExponent q = p at hp1 hp2 h3 h4
  obtain ⟨n, hn⟩ := Int.eq_ofNat_of_zero_le (by omega : 0 ≤ p - r.2)
  have hjpos : (0 : ℚ) < (10 : ℚ) ^ r.2 := zpow_pos (by norm_num) r.2
  have hpn : (10 : ℚ) ^ p = ((10 ^ n : ℕ) : ℤ) * (10 : ℚ) ^ r.2 := by
    have e : p = (n : ℤ) + r.2 := by omega
    rw [e, zpow_add₀ (by norm_num), zpow_natCast]
    push_cast
    ring
  have hpn1 : (10 : ℚ) ^ (p + 1) = ((10 ^ (n + 1) : ℕ) : ℤ) * (10 : ℚ) ^ r.2 := by
    have e : p + 1 = ((n + 1 : ℕ) : ℤ) + r.2 := by push_cast; omega
    rw [e, zpow_add₀ (by norm_num), zpow_natCast]
    push_cast
    ring
  have hdlow : ((10 ^ n : ℕ) : ℤ) ≤ digitsDownTo q r.2 :=
    le_digitsDownTo q r.2 _ (by rw [← hpn]; exact hp1)
  have hdup : digitsDownTo q r.2 < ((10 ^ (n + 1) : ℕ) : ℤ) :=
    digitsDownTo_lt q r.2 _ (by rw [← hpn1]; exact hp2)
  have h10 : (0 : ℤ) < ((10 ^ n : ℕ) : ℤ) := by positivity
  have hpos : 0 < r.1 := by rcases h2 with h | h <;> omega
  refine ⟨hpos, h1, ?_⟩
  intro k a i ha hak hv
  have hk : 1 ≤ k := by
    by_contra hcon
    have : k = 0 := by omega
    subst this
    simp at hak
    omega
  have hkn : n + 1 ≤ k := by
    by_contra hcon
    have hnone := h4 (p - (k : ℤ) + 1) (by omega) (by omega)
    have hsome := chooseAt_of_hasDigits q hq k hk a i hak hv
    rw [hp] at hsome
    exact hsome hnone
  by_cases htop : r.1 = ((10 ^ (n + 1) : ℕ) : ℤ)
  · refine ⟨1, p + 1, Nat.one_lt_pow (by omega) (by norm_num), ?_⟩
    rw [htop, ← hpn1]
    simp
  · have hlt : r.1 < ((10 ^ (n + 1) : ℕ) : ℤ) := by rcases h2 with h | h <;> omega
    refine ⟨r.1.toNat, r.2, ?_, ?_⟩
    · have h' : ((r.1.toNat : ℕ) : ℤ) < ((10 ^ (n + 1) : ℕ) : ℤ) := by
        rw [Int.toNat_of_nonneg (le_of_lt hpos)]
        exact hlt
      have h'' : r.1.toNat < 10 ^ (n + 1) := by exact_mod_cast h'
      exact lt_of_lt_of_le h'' (Nat.pow_le_pow_right (by norm_num) hkn)
    · have e : ((r.1.toNat : ℕ) : ℚ) = (r.1 : ℚ) := by
        have := Int.toNat_of_nonneg (le_of_lt hpos)
        exact_mod_cast this
      rw [e]

theorem trimZerosAux_spec (fuel d : Nat) (j : Int) (hd : 0 < d) (hfuel : d ≤ fuel) :
    0 < (trimZerosAux fuel d j).1 ∧ (trimZerosAux fuel d j).1 % 10 ≠ 0 ∧
    ((trimZerosAux fuel d j).1 : ℚ) * (10 : ℚ) ^ (trimZerosAux fuel d j).2 =
      (d : ℚ) * (10 : ℚ) ^ j := by
  induction fuel generalizing d j with
  | zero => omega
  | succ fuel ih =>
    unfold trimZerosAux
    split_ifs with h
    · obtain ⟨c, hc⟩ : ∃ c, d = 10 * c := ⟨d / 10, by omega⟩
      subst hc
      have hc0 : 0 < c := by omega
      have e : 10 * c / 10 = c := by omega
      rw [e]
      obtain ⟨h1, h2, h3⟩ := ih c (j + 1) hc0 (by omega)
      refine ⟨h1, h2, ?_⟩
      rw [h3, zpow_add_one₀ (by norm_num)]
      push_cast
      ring
    · refine ⟨hd, ?_, rfl⟩
      intro h0
      exact h ⟨h0, by omega⟩

theorem trimZeros_spec (d : Nat) (j : Int) (hd : 0 < d) :
    0 < (trimZeros d j).1 ∧ (trimZeros d j).1 % 10 ≠ 0 ∧
    ((trimZeros d j).1 : ℚ) * (10 : ℚ) ^ (trimZeros d j).2 = (d : ℚ) * (10 : ℚ) ^ j :=
  trimZerosAux_spec d d j hd (le_refl d)

/-- The characters that are decimal digits. -/
theorem digitValue_digitChar (d : Nat) (hd : d < 10) : digitValue (Nat.digitChar d) = some d := by
  interval_cases d <;> decide

theorem digitChar_ne_point (d : Nat) (hd : d < 10) : Nat.digitChar d ≠ '.' := by
  interval_cases d <;> decide

theorem digitChar_eq_zero (d : Nat) (hd : d < 10) (h : Nat.digitChar d = '0') : d = 0 := by
  interval_cases d <;> first | rfl | (exfalso; revert h; decide)

theorem decimalDigitsAux_spec (fuel n : Nat) (hfuel : n < fuel) :
    (∀ c ∈ decimalDigitsAux fuel n, ∃ d, d < 10 ∧ c = Nat.digitChar d) ∧
    (decimalDigitsAux fuel n).getLast? = some (Nat.digitChar (n % 10)) ∧
    ∀ acc, readDigits (decimalDigitsAux fuel n) acc =
      some (acc * 10 ^ (decimalDigitsAux fuel n).length + n) := by
  induction fuel generalizing n with
  | zero => omega
  | succ fuel ih =>
    unfold decimalDigitsAux
    split_ifs with h
    · refine ⟨?_, ?_, ?_⟩
      · intro c hc
        simp only [List.mem_singleton] at hc
        exact ⟨n, h, hc⟩
      · simp [Nat.mod_eq_of_lt h]
      · intro acc
        simp only [readDigits, digitValue_digitChar n h, List.length_singleton, pow_one]
        congr 1
        ring
    · obtain ⟨h1, h2, h3⟩ := ih (n / 10) (by omega)
      refine ⟨?_, ?_, ?_⟩
      · intro c hc
        rcases List.mem_append.mp hc with hc | hc
        · exact h1 c hc
        · simp only [List.mem_singleton] at hc
          exact ⟨n % 10, Nat.mod_lt _ (by norm_num), hc⟩
      · simp
      · intro acc
        have happ : ∀ (xs : List Char) (c : Char) (a v : Nat),
            readDigits xs a = some v →
            readDigits (xs ++ [c]) a = (digitValue c).bind (fun d => some (10 * v + d)) := by
          intro xs
          induction xs with
          | nil =>
            intro c a v hv
            simp only [readDigits, Option.some.injEq] at hv
            subst hv
            simp only [List.nil_append, readDigits]
            cases digitValue c <;> rfl
          | cons x xs ihx =>
            intro c a v hv
            simp only [List.cons_append, readDigits] at hv ⊢
            cases hx : digitValue x with
            | none => simp [hx] at hv
            | some dx =>
              simp only [hx] at hv ⊢
              exact ihx c _ v hv
        rw [happ _ _ acc _ (h3 acc), digitValue_digitChar _ (Nat.mod_lt _ (by norm_num))]
        simp only [Option.some_bind, List.length_append, List.length_singleton, Option.some.injEq]
        have := Nat.div_add_mod n 10
        rw [pow_succ]
        nlinarith

theorem readDigits_append (xs ys : List Char) (acc : Nat) :
    readDigits (xs ++ ys) acc = (readDigits xs acc).bind (fun a => readDigits ys a) := by
  induction xs generalizing acc with
  | nil => rfl
  | cons x xs ih =>
    simp only [List.cons_append, readDigits]
    cases digitValue x with
    | none => rfl
    | some d => exact ih _

theorem readDigits_of_digits (xs : List Char)
    (h : ∀ c ∈ xs, ∃ d, d < 10 ∧ c = Nat.digitChar d) :
    ∃ v, ∀ acc, readDigits xs acc = some (acc * 10 ^ xs.length + v) := by
  induction xs with
  | nil => exact ⟨0, fun acc => by simp [readDigits]⟩
  | cons x xs ih =>
    obtain ⟨v, hv⟩ := ih (fun c hc => h c (List.mem_cons_of_mem _ hc))
    obtain ⟨d, hd, rfl⟩ := h x (List.mem_cons_self _ _)
    refine ⟨d * 10 ^ xs.length + v, fun acc => ?_⟩
    simp only [readDigits, digitValue_digitChar d hd, hv, List.length_cons, pow_succ,
      Option.some.injEq]
    ring

theorem readDigits_zeros (m acc : Nat) :
    readDigits (List.replicate m '0') acc = some (acc * 10 ^ m) := by
  induction m generalizing acc with
  | zero => simp [readDigits]
  | succ m ih =>
    have h0 : digitValue '0' = some 0 := by decide
    simp only [List.replicate_succ, readDigits, h0, ih, pow_succ, Option.some.injEq]
    ring

theorem takeWhile_point (xs ys : List Char) (h : ∀ c ∈ xs, c ≠ '.') :
    (xs ++ '.' :: ys).takeWhile (· ≠ '.') = xs ∧
      (xs ++ '.' :: ys).dropWhile (· ≠ '.') = '.' :: ys := by
  induction xs with
  | nil => simp
  | cons x xs ih =>
    have hx : x ≠ '.' := h x (List.mem_cons_self _ _)
    obtain ⟨h1, h2⟩ := ih (fun c hc => h c (List.mem_cons_of_mem _ hc))
    have hd : decide (x ≠ '.') = true := decide_eq_true hx
    rw [List.cons_append, List.takeWhile_cons, List.dropWhile_cons]
    simp only [hd, if_true, h1, h2, and_self]

theorem takeWhile_no_point (xs : List Char) (h : ∀ c ∈ xs, c ≠ '.') :
    xs.takeWhile (· ≠ '.') = xs ∧ xs.dropWhile (· ≠ '.') = [] := by
  induction xs with
  | nil => simp
  | cons x xs ih =>
    have hx : x ≠ '.' := h x (List.mem_cons_self _ _)
    obtain ⟨h1, h2⟩ := ih (fun c hc => h c (List.mem_cons_of_mem _ hc))
    have hd : decide (x ≠ '.') = true := decide_eq_true hx
    rw [List.takeWhile_cons, List.dropWhile_cons]
    simp only [hd, if_true, h1, h2, and_self]

theorem decimalDigits_spec (n : Nat) :
    (∀ c ∈ decimalDigits n, ∃ d, d < 10 ∧ c = Nat.digitChar d) ∧
    (decimalDigits n).getLast? = some (Nat.digitChar (n % 10)) ∧
    ∀ acc, readDigits (decimalDigits n) acc =
      some (acc * 10 ^ (decimalDigits n).length + n) :=
  decimalDigitsAux_spec (n + 1) n (Nat.lt_succ_self n)

/-- The layout read as a decimal literal is the number laid out. -/
theorem readUnsigned_fmtF (n : Nat) (j : Int) :
    readUnsigned (fmtF (decimalDigits n) j) = some ((n : ℚ) * (10 : ℚ) ^ j) := by
  obtain ⟨hdig, hlast, hread⟩ := decimalDigits_spec n
  have hne : decimalDigits n ≠ [] := by
    intro h
    rw [h] at hlast
    simp at hlast
  have hpt : ∀ c ∈ decimalDigits n, c ≠ '.' := by
    intro c hc
    obtain ⟨d, hd, rfl⟩ := hdig c hc
    exact digitChar_ne_point d hd
  generalize decimalDigits n = ds at hdig hlast hread hne hpt
  unfold fmtF
  split_ifs with h0 hk
  · obtain ⟨m, rfl⟩ := Int.eq_ofNat_of_zero_le h0
    have hall : ∀ c ∈ ds ++ List.replicate m '0', c ≠ '.' := by
      intro c hc
      rcases List.mem_append.mp hc with hc | hc
      · exact hpt c hc
      · rw [List.eq_of_mem_replicate hc]
        decide
    obtain ⟨h1, h2⟩ := takeWhile_no_point _ hall
    have hne' : ds ++ List.replicate m '0' ≠ [] := by simp [hne]
    unfold readUnsigned
    simp only [Int.toNat_ofNat, h1, h2, hne', if_false, List.drop_nil, readDigits_append, hread,
      Option.some_bind, readDigits_zeros, readDigits, List.length_nil, pow_zero, mul_one]
    rw [Rat.mkRat_eq_div]
    push_cast
    simp
  · obtain ⟨k, hk'⟩ := Int.eq_ofNat_of_zero_le (by omega : 0 ≤ -j)
    have hj : j = -(k : ℤ) := by omega
    subst hj
    simp only [neg_neg, Int.toNat_ofNat] at hk ⊢
    have hk1 : 1 ≤ k := by omega
    have hw : ∀ c ∈ ds.take (ds.length - k), c ≠ '.' :=
      fun c hc => hpt c (List.mem_of_mem_take hc)
    obtain ⟨h1, h2⟩ := takeWhile_point (ds.take (ds.length - k)) (ds.drop (ds.length - k)) hw
    have hwne : ds.take (ds.length - k) ≠ [] := by
      intro h
      have := congrArg List.length h
      simp at this
      omega
    have hfl : (ds.drop (ds.length - k)).length = k := by
      simp
      omega
    obtain ⟨w, hwv⟩ := readDigits_of_digits (ds.take (ds.length - k))
      (fun c hc => hdig c (List.mem_of_mem_take hc))
    obtain ⟨f, hfv⟩ := readDigits_of_digits (ds.drop (ds.length - k))
      (fun c hc => hdig c (List.mem_of_mem_drop hc))
    have hsum : w * 10 ^ k + f = n := by
      have h := hread 0
      rw [← List.take_append_drop (ds.length - k) ds, readDigits_append, hwv, Option.some_bind,
        hfv, hfl] at h
      simp only [zero_mul, zero_add, Option.some.injEq] at h
      exact h
    unfold readUnsigned
    simp only [h1, h2, hwne, if_false, List.drop_one, List.tail_cons, hwv, hfv, hfl, zero_mul,
      zero_add]
    rw [Rat.mkRat_eq_div, zpow_neg, zpow_natCast, ← hsum]
    push_cast
    rw [div_eq_mul_inv]
  · obtain ⟨k, hk'⟩ := Int.eq_ofNat_of_zero_le (by omega : 0 ≤ -j)
    have hj : j = -(k : ℤ) := by omega
    subst hj
    simp only [neg_neg, Int.toNat_ofNat] at hk ⊢
    have h0' : ∀ c ∈ ['0'], c ≠ '.' := by decide
    obtain ⟨h1, h2⟩ := takeWhile_point ['0'] (List.replicate (k - ds.length) '0' ++ ds) h0'
    simp only [List.singleton_append] at h1 h2
    have hfl : (List.replicate (k - ds.length) '0' ++ ds).length = k := by
      simp
      omega
    have hz : readDigits ['0'] 0 = some 0 := by decide
    unfold readUnsigned
    simp only [h1, h2, List.cons_ne_nil, if_false, List.drop_one, List.tail_cons, hz, hfl,
      readDigits_append, readDigits_zeros, Option.some_bind, hread, zero_mul, zero_add]
    rw [Rat.mkRat_eq_div, zpow_neg, zpow_natCast]
    push_cast
    rw [div_eq_mul_inv, zero_mul, zero_add]

theorem fmtF_chars (n : Nat) (j : Int) :
    ∀ c ∈ fmtF (decimalDigits n) j, c = '.' ∨ ∃ d, d < 10 ∧ c = Nat.digitChar d := by
  obtain ⟨hdig, -, -⟩ := decimalDigits_spec n
  have hzero : ∃ d, d < 10 ∧ '0' = Nat.digitChar d := ⟨0, by norm_num, rfl⟩
  intro c hc
  unfold fmtF at hc
  split_ifs at hc
  · rcases List.mem_append.mp hc with h | h
    · exact Or.inr (hdig c h)
    · rw [List.eq_of_mem_replicate h]
      exact Or.inr hzero
  · rcases List.mem_append.mp hc with h | h
    · exact Or.inr (hdig c (List.mem_of_mem_take h))
    · rcases List.mem_cons.mp h with h | h
      · exact Or.inl h
      · exact Or.inr (hdig c (List.mem_of_mem_drop h))
  · rcases List.mem_cons.mp hc with h | h
    · rw [h]
      exact Or.inr hzero
    · rcases List.mem_cons.mp h with h | h
      · exact Or.inl h
      · rcases List.mem_append.mp h with h | h
        · rw [List.eq_of_mem_replicate h]
          exact Or.inr hzero
        · exact Or.inr (hdig c h)

theorem fmtF_head (n : Nat) (j : Int) :
    ∃ d rest, d < 10 ∧ fmtF (decimalDigits n) j = Nat.digitChar d :: rest := by
  obtain ⟨hdig, hlast, -⟩ := decimalDigits_spec n
  have hne : decimalDigits n ≠ [] := by
    intro h
    rw [h] at hlast
    simp at hlast
  generalize decimalDigits n = ds at hdig hne
  unfold fmtF
  split_ifs with h0 hk
  · cases ds with
    | nil => exact absurd rfl hne
    | cons x xs =>
      obtain ⟨d, hd, rfl⟩ := hdig x (List.mem_cons_self _ _)
      exact ⟨d, _, hd, rfl⟩
  · cases ds with
    | nil => exact absurd rfl hne
    | cons x xs =>
      obtain ⟨d, hd, rfl⟩ := hdig x (List.mem_cons_self _ _)
      obtain ⟨m, hm⟩ : ∃ m, (Nat.digitChar d :: xs).length - (-j).toNat = m + 1 :=
        ⟨(Nat.digitChar d :: xs).length - (-j).toNat - 1, by omega⟩
      rw [hm]
      exact ⟨d, _, hd, rfl⟩
  · exact ⟨0, _, by norm_num, rfl⟩

theorem fmtF_point_iff (n : Nat) (j : Int) : '.' ∈ fmtF (decimalDigits n) j ↔ j < 0 := by
  obtain ⟨hdig, -, -⟩ := decimalDigits_spec n
  have hpt : ∀ c ∈ decimalDigits n, c ≠ '.' := by
    intro c hc
    obtain ⟨d, hd, rfl⟩ := hdig c hc
    exact digitChar_ne_point d hd
  generalize decimalDigits n = ds at hpt
  unfold fmtF
  split_ifs with h0 hk
  · constructor
    · intro h
      rcases List.mem_append.mp h with h | h
      · exact absurd rfl (hpt _ h)
      · have := List.eq_of_mem_replicate h
        exact absurd this (by decide)
    · intro h
      omega
  · constructor
    · intro _
      omega
    · intro _
      exact List.mem_append_right _ (List.mem_cons_self _ _)
  · constructor
    · intro _
      omega
    · intro _
      exact List.mem_cons_of_mem _ (List.mem_cons_self _ _)

theorem fmtF_getLast (n : Nat) (j : Int) (hj : j < 0) :
    (fmtF (decimalDigits n) j).getLast? = some (Nat.digitChar (n % 10)) := by
  obtain ⟨-, hlast, -⟩ := decimalDigits_spec n
  have hne : decimalDigits n ≠ [] := by
    intro h
    rw [h] at hlast
    simp at hlast
  generalize decimalDigits n = ds at hlast hne
  have hds : ∀ (pre : List Char), (pre ++ ds).getLast? = some (Nat.digitChar (n % 10)) := by
    intro pre
    rw [List.getLast?_append_of_ne_nil _ hne]
    exact hlast
  unfold fmtF
  split_ifs with h0 hk
  · omega
  · have hdrop : ds.drop (ds.length - (-j).toNat) ≠ [] := by
      intro h
      have := congrArg List.length h
      simp at this
      omega
    have e : ds.take (ds.length - (-j).toNat) ++ '.' :: ds.drop (ds.length - (-j).toNat) =
        (ds.take (ds.length - (-j).toNat) ++ ['.']) ++ ds.drop (ds.length - (-j).toNat) := by
      simp
    rw [e, List.getLast?_append_of_ne_nil _ hdrop]
    have e2 := hds (ds.take (ds.length - (-j).toNat))
    rw [← List.take_append_drop (ds.length - (-j).toNat) ds] at hlast
    rw [List.getLast?_append_of_ne_nil _ hdrop] at hlast
    exact hlast
  · have e : '0' :: '.' :: (List.replicate ((-j).toNat - ds.length) '0' ++ ds) =
        ('0' :: '.' :: List.replicate ((-j).toNat - ds.length) '0') ++ ds := by
      simp
    rw [e]
    exact hds _

theorem not_digit_or_point (c : Char) (hc : c = 'N' ∨ c = 'I' ∨ c = '+' ∨ c = '-') :
    ¬(c = '.' ∨ ∃ d, d < 10 ∧ c = Nat.digitChar d) := by
  rintro (h | ⟨d, hd, h⟩)
  · rcases hc with rfl | rfl | rfl | rfl <;> exact absurd h (by decide)
  · rcases hc with rfl | rfl | rfl | rfl <;> interval_cases d <;> exact absurd h (by decide)

theorem readDecimal_plain (cs : List Char)
    (hchars : ∀ c ∈ cs, c = '.' ∨ ∃ d, d < 10 ∧ c = Nat.digitChar d) :
    readDecimal (String.mk cs) = (readUnsigned cs).map Float64.fin := by
  have hno : ∀ (s : String) (c : Char), c ∈ s.data → (c = 'N' ∨ c = 'I' ∨ c = '+' ∨ c = '-') →
      String.mk cs ≠ s := by
    intro s c hc hcc he
    rw [← he] at hc
    exact not_digit_or_point c hcc (hchars c hc)
  have h1 : String.mk cs ≠ "NaN" := hno "NaN" 'N' (by decide) (by simp)
  have h2 : ¬(String.mk cs = "Inf" ∨ String.mk cs = "+Inf") := by
    rintro (h | h)
    · exact hno "Inf" 'I' (by decide) (by simp) h
    · exact hno "+Inf" 'I' (by decide) (by simp) h
  have h3 : String.mk cs ≠ "-Inf" := hno "-Inf" 'I' (by decide) (by simp)
  unfold readDecimal
  rw [if_neg h1, if_neg h2, if_neg h3]
  split
  · rename_i rest heq
    have hmem : '-' ∈ cs := by
      have : (String.mk cs).data = '-' :: rest := heq
      simp only at this
      rw [this]
      exact List.mem_cons_self _ _
    exact absurd (hchars '-' hmem) (not_digit_or_point '-' (by simp))
  · rfl

theorem readDecimal_minus (cs : List Char)
    (hchars : ∀ c ∈ cs, c = '.' ∨ ∃ d, d < 10 ∧ c = Nat.digitChar d) :
    readDecimal ("-" ++ String.mk cs) =
      (readUnsigned cs).map (fun x => if x = 0 then Float64.negZero else Float64.fin (-x)) := by
  have hdata : ("-" ++ String.mk cs).data = '-' :: cs := rfl
  have h1 : "-" ++ String.mk cs ≠ "NaN" := by
    intro h
    have := congrArg String.data h
    rw [hdata] at this
    exact absurd this (by simp)
  have h2 : ¬("-" ++ String.mk cs = "Inf" ∨ "-" ++ String.mk cs = "+Inf") := by
    rintro (h | h) <;>
    · have := congrArg String.data h
      rw [hdata] at this
      exact absurd this (by simp)
  have h3 : "-" ++ String.mk cs ≠ "-Inf" := by
    intro h
    have := congrArg String.data h
    rw [hdata] at this
    have hcs : cs = ['I', 'n', 'f'] := by
      simpa using this
    exact not_digit_or_point 'I' (by simp) (hchars 'I' (by rw [hcs]; simp))
  unfold readDecimal
  rw [if_neg h1, if_neg h2, if_neg h3]
  split
  · rename_i rest heq
    rw [hdata] at heq
    have : cs = rest := by
      simpa using heq
    rw [this]
  · rename_i hne
    exact absurd hdata (hne cs)

/-- The rendering of a positive number. -/
theorem formatPositive_spec (q : ℚ) (hq : 0 < q) :
    ∃ v : ℚ, 0 < v ∧ readUnsigned (formatPositive q).data = some v ∧ RoundsTo q v ∧
      (∀ (k a : Nat) (i : Int), 0 < a → a < 10 ^ k → RoundsTo q ((a : ℚ) * (10 : ℚ) ^ i) →
        HasDigits k v) ∧
      ('.' ∈ (formatPositive q).data → (formatPositive q).data.getLast? ≠ some '0') ∧
      ((∃ z : ℤ, v = z) → '.' ∉ (formatPositive q).data) ∧
      (∀ c ∈ (formatPositive q).data, c = '.' ∨ ∃ d, d < 10 ∧ c = Nat.digitChar d) := by
  obtain ⟨hpos, hround, hmin⟩ := shortestDecimal_spec q hq
  have hd0 : 0 < (shortestDecimal q).1.toNat := by omega
  have hcast : (((shortestDecimal q).1.toNat : ℕ) : ℚ) = ((shortestDecimal q).1 : ℚ) := by
    have := Int.toNat_of_nonneg (le_of_lt hpos)
    exact_mod_cast this
  obtain ⟨ht1, ht2, ht3⟩ := trimZeros_spec (shortestDecimal q).1.toNat (shortestDecimal q).2 hd0
  rw [hcast] at ht3
  have hdata : (formatPositive q).data =
      fmtF (decimalDigits (trimZeros (shortestDecimal q).1.toNat (shortestDecimal q).2).1)
        (trimZeros (shortestDecimal q).1.toNat (shortestDecimal q).2).2 := rfl
  generalize trimZeros (shortestDecimal q).1.toNat (shortestDecimal q).2 = t at ht1 ht2 ht3 hdata
  rw [← ht3] at hround hmin
  have hvpos : (0 : ℚ) < (t.1 : ℚ) * (10 : ℚ) ^ t.2 :=
    mul_pos (by exact_mod_cast ht1) (zpow_pos (by norm_num) _)
  refine ⟨(t.1 : ℚ) * (10 : ℚ) ^ t.2, hvpos, ?_, hround, hmin, ?_, ?_, ?_⟩
  · rw [hdata]
    exact readUnsigned_fmtF t.1 t.2
  · intro hpt
    rw [hdata] at hpt ⊢
    have hj := (fmtF_point_iff t.1 t.2).mp hpt
    rw [fmtF_getLast t.1 t.2 hj]
    intro h
    have h' := digitChar_eq_zero (t.1 % 10) (Nat.mod_lt _ (by norm_num)) (Option.some.inj h)
    exact ht2 h'
  · rintro ⟨z, hz⟩ hpt
    rw [hdata] at hpt
    have hj := (fmtF_point_iff t.1 t.2).mp hpt
    obtain ⟨k, hk⟩ := Int.eq_ofNat_of_zero_le (by omega : 0 ≤ -t.2 - 1)
    have hj' : t.2 = -((k + 1 : ℕ) : ℤ) := by push_cast; omega
    rw [hj', zpow_neg, zpow_natCast] at hz
    have hz' : (t.1 : ℚ) = (z : ℚ) * (10 : ℚ) ^ (k + 1) := by
      have h10 : ((10 : ℚ) ^ (k + 1)) ≠ 0 := by positivity
      field_simp at hz
      linarith
    have hz'' : ((t.1 : ℕ) : ℤ) = z * 10 ^ (k + 1) := by exact_mod_cast hz'
    have hdvd : (10 : ℤ) ∣ ((t.1 : ℕ) : ℤ) := by
      rw [hz'', pow_succ]
      exact ⟨z * 10 ^ k, by ring⟩
    have : t.1 % 10 = 0 := by omega
    exact ht2 this
  · rw [hdata]
    exact fmtF_chars t.1 t.2

theorem isFloat64_pos (q : ℚ) (h : IsFloat64 q) : 0 < q := by
  obtain ⟨m, e, rfl, hme⟩ := h
  have hm : 0 < m := by
    rcases hme with ⟨hm1, -, -, -⟩ | ⟨hm0, -, -⟩
    · exact lt_of_lt_of_le (by norm_num) hm1
    · exact hm0
  exact mul_pos (by exact_mod_cast hm) (zpow_pos (by norm_num) e)

/-- The rendering of a finite value that is not zero. -/
theorem formatFloat_fin_spec (q : ℚ) (hq : q ≠ 0) :
    ∃ v : ℚ, readDecimal (FormatFloat (.fin q)) = some (.fin v) ∧ (0 < q ↔ 0 < v) ∧
      (q < 0 ↔ v < 0) ∧ RoundsTo |q| |v| ∧
      (∀ (k a : Nat) (i : Int), 0 < a → a < 10 ^ k → RoundsTo |q| ((a : ℚ) * (10 : ℚ) ^ i) →
        HasDigits k |v|) ∧
      ('.' ∈ (FormatFloat (.fin q)).data →
        (FormatFloat (.fin q)).data.getLast? ≠ some '0') ∧
      ((∃ z : ℤ, v = z) → '.' ∉ (FormatFloat (.fin q)).data) := by
  rcases lt_or_gt_of_ne hq with hneg | hpos
  · have hq' : 0 < -q := by linarith
    obtain ⟨x, hx, hread, hround, hmin, hlast, hint, hchars⟩ := formatPositive_spec (-q) hq'
    have hfmt : FormatFloat (.fin q) = "-" ++ String.mk (formatPositive (-q)).data := by
      simp only [FormatFloat, if_neg hq, if_pos hneg]
    have hdata : (FormatFloat (.fin q)).data = '-' :: (formatPositive (-q)).data := by
      rw [hfmt]
      rfl
    have hxne : x ≠ 0 := ne_of_gt hx
    refine ⟨-x, ?_, ?_, ?_, ?_, ?_, ?_, ?_⟩
    · rw [hfmt, readDecimal_minus _ hchars, hread]
      simp [hxne]
    · constructor
      · intro h
        linarith
      · intro h
        linarith
    · exact ⟨fun _ => by linarith, fun _ => hneg⟩
    · rw [abs_of_neg hneg, abs_neg, abs_of_pos hx]
      exact hround
    · rw [abs_of_neg hneg, abs_neg, abs_of_pos hx]
      exact hmin
    · intro hpt
      rw [hdata] at hpt ⊢
      have hpt' : '.' ∈ (formatPositive (-q)).data := by
        rcases List.mem_cons.mp hpt with h | h
        · exact absurd h (by decide)
        · exact h
      have hne : (formatPositive (-q)).data ≠ [] := List.ne_nil_of_mem hpt'
      have e : '-' :: (formatPositive (-q)).data = ['-'] ++ (formatPositive (-q)).data := rfl
      rw [e, List.getLast?_append_of_ne_nil _ hne]
      exact hlast hpt'
    · rintro ⟨z, hz⟩ hpt
      rw [hdata] at hpt
      have hpt' : '.' ∈ (formatPositive (-q)).data := by
        rcases List.mem_cons.mp hpt with h | h
        · exact absurd h (by decide)
        · exact h
      exact hint ⟨-z, by push_cast; linarith⟩ hpt'
  · obtain ⟨x, hx, hread, hround, hmin, hlast, hint, hchars⟩ := formatPositive_spec q hpos
    have hfmt : FormatFloat (.fin q) = String.mk (formatPositive q).data := by
      simp only [FormatFloat, if_neg hq, if_neg (not_lt.mpr (le_of_lt hpos))]
    have hdata : (FormatFloat (.fin q)).data = (formatPositive q).data := by
      rw [hfmt]
    refine ⟨x, ?_, ?_, ?_, ?_, ?_, ?_, ?_⟩
    · rw [hfmt, readDecimal_plain _ hchars, hread]
      rfl
    · exact ⟨fun _ => hx, fun _ => hpos⟩
    · exact ⟨fun h => by linarith, fun h => by linarith⟩
    · rw [abs_of_pos hpos, abs_of_pos hx]
      exact hround
    · rw [abs_of_pos hpos, abs_of_pos hx]
      exact hmin
    · rw [hdata]
      exact hlast
    · rw [hdata]
      exact hint

/-! ## The claims -/

open RateAreasIndex

/-- C1: when the records of a list are fed in order to `AddMapping` from the empty index,
a zip code `z` is mapped to the rate area of the first record that carries it (so it is
mapped exactly when it occurs in the list), and `z` is in `ambiguousZipcodes` exactly when
two records carrying `z` have different rate area keys. -/
theorem addMappings_first_seen_and_ambiguous (recs : List ZipRecord) (z : String) :
    (empty.AddMappings recs).rateAreaNamesByZip.get? z = firstAreaOf recs z ∧
    ((empty.AddMappings recs).rateAreaNamesByZip.contains z = true ↔
      ∃ r ∈ recs, r.zipCode = z) ∧
    ((empty.AddMappings recs).ambiguousZipcodes.contains z = true ↔
      ∃ r1 ∈ recs, ∃ r2 ∈ recs,
        r1.zipCode = z ∧ r2.zipCode = z ∧ r1.areaName ≠ r2.areaName) := by
  have hnames : (empty.AddMappings recs).rateAreaNamesByZip.get? z = firstAreaOf recs z := by
    rw [addMappings_names recs empty registryNamed_empty z]
    simp [empty, GoMap.get?]
  refine ⟨hnames, ?_, ?_⟩
  · unfold GoMap.contains
    rw [hnames]
    exact firstAreaOf_isSome recs z
  · rw [addMappings_ambiguous recs empty registryNamed_empty z]
    have h0 : empty.ambiguousZipcodes.contains z = false := by
      simp [empty, GoMap.contains, GoMap.get?]
    have h1 : (empty.rateAreaNamesByZip.get? z).or (firstAreaOf recs z) = firstAreaOf recs z := by
      simp [empty, GoMap.get?]
    rw [h0, h1]
    constructor
    · rintro (hf | ⟨r, hr, hz, hne⟩)
      · cases hf
      · have hsome := (firstAreaOf_isSome recs z).mpr ⟨r, hr, hz⟩
        obtain ⟨a, ha⟩ := Option.isSome_iff_exists.mp hsome
        obtain ⟨r0, hr0, hz0, hn0⟩ := firstAreaOf_mem recs z a ha
        refine ⟨r, hr, r0, hr0, hz, hz0, ?_⟩
        intro heq
        apply hne
        rw [ha, heq, hn0]
    · rintro ⟨r1, hr1, r2, hr2, hz1, hz2, hne⟩
      right
      by_cases h1 : some r1.areaName = firstAreaOf recs z
      · refine ⟨r2, hr2, hz2, ?_⟩
        intro h2
        apply hne
        have := h1.trans h2.symm
        exact Option.some.inj this
      · exact ⟨r1, hr1, hz1, h1⟩

/-- C2: when the zip code already has a mapping and the mapped name differs from the name
of the rate area that `AddRateArea` resolves `(state, number)` to (which is
`state + " " + number` whenever the registry stores areas under their own names), the call
puts the zip code in `ambiguousZipcodes` and leaves `rateAreaNamesByZip` as it was: the zip
code keeps its original area. -/
theorem addMapping_conflict_only_flags (rai : RateAreasIndex)
    (zipCode state number mapped : String)
    (hmapped : rai.rateAreaNamesByZip.get? zipCode = some mapped)
    (hdiff : mapped ≠ (rai.AddRateArea state number).2) :
    (rai.AddMapping zipCode state number).ambiguousZipcodes.contains zipCode = true ∧
    (rai.AddMapping zipCode state number).rateAreaNamesByZip = rai.rateAreaNamesByZip ∧
    (rai.AddMapping zipCode state number).rateAreaNamesByZip.get? zipCode = some mapped := by
  obtain ⟨hf, -, -, -⟩ := addRateArea_frame rai state number
  have hm : (rai.AddRateArea state number).1.rateAreaNamesByZip.get? zipCode = some mapped := by
    rw [hf, hmapped]
  have key : (rai.AddMapping zipCode state number) =
      { (rai.AddRateArea state number).1 with
        ambiguousZipcodes :=
          (rai.AddRateArea state number).1.ambiguousZipcodes.set zipCode true } := by
    unfold AddMapping
    simp only [hm]
    rw [if_pos hdiff]
  rw [key]
  refine ⟨?_, hf, ?_⟩
  · simp [GoMap.contains_set]
  · simpa using hm

/-- C2, on sample data: zip 10001 is mapped to "NY 1" and is then registered for "NY 2". -/
theorem addMapping_conflict_only_flags_witness :
    ((empty.AddMapping "10001" "NY" "1").AddMapping "10001" "NY" "2").ambiguousZipcodes.contains
        "10001" = true ∧
    ((empty.AddMapping "10001" "NY" "1").AddMapping "10001" "NY" "2").rateAreaNamesByZip =
      (empty.AddMapping "10001" "NY" "1").rateAreaNamesByZip ∧
    ((empty.AddMapping "10001" "NY" "1").AddMapping "10001" "NY" "2").rateAreaNamesByZip.get?
        "10001" = some "NY 1" :=
  addMapping_conflict_only_flags (empty.AddMapping "10001" "NY" "1") "10001" "NY" "2" "NY 1"
    (by decide) (by decide)

/-- C3: `AddMapping` is idempotent: on every index, a second call with the same zip code, state
and number leaves the index exactly as the first call left it. -/
theorem addMapping_twice_eq_once (rai : RateAreasIndex) (zipCode state number : String) :
    (rai.AddMapping zipCode state number).AddMapping zipCode state number =
      rai.AddMapping zipCode state number := by
  have hname : (NewRateArea state number).GetName = state ++ " " ++ number := rfl
  unfold AddMapping AddRateArea
  cases hreg : rai.rateAreasByName.get? (state ++ " " ++ number) with
  | some found =>
    simp only [hreg]
    cases hz : rai.rateAreaNamesByZip.get? zipCode with
    | some mapped =>
      by_cases hne : mapped = found.GetName
      · simp [hne, hreg, hz]
      · simp [hne, hreg, hz, GoMap.set_set_same]
    | none => simp [hreg, hz, GoMap.get?_set_self]
  | none =>
    simp only [hreg, hname]
    cases hz : rai.rateAreaNamesByZip.get? zipCode with
    | some mapped =>
      by_cases hne : mapped = state ++ " " ++ number
      · simp [hne, hz, GoMap.get?_set_self, hname]
      · simp [hne, hz, GoMap.get?_set_self, GoMap.set_set_same, hname]
    | none => simp [hz, GoMap.get?_set_self, hname]

/-- C4, a run the claim does not cover: `ParseFloat` reads "NaN" as the value NaN, which is
not a zero. After the silver plans of rates NaN and 5 on the fresh area "NY 1" the slots are
lowest = NaN, second lowest = 5, and NaN is not below or equal to the rate 5 (every
comparison with NaN is false): the lowest slot does not hold the minimum of the rates. -/
theorem addPlans_nan_rate_is_kept_as_lowest :
    (∀ r ∈ [Float64.nan, 5], ¬r.isZero) ∧
    AddPlans sampleStrconv (empty.AddMapping "10001" "NY" "1")
        [⟨"NY", "1", "p1", "Silver", "NaN"⟩, ⟨"NY", "1", "p2", "Silver", "5"⟩] =
      .ok ⟨[("10001", "NY 1")], [("NY 1", ⟨"NY", "1", .nan, 5⟩)], [], [], []⟩ ∧
    ¬(Float64.nan ≤ (5 : Float64)) := by
  decide

/-- C4: on an area that is registered and has both slots unset, a non-empty sequence of
silver plans of that area whose rates are numbers (not NaN) and not zero leaves
`top1SilverPlan` equal to the minimum of the rates and `top2SilverPlan` equal to the second
element of the rates sorted in ascending order, duplicates counted (0 when there is one plan
only). The order is the one of `float64`; the rates may be infinite. -/
theorem addPlans_lowest_and_second_lowest (sc : Strconv) (rai : RateAreasIndex)
    (areaName : String) (ra : RateArea) (ps : List PlanRecord) (rs : List Float64)
    (hreg : rai.rateAreasByName.get? areaName = some ra)
    (hfresh : ra.top1SilverPlan = 0 ∧ ra.top2SilverPlan = 0)
    (hps : ∀ p ∈ ps, p.level = LEVEL_NAME_SILVER ∧ p.areaName = areaName)
    (hparse : ps.map (fun p => sc.ParseFloat p.rate) = rs.map some)
    (hne : ps ≠ [])
    (hnz : ∀ r ∈ rs, r.IsNonZeroNumber) :
    ∃ rai' ra', AddPlans sc rai ps = .ok rai' ∧
      rai'.rateAreasByName.get? areaName = some ra' ∧
      ra'.top1SilverPlan ∈ rs ∧ (∀ r ∈ rs, ra'.top1SilverPlan ≤ r) ∧
      ra'.top2SilverPlan = ((sortedRates rs)[1]?).getD 0 := by
  have hrun := addPlans_one_area sc areaName ps rs rai ra hreg hps hparse
  rw [hfresh.1, hfresh.2, foldl_slotsAfter_sorted rs hnz] at hrun
  refine ⟨_, _, hrun, GoMap.get?_set_self _ _ _, ?_⟩
  have hrs : rs ≠ [] := by
    intro h
    rw [h] at hparse
    simp at hparse
    exact hne hparse
  have hperm : (sortedRates rs).Perm rs := sortedRates_perm rs
  cases hsrt : sortedRates rs with
  | nil =>
    rw [hsrt] at hperm
    exact absurd hperm.symm.eq_nil hrs
  | cons a l =>
    have hhead := sortedRates_head_le rs (fun r hr => (hnz r hr).1) a l hsrt
    have h1 : (firstTwo (a :: l)).1 = a := by simp [firstTwo]
    refine ⟨?_, ?_, ?_⟩
    · show (firstTwo (a :: l)).1 ∈ rs
      rw [h1]
      exact hhead.1
    · intro r hr
      show (firstTwo (a :: l)).1 ≤ r
      rw [h1]
      exact hhead.2 r hr
    · rfl

/-- C4, on the rates of the specification: the silver plans 10.0, 12.0, 12.0, 8.0 of the area
"NY 1" give lowest = 8 and second lowest = 10. -/
theorem addPlans_lowest_and_second_lowest_witness :
    ∃ rai' ra',
      AddPlans sampleStrconv (empty.AddMapping "10001" "NY" "1")
        [⟨"NY", "1", "p1", "Silver", "10.0"⟩, ⟨"NY", "1", "p2", "Silver", "12.0"⟩,
         ⟨"NY", "1", "p3", "Silver", "12.0"⟩, ⟨"NY", "1", "p4", "Silver", "8.0"⟩] = .ok rai' ∧
      rai'.rateAreasByName.get? "NY 1" = some ra' ∧
      ra'.top1SilverPlan = 8 ∧ ra'.top2SilverPlan = 10 := by
  obtain ⟨rai', ra', h1, h2, h3, h4, h5⟩ :=
    addPlans_lowest_and_second_lowest sampleStrconv (empty.AddMapping "10001" "NY" "1") "NY 1"
      (NewRateArea "NY" "1")
      [⟨"NY", "1", "p1", "Silver", "10.0"⟩, ⟨"NY", "1", "p2", "Silver", "12.0"⟩,
       ⟨"NY", "1", "p3", "Silver", "12.0"⟩, ⟨"NY", "1", "p4", "Silver", "8.0"⟩]
      [10, 12, 12, 8] (by decide) (by decide) (by decide) (by decide) (by decide)
      (by decide)
  refine ⟨rai', ra', h1, h2, ?_, ?_⟩
  · have h8 := h4 8 (by simp)
    simp only [List.mem_cons, List.mem_singleton, List.not_mem_nil, or_false] at h3
    rcases h3 with h | h | h | h <;> rw [h] at h8 ⊢ <;>
      first | rfl | exact absurd h8 (by decide)
  · rw [h5]
    decide

/-- C5, the code on the failing input: zip 10001 is mapped to the area "NY 1" only, and the
two silver plans of rates 0 and 5 are observed for that area.  The zip code is not ambiguous,
it is mapped, two silver plans were observed, and yet `GetSlcspForZipcode` returns the empty
string (the slots end as lowest = 5, second lowest = 0, and the second lowest is read as
"unset").  The facts used of `strconv` are that "0" and "5" parse to 0 and 5 and that 0 is
written "0". -/
theorem getSlcsp_empty_with_zero_rate_plan (sc : Strconv)
    (h0 : sc.ParseFloat "0" = some 0) (h5 : sc.ParseFloat "5" = some 5)
    (hfmt : sc.FormatFloat 0 = "0") :
    ∃ rai ra rai',
      AddPlans sc (empty.AddMappings [⟨"10001", "NY", "1"⟩])
        [⟨"NY", "1", "p1", "Silver", "0"⟩, ⟨"NY", "1", "p2", "Silver", "5"⟩] = .ok rai ∧
      rai.ambiguousZipcodes.contains "10001" = false ∧
      rai.rateAreaNamesByZip.get? "10001" = some "NY 1" ∧
      rai.rateAreasByName.get? "NY 1" = some ra ∧
      ra.top1SilverPlan = 5 ∧ ra.top2SilverPlan = 0 ∧
      (silverPlansOf "NY 1"
        [⟨"NY", "1", "p1", "Silver", "0"⟩, ⟨"NY", "1", "p2", "Silver", "5"⟩]).length = 2 ∧
      rai.GetSlcspForZipcode sc "10001" = .ok ("", rai') := by
  have hrun := addPlans_one_area sc "NY 1"
    [⟨"NY", "1", "p1", "Silver", "0"⟩, ⟨"NY", "1", "p2", "Silver", "5"⟩] [0, 5]
    (empty.AddMappings [⟨"10001", "NY", "1"⟩]) (NewRateArea "NY" "1") (by decide) (by decide)
    (by simp [h0, h5])
  have hslots : List.foldl slotsAfter
      ((NewRateArea "NY" "1").top1SilverPlan, (NewRateArea "NY" "1").top2SilverPlan) [0, 5] =
      (5, 0) := by
    decide
  rw [hslots] at hrun
  obtain ⟨rai, hrai, hreg⟩ : ∃ rai,
      AddPlans sc (empty.AddMappings [⟨"10001", "NY", "1"⟩])
        [⟨"NY", "1", "p1", "Silver", "0"⟩, ⟨"NY", "1", "p2", "Silver", "5"⟩] = .ok rai ∧
      rai.rateAreasByName.get? "NY 1" = some ⟨"NY", "1", 5, 0⟩ :=
    ⟨_, hrun, GoMap.get?_set_self _ _ _⟩
  obtain ⟨hn, ha, -⟩ := addPlans_frame sc _ _ _ hrai
  have hamb : rai.ambiguousZipcodes.contains "10001" = false := by
    rw [ha]
    decide
  have hmap : rai.rateAreaNamesByZip.get? "10001" = some "NY 1" := by
    rw [hn]
    decide
  have hget := getSlcsp_of_mapped sc rai "10001" "NY 1" _ hamb hmap hreg
  simp only [hfmt, if_true] at hget
  exact ⟨rai, _, _, hrai, hamb, hmap, hreg, rfl, rfl, by decide, hget⟩

/-- C5, the failing input run with the sample `strconv`. -/
theorem getSlcsp_empty_with_zero_rate_plan_witness :
    ∃ rai ra rai',
      AddPlans sampleStrconv (empty.AddMappings [⟨"10001", "NY", "1"⟩])
        [⟨"NY", "1", "p1", "Silver", "0"⟩, ⟨"NY", "1", "p2", "Silver", "5"⟩] = .ok rai ∧
      rai.ambiguousZipcodes.contains "10001" = false ∧
      rai.rateAreaNamesByZip.get? "10001" = some "NY 1" ∧
      rai.rateAreasByName.get? "NY 1" = some ra ∧
      ra.top1SilverPlan = 5 ∧ ra.top2SilverPlan = 0 ∧
      (silverPlansOf "NY 1"
        [⟨"NY", "1", "p1", "Silver", "0"⟩, ⟨"NY", "1", "p2", "Silver", "5"⟩]).length = 2 ∧
      rai.GetSlcspForZipcode sampleStrconv "10001" = .ok ("", rai') :=
  getSlcsp_empty_with_zero_rate_plan sampleStrconv (by decide) (by decide) (by decide)

/-- C6: once a zip code is in `ambiguousZipcodes`, whatever plans are observed afterwards
(the index before them is arbitrary, so are the rates already stored),
`GetSlcspForZipcode` returns the empty string and leaves the index as it is: the zip code is
not added to `insufficientPlanZips`. -/
theorem getSlcsp_ambiguous_is_empty (sc : Strconv) (rai rai' : RateAreasIndex) (z : String)
    (ps : List PlanRecord)
    (hamb : rai.ambiguousZipcodes.contains z = true)
    (hplans : AddPlans sc rai ps = .ok rai') :
    rai'.GetSlcspForZipcode sc z = .ok ("", rai') := by
  obtain ⟨-, ha, -⟩ := addPlans_frame sc ps rai rai' hplans
  apply getSlcsp_of_ambiguous
  rw [ha]
  exact hamb

/-- C6, on sample data: zip 10001 is registered for "NY 1" and "NY 2"; two silver plans of
"NY 1" are then observed. -/
theorem getSlcsp_ambiguous_is_empty_witness :
    ∃ rai',
      AddPlans sampleStrconv (empty.AddMappings [⟨"10001", "NY", "1"⟩, ⟨"10001", "NY", "2"⟩])
        [⟨"NY", "1", "p1", "Silver", "10"⟩, ⟨"NY", "1", "p2", "Silver", "12"⟩] = .ok rai' ∧
      rai'.GetSlcspForZipcode sampleStrconv "10001" = .ok ("", rai') ∧
      rai'.insufficientPlanZips = [] :=
  ⟨⟨[("10001", "NY 1")], [("NY 1", ⟨"NY", "1", 10, 12⟩), ("NY 2", ⟨"NY", "2", 0, 0⟩)],
      [("10001", true)], [], []⟩,
    by decide,
    getSlcsp_ambiguous_is_empty sampleStrconv
      (empty.AddMappings [⟨"10001", "NY", "1"⟩, ⟨"10001", "NY", "2"⟩]) _ "10001"
      [⟨"NY", "1", "p1", "Silver", "10"⟩, ⟨"NY", "1", "p2", "Silver", "12"⟩]
      (by decide) (by decide),
    rfl⟩

/-- C7: (1) if a zip code is not ambiguous and is mapped to an area that is registered with
both slots unset, then after any run of plans that holds at most one silver plan of that area
(and any number of other plans), `GetSlcspForZipcode` returns the empty string and the zip
code is in `insufficientPlanZips` afterwards; (2) for a zip code that has no mapping it
returns the empty string and leaves the index, `insufficientPlanZips` included, as it is.
The fact used of `strconv` is that 0 is written "0". -/
theorem getSlcsp_insufficient_or_unmapped (sc : Strconv) (hfmt : sc.FormatFloat 0 = "0") :
    (∀ (rai0 rai : RateAreasIndex) (z areaName : String) (ra : RateArea)
        (ps : List PlanRecord),
        rai0.ambiguousZipcodes.contains z = false →
        rai0.rateAreaNamesByZip.get? z = some areaName →
        rai0.rateAreasByName.get? areaName = some ra →
        ra.top1SilverPlan = 0 ∧ ra.top2SilverPlan = 0 →
        AddPlans sc rai0 ps = .ok rai →
        (silverPlansOf areaName ps).length ≤ 1 →
        rai.GetSlcspForZipcode sc z =
            .ok ("", { rai with insufficientPlanZips := rai.insufficientPlanZips.set z true }) ∧
          (rai.insufficientPlanZips.set z true).contains z = true) ∧
    (∀ (rai : RateAreasIndex) (z : String),
        rai.rateAreaNamesByZip.get? z = none →
        rai.GetSlcspForZipcode sc z = .ok ("", rai)) := by
  refine ⟨?_, ?_⟩
  · intro rai0 rai z areaName ra ps hamb hmap hreg hfresh hrun hcount
    obtain ⟨hn, ha, -⟩ := addPlans_frame sc ps rai0 rai hrun
    obtain ⟨ra', hreg', htop2⟩ := addPlans_at_most_one sc areaName ps rai0 rai ra hrun hreg
      hfresh hcount
    rw [← ha] at hamb
    rw [← hn] at hmap
    rw [getSlcsp_of_mapped sc rai z areaName ra' hamb hmap hreg', htop2, if_pos hfmt]
    exact ⟨rfl, by simp [GoMap.contains_set]⟩
  · intro rai z hnone
    exact getSlcsp_of_unmapped sc rai z hnone

/-- C7, on sample data: zip 10001 is mapped to "NY 1", for which one silver plan and one gold
plan are observed; zip 99999 has no mapping. -/
theorem getSlcsp_insufficient_or_unmapped_witness :
    ∃ rai,
      AddPlans sampleStrconv (empty.AddMappings [⟨"10001", "NY", "1"⟩])
        [⟨"NY", "1", "p1", "Silver", "10"⟩, ⟨"NY", "1", "p2", "Gold", "7"⟩] = .ok rai ∧
      (rai.GetSlcspForZipcode sampleStrconv "10001" =
          .ok ("", { rai with
                     insufficientPlanZips := rai.insufficientPlanZips.set "10001" true }) ∧
        (rai.insufficientPlanZips.set "10001" true).contains "10001" = true) ∧
      rai.GetSlcspForZipcode sampleStrconv "99999" = .ok ("", rai) :=
  ⟨⟨[("10001", "NY 1")], [("NY 1", ⟨"NY", "1", 10, 0⟩)], [], [], []⟩,
    by decide,
    (getSlcsp_insufficient_or_unmapped sampleStrconv (by decide)).1
      (empty.AddMappings [⟨"10001", "NY", "1"⟩]) _ "10001" "NY 1" (NewRateArea "NY" "1")
      [⟨"NY", "1", "p1", "Silver", "10"⟩, ⟨"NY", "1", "p2", "Gold", "7"⟩]
      (by decide) (by decide) (by decide) (by decide) (by decide) (by decide),
    (getSlcsp_insufficient_or_unmapped sampleStrconv (by decide)).2 _ "99999" (by decide)⟩

/-- C8: a plan whose level is not exactly "Silver" makes `AddPlan` return false and leaves the
whole index as it is, whether its rate area is registered or not and whatever its rate
string. -/
theorem addPlan_not_silver_is_noop (sc : Strconv) (rai : RateAreasIndex)
    (state number planId level rate : String) (hlevel : level ≠ "Silver") :
    rai.AddPlan sc state number planId level rate = .ok (rai, false) := by
  unfold AddPlan
  rw [if_neg]
  intro e
  exact hlevel e.symm

/-- C8, on sample data: the level "silver" on an index where the area "ZZ 9" is not
registered. -/
theorem addPlan_not_silver_is_noop_witness :
    "silver" ≠ "Silver" ∧
    (empty.AddMapping "10001" "NY" "1").AddPlan sampleStrconv "ZZ" "9" "p1" "silver" "abc" =
      .ok (empty.AddMapping "10001" "NY" "1", false) :=
  ⟨by decide,
    addPlan_not_silver_is_noop sampleStrconv (empty.AddMapping "10001" "NY" "1") "ZZ" "9" "p1"
      "silver" "abc" (by decide)⟩

/-- C9: a silver plan with a parsable rate whose rate area key is not in `rateAreasByName`
makes `AddPlan` return false without aborting; the key is added to `unmappedPlanRateAreas`
and nothing else changes: no area is created, and `rateAreasByName`, `rateAreaNamesByZip`,
`ambiguousZipcodes` and `insufficientPlanZips` are as before. -/
theorem addPlan_unmapped_area_is_recorded (sc : Strconv) (rai : RateAreasIndex)
    (state number planId rate : String) (r : Float64)
    (hparse : sc.ParseFloat rate = some r)
    (hreg : rai.rateAreasByName.contains (state ++ " " ++ number) = false) :
    rai.AddPlan sc state number planId "Silver" rate =
        .ok ({ rai with unmappedPlanRateAreas :=
                rai.unmappedPlanRateAreas.set (state ++ " " ++ number) true }, false) ∧
      (rai.unmappedPlanRateAreas.set (state ++ " " ++ number) true).contains
        (state ++ " " ++ number) = true := by
  have hnone : rai.rateAreasByName.get? (state ++ " " ++ number) = none := by
    simpa [GoMap.contains] using hreg
  refine ⟨?_, by simp [GoMap.contains_set]⟩
  unfold AddPlan
  simp [LEVEL_NAME_SILVER, hparse, hnone]

/-- C9, on sample data: a silver plan of the area "ZZ 9" on an index that registers "NY 1"
only. -/
theorem addPlan_unmapped_area_is_recorded_witness :
    (empty.AddMapping "10001" "NY" "1").AddPlan sampleStrconv "ZZ" "9" "p1" "Silver" "10" =
        .ok ({ empty.AddMapping "10001" "NY" "1" with
                unmappedPlanRateAreas := [("ZZ 9", true)] }, false) ∧
      (GoMap.set (V := Bool) [] "ZZ 9" true).contains "ZZ 9" = true :=
  addPlan_unmapped_area_is_recorded sampleStrconv (empty.AddMapping "10001" "NY" "1") "ZZ" "9"
    "p1" "10" 10 (by decide) (by decide)

/-- C10, a template the claim does not cover: a header line followed by one line of
`MaxScanTokenSize` (65536) characters "1".  The scanner gives up on that line with
`bufio.ErrTooLong`, and `readCsvFileLines` ends the process with `Error.Fatal`: `ToFile` does
not return, and no record is written for the line. -/
theorem toFile_aborts_on_long_template_line :
    ToFile sampleStrconv empty
        ⟨["zipcode,rate", String.mk (List.replicate MaxScanTokenSize '1')], false⟩ =
      .error .fatal :=
  toFile_of_long_line sampleStrconv empty "zipcode,rate" _ (by decide)
    (Nat.le_of_eq (utf8ByteSize_replicate MaxScanTokenSize).symm)

/-- C10: for a template that is read to its end without error and is made of a header line
followed by the lines `l1..ln`, each line shorter than `MaxScanTokenSize` bytes, on an index
whose zip codes are mapped to registered areas, `ToFile` returns and hands to the CSV writer
the fields of the header followed by exactly the records `[zip(li), resolve(zip(li))]`,
`i = 1..n`, in the order of the template, where `zip(l)` is the first comma-separated field
of `l` (a carriage return at the end of `l` belongs to the line end, not to the fields) and
`resolve(z)` is what `GetSlcspForZipcode` returns for `z` on the index as it is when `ToFile`
starts.  So there are `n` data rows, and the rate of a row depends on its zip code only: a
zip code that occurs several times gets the same rate in each of its rows. -/
theorem toFile_rows_follow_template (sc : Strconv) (rai : RateAreasIndex) (header : String)
    (ls : List String) (hwf : AreasRegistered rai)
    (hshort : ∀ l ∈ header :: ls, l.utf8ByteSize < MaxScanTokenSize) :
    ∃ rai' rows,
      rai.ToFile sc ⟨header :: ls, false⟩ =
        .ok (rai', stringsSplit (dropCR header) :: rows) ∧
      rows = ls.map
        (fun l => [firstField (dropCR l), resolve sc rai (firstField (dropCR l))]) ∧
      rows.length = ls.length := by
  obtain ⟨ins, h⟩ := scanLines_toFile sc rai hwf (ls.map dropCR) rai.insufficientPlanZips
    [stringsSplit (dropCR header)] 0
  refine ⟨{ rai with insufficientPlanZips := ins }, _, ?_, rfl, by simp⟩
  have hrai : ({ rai with insufficientPlanZips := rai.insufficientPlanZips } : RateAreasIndex) =
      rai := rfl
  rw [hrai] at h
  have hout := scanOutcomes_of_short (header :: ls) hshort
  have herr := any_tooLong_of_short (header :: ls) hshort
  simp only [List.map_cons] at hout
  simp only [ToFile, readCsvFileLines, NewScanner, hout, herr, scanHeadline, cloneLabels,
    List.nil_append, h, Bool.or_self, Bool.false_eq_true, if_false]
  simp [List.map_map, Function.comp_def]

/-- C10, on sample data: the index built from three zip records and three plans, and a
template in which the zip code 10001 occurs twice, once on a line that ends with a carriage
return. -/
theorem toFile_rows_follow_template_witness :
    ∃ rai',
      ToFile sampleStrconv
        ⟨[("10001", "NY 1"), ("10002", "NY 2")],
          [("NY 1", ⟨"NY", "1", 10, 12⟩), ("NY 2", ⟨"NY", "2", 7, 0⟩)], [], [], []⟩
        ⟨["zipcode,rate", "10001,", "10002,", "10001,\r"], false⟩ =
      .ok (rai', [["zipcode", "rate"], ["10001", "12"], ["10002", ""], ["10001", "12"]]) := by
  obtain ⟨rai', rows, hrun, hrows, -⟩ :=
    toFile_rows_follow_template sampleStrconv
      ⟨[("10001", "NY 1"), ("10002", "NY 2")],
        [("NY 1", ⟨"NY", "1", 10, 12⟩), ("NY 2", ⟨"NY", "2", 7, 0⟩)], [], [], []⟩
      "zipcode,rate" ["10001,", "10002,", "10001,\r"]
      (areasRegistered_built sampleStrconv
        [⟨"10001", "NY", "1"⟩, ⟨"10002", "NY", "2"⟩]
        [⟨"NY", "1", "p1", "Silver", "12"⟩, ⟨"NY", "2", "p2", "Silver", "7"⟩,
         ⟨"NY", "1", "p3", "Silver", "10"⟩] _ (by decide))
      (by decide)
  have hout : stringsSplit (dropCR "zipcode,rate") ::
      List.map (fun l => [firstField (dropCR l), resolve sampleStrconv
        ⟨[("10001", "NY 1"), ("10002", "NY 2")],
          [("NY 1", ⟨"NY", "1", 10, 12⟩), ("NY 2", ⟨"NY", "2", 7, 0⟩)], [], [], []⟩
        (firstField (dropCR l))]) ["10001,", "10002,", "10001,\r"] =
      [["zipcode", "rate"], ["10001", "12"], ["10002", ""], ["10001", "12"]] := by decide
  refine ⟨rai', ?_⟩
  rw [hrun, hrows, hout]

/-- C11: header validation is an exact match. `areLabelsEqual` on two non-nil slices is true
exactly when they are equal as lists, and the validating line handler built for `labels`
accepts a header line (returns without aborting) exactly when the list of its
comma-separated fields is `labels`; otherwise it aborts the run. -/
theorem header_validation_exact_match (a b labels : List String) {σ : Type} (s : σ)
    (line : String) :
    (areLabelsEqual (some a) (some b) = true ↔ a = b) ∧
    buildLabelsValidatingLinehandler labels s line =
      (if stringsSplit line = labels then .ok s else .error .fatal) := by
  refine ⟨areLabelsEqual_iff a b, ?_⟩
  unfold buildLabelsValidatingLinehandler
  by_cases h : stringsSplit line = labels
  · subst h
    simp [(areLabelsEqual_iff (stringsSplit line) (stringsSplit line)).mpr rfl]
  · have : areLabelsEqual (some labels) (some (stringsSplit line)) = false := by
      cases hv : areLabelsEqual (some labels) (some (stringsSplit line)) with
      | false => rfl
      | true => exact absurd ((areLabelsEqual_iff _ _).mp hv).symm h
    simp [h, this]

/-- C12: the value resolved for a zip code depends only on the silver plans observed for
its area. If the zip code `z` is mapped to the area `areaName` and two runs of plans over
the same index carry the same sequence of rates in their silver plans of that area (so, in
particular, when these silver plans are identical), `GetSlcspForZipcode` gives the same
result for `z` after either run; it returns a string whenever the area is registered.
Non-silver plans, plans of other areas and plans of unregistered areas do not count. -/
theorem resolve_depends_on_silver_plans_of_area (sc : Strconv) (rai rai1 rai2 : RateAreasIndex)
    (z areaName : String) (ps1 ps2 : List PlanRecord)
    (hmap : rai.rateAreaNamesByZip.get? z = some areaName)
    (hrun1 : AddPlans sc rai ps1 = .ok rai1)
    (hrun2 : AddPlans sc rai ps2 = .ok rai2)
    (hsame : (silverPlansOf areaName ps1).map PlanRecord.rate =
      (silverPlansOf areaName ps2).map PlanRecord.rate) :
    (rai1.GetSlcspForZipcode sc z).map Prod.fst = (rai2.GetSlcspForZipcode sc z).map Prod.fst ∧
    (rai.rateAreasByName.contains areaName = true →
      ∃ slcsp, (rai1.GetSlcspForZipcode sc z).map Prod.fst = .ok slcsp) := by
  obtain ⟨hn1, ha1, -⟩ := addPlans_frame sc ps1 rai rai1 hrun1
  obtain ⟨hn2, ha2, -⟩ := addPlans_frame sc ps2 rai rai2 hrun2
  have hrates : (silverPlansOf areaName ps1).filterMap (fun p => sc.ParseFloat p.rate) =
      (silverPlansOf areaName ps2).filterMap (fun p => sc.ParseFloat p.rate) := by
    have e : ∀ l : List PlanRecord, l.filterMap (fun p => sc.ParseFloat p.rate) =
        (l.map PlanRecord.rate).filterMap sc.ParseFloat := by
      intro l
      rw [List.filterMap_map]
      rfl
    rw [e, e, hsame]
  refine ⟨?_, ?_⟩
  · apply getSlcsp_fst_congr sc rai1 rai2 z (ha1.trans ha2.symm) (hn1.trans hn2.symm)
    intro a hza
    rw [hn1, hmap] at hza
    cases hza
    cases hreg : rai.rateAreasByName.get? areaName with
    | none =>
      have c1 := addPlans_contains sc ps1 rai rai1 areaName hrun1
      have c2 := addPlans_contains sc ps2 rai rai2 areaName hrun2
      simp [GoMap.contains, hreg] at c1 c2
      rw [c1, c2]
    | some ra =>
      rw [addPlans_area_fold sc areaName ps1 rai rai1 ra hrun1 hreg,
        addPlans_area_fold sc areaName ps2 rai rai2 ra hrun2 hreg, hrates]
  · intro hreg
    obtain ⟨ra, hra⟩ := Option.isSome_iff_exists.mp hreg
    have hra1 := addPlans_area_fold sc areaName ps1 rai rai1 ra hrun1 hra
    rw [← hn1] at hmap
    by_cases hamb : rai1.ambiguousZipcodes.contains z = true
    · exact ⟨"", by rw [getSlcsp_of_ambiguous sc rai1 z hamb]; rfl⟩
    · have hamb' : rai1.ambiguousZipcodes.contains z = false := by simpa using hamb
      rw [getSlcsp_of_mapped sc rai1 z areaName _ hamb' hmap hra1]
      split
      · exact ⟨"", rfl⟩
      · exact ⟨_, rfl⟩

/-- C12, on sample data: zip 10001 is mapped to "NY 1"; the second run adds to the silver
plans 10 and 12 of "NY 1" a gold plan, a silver plan of "NY 2" and a silver plan of the
unregistered area "ZZ 9". Both runs resolve the zip code to "12". -/
theorem resolve_depends_on_silver_plans_of_area_witness :
    ∃ rai1 rai2,
      AddPlans sampleStrconv (empty.AddMappings [⟨"10001", "NY", "1"⟩, ⟨"10002", "NY", "2"⟩])
        [⟨"NY", "1", "p1", "Silver", "10"⟩, ⟨"NY", "1", "p2", "Silver", "12"⟩] = .ok rai1 ∧
      AddPlans sampleStrconv (empty.AddMappings [⟨"10001", "NY", "1"⟩, ⟨"10002", "NY", "2"⟩])
        [⟨"NY", "1", "g1", "Gold", "3"⟩, ⟨"NY", "1", "p1", "Silver", "10"⟩,
         ⟨"NY", "2", "q1", "Silver", "7"⟩, ⟨"ZZ", "9", "u1", "Silver", "1"⟩,
         ⟨"NY", "1", "p2", "Silver", "12"⟩] = .ok rai2 ∧
      (rai1.GetSlcspForZipcode sampleStrconv "10001").map Prod.fst =
        (rai2.GetSlcspForZipcode sampleStrconv "10001").map Prod.fst ∧
      (rai1.GetSlcspForZipcode sampleStrconv "10001").map Prod.fst = .ok "12" :=
  ⟨⟨[("10001", "NY 1"), ("10002", "NY 2")],
      [("NY 1", ⟨"NY", "1", 10, 12⟩), ("NY 2", ⟨"NY", "2", 0, 0⟩)], [], [], []⟩,
    ⟨[("10001", "NY 1"), ("10002", "NY 2")],
      [("NY 1", ⟨"NY", "1", 10, 12⟩), ("NY 2", ⟨"NY", "2", 7, 0⟩)], [], [("ZZ 9", true)], []⟩,
    by decide, by decide,
    (resolve_depends_on_silver_plans_of_area sampleStrconv
      (empty.AddMappings [⟨"10001", "NY", "1"⟩, ⟨"10002", "NY", "2"⟩]) _ _ "10001" "NY 1"
      [⟨"NY", "1", "p1", "Silver", "10"⟩, ⟨"NY", "1", "p2", "Silver", "12"⟩]
      [⟨"NY", "1", "g1", "Gold", "3"⟩, ⟨"NY", "1", "p1", "Silver", "10"⟩,
       ⟨"NY", "2", "q1", "Silver", "7"⟩, ⟨"ZZ", "9", "u1", "Silver", "1"⟩,
       ⟨"NY", "1", "p2", "Silver", "12"⟩]
      (by decide) (by decide) (by decide) (by decide)).1,
    by decide⟩

/-- C13, a value the claim does not cover: the `float64` value nearest to 0.1, which is what
a plan rate "0.1" is stored as, is `3602879701896397 / 2 ^ 55`.  It is rendered "0.1", which
read as a decimal is 1/10, and 1/10 is not the stored value.  The rendering does not
represent the stored value exactly. -/
theorem getSlcspString_of_tenth_is_not_exact :
    nearestFloat64 (mkRat 1 10) = some (mkRat 3602879701896397 (2 ^ 55)) ∧
    (⟨"NY", "1", 0, .fin (mkRat 3602879701896397 (2 ^ 55))⟩ : RateArea).GetSlcspString
        sampleStrconv = "0.1" ∧
    readDecimal "0.1" = some (.fin (mkRat 1 10)) ∧
    mkRat 1 10 ≠ mkRat 3602879701896397 (2 ^ 55) := by
  decide

/-- C13: with `strconv.FormatFloat(x, 'f', -1, 64)` as the formatter, `GetSlcspString` renders
a second-lowest rate of 150 as "150", 150.5 as "150.5" and 150.25 as "150.25".  In general,
for a second-lowest rate that is a `float64` value `q` other than zero and finite, the
rendering is a plain decimal literal: read as a decimal it is a number `v` of the sign of
`q`, the `float64` value nearest to `v` is `q` (`ParseFloat` reads the rendering back as the
stored value), and no decimal for which this is so has fewer significant digits than `v`;
the rendering has no zero at its end when it has a decimal point, and has no decimal point
when `v` is an integer.  A second-lowest rate that is unset (0) is rendered "0". -/
theorem getSlcspString_shortest_decimal (sc : Strconv) (hsc : sc.FormatFloat = FormatFloat)
    (ra : RateArea) :
    (ra.top2SilverPlan = 150 → ra.GetSlcspString sc = "150") ∧
    (ra.top2SilverPlan = .fin 150.5 → ra.GetSlcspString sc = "150.5") ∧
    (ra.top2SilverPlan = .fin 150.25 → ra.GetSlcspString sc = "150.25") ∧
    (∀ q : ℚ, IsFloat64 |q| → ra.top2SilverPlan = .fin q →
      ∃ v : ℚ, readDecimal (ra.GetSlcspString sc) = some (.fin v) ∧
        (0 < q ↔ 0 < v) ∧ (q < 0 ↔ v < 0) ∧
        nearestFloat64 |v| = some |q| ∧
        (∀ (k a : Nat) (i : Int), 0 < a → a < 10 ^ k →
          nearestFloat64 ((a : ℚ) * (10 : ℚ) ^ i) = some |q| → HasDigits k |v|) ∧
        ('.' ∈ (ra.GetSlcspString sc).data →
          (ra.GetSlcspString sc).data.getLast? ≠ some '0') ∧
        ((∃ z : ℤ, v = z) → '.' ∉ (ra.GetSlcspString sc).data)) ∧
    (ra.top2SilverPlan = 0 → ra.GetSlcspString sc = "0") := by
  have h1 : (150.5 : ℚ) = mkRat 301 2 := by norm_num [Rat.mkRat_eq_div]
  have h2 : (150.25 : ℚ) = mkRat 601 4 := by norm_num [Rat.mkRat_eq_div]
  refine ⟨?_, ?_, ?_, ?_, ?_⟩
  · intro h
    rw [RateArea.GetSlcspString, hsc, h]
    decide
  · intro h
    rw [RateArea.GetSlcspString, hsc, h, h1]
    decide
  · intro h
    rw [RateArea.GetSlcspString, hsc, h, h2]
    decide
  · intro q hfloat h
    have hqpos : 0 < |q| := isFloat64_pos |q| hfloat
    have hq : q ≠ 0 := abs_pos.mp hqpos
    rw [RateArea.GetSlcspString, hsc, h]
    obtain ⟨v, hread, hs1, hs2, hround, hmin, hlast, hint⟩ := formatFloat_fin_spec q hq
    have hv : 0 < |v| := by
      apply abs_pos.mpr
      intro hv0
      rcases lt_or_gt_of_ne hq with hneg | hpos
      · have := hs2.mp hneg
        linarith
      · have := hs1.mp hpos
        linarith
    refine ⟨v, hread, hs1, hs2, nearestFloat64_of_roundsTo |q| |v| hfloat hv hround, ?_,
      hlast, hint⟩
    intro k a i ha hak hnear
    have hpos : (0 : ℚ) < (a : ℚ) * (10 : ℚ) ^ i :=
      mul_pos (by exact_mod_cast ha) (zpow_pos (by norm_num) i)
    exact hmin k a i ha hak (roundsTo_of_nearestFloat64 |q| _ hqpos hpos hnear).1
  · intro h
    rw [RateArea.GetSlcspString, hsc, h]
    decide

/-- C13, on sample data: a rate area whose second-lowest rate is 150.25, which is the
`float64` value of mantissa 5286451906347008 and exponent -45. -/
theorem getSlcspString_shortest_decimal_witness :
    sampleStrconv.FormatFloat = FormatFloat ∧
    (⟨"NY", "1", 140, .fin 150.25⟩ : RateArea).GetSlcspString sampleStrconv = "150.25" ∧
    ∃ v : ℚ, readDecimal ((⟨"NY", "1", 140, .fin 150.25⟩ : RateArea).GetSlcspString
        sampleStrconv) = some (.fin v) ∧ nearestFloat64 |v| = some |(150.25 : ℚ)| := by
  have hfloat : IsFloat64 |(150.25 : ℚ)| :=
    ⟨5286451906347008, -45, by rw [abs_of_pos (by norm_num)]; norm_num,
      Or.inl ⟨by norm_num, by norm_num, by norm_num, by norm_num⟩⟩
  obtain ⟨v, hread, -, -, hnear, -⟩ :=
    (getSlcspString_shortest_decimal sampleStrconv rfl
      ⟨"NY", "1", 140, .fin 150.25⟩).2.2.2.1 150.25 hfloat rfl
  exact ⟨rfl, (getSlcspString_shortest_decimal sampleStrconv rfl
    ⟨"NY", "1", 140, .fin 150.25⟩).2.2.1 rfl, v, hread, hnear⟩

/-- C14, the code on the failing input: the pairs ("NY 1", "2") and ("NY", "1 2") are
different, yet `AddRateArea` resolves both to the same name and to the one registry entry
"NY 1 2", whose state is "NY 1" and whose number is "2": the entry used for ("NY", "1 2")
matches neither its state nor its number.  A zip code registered through `AddMapping` with
these two pairs is not flagged ambiguous. -/
theorem rate_area_pairs_colliding :
    (("NY 1", "2") : String × String) ≠ ("NY", "1 2") ∧
    (empty.AddRateArea "NY 1" "2").2 =
      ((empty.AddRateArea "NY 1" "2").1.AddRateArea "NY" "1 2").2 ∧
    ((empty.AddRateArea "NY 1" "2").1.AddRateArea "NY" "1 2").1.rateAreasByName =
      [("NY 1 2", ⟨"NY 1", "2", 0, 0⟩)] ∧
    ((empty.AddRateArea "NY 1" "2").1.AddRateArea "NY" "1 2").1.rateAreasByName.get?
      ("NY" ++ " " ++ "1 2") = some ⟨"NY 1", "2", 0, 0⟩ ∧
    (empty.AddMappings [⟨"10001", "NY 1", "2"⟩, ⟨"10001", "NY", "1 2"⟩]).ambiguousZipcodes.contains
      "10001" = false := by
  decide

/-- C15: the single step of `AddPlan` for a silver plan of rate `r` on a registered area with
slots `(lowest, secondLowest)`, 0 standing for "unset": the area gets the slots
`slotsAfter (lowest, secondLowest) r`, that is `(r, lowest)` if `r < lowest` or `lowest` is
unset, else `(lowest, r)` if `r < secondLowest` or `secondLowest` is unset, else the slots as
they were; `madeIt` tells whether one of the two cases applied. In particular a rate equal
to a `lowest` that is set is not written over it (only the second case can apply), and a
rate equal to a `secondLowest` that is set, with `lowest` set and not above it, changes
nothing. -/
theorem addPlan_single_step_rule (sc : Strconv) (rai : RateAreasIndex)
    (state number planId rate : String) (r : Float64) (ra : RateArea)
    (hparse : sc.ParseFloat rate = some r)
    (hreg : rai.rateAreasByName.get? (state ++ " " ++ number) = some ra) :
    rai.AddPlan sc state number planId "Silver" rate =
      .ok ({ rai with
              rateAreasByName := rai.rateAreasByName.set (state ++ " " ++ number)
                { ra with
                  top1SilverPlan := (slotsAfter (ra.top1SilverPlan, ra.top2SilverPlan) r).1,
                  top2SilverPlan := (slotsAfter (ra.top1SilverPlan, ra.top2SilverPlan) r).2 } },
           decide ((r < ra.top1SilverPlan ∨ ra.top1SilverPlan.isZero) ∨
             (r < ra.top2SilverPlan ∨ ra.top2SilverPlan.isZero))) ∧
    slotsAfter (ra.top1SilverPlan, ra.top2SilverPlan) r =
      (if r < ra.top1SilverPlan ∨ ra.top1SilverPlan.isZero then (r, ra.top1SilverPlan)
       else if r < ra.top2SilverPlan ∨ ra.top2SilverPlan.isZero then (ra.top1SilverPlan, r)
       else (ra.top1SilverPlan, ra.top2SilverPlan)) ∧
    (r = ra.top1SilverPlan → ¬ra.top1SilverPlan.isZero →
      slotsAfter (ra.top1SilverPlan, ra.top2SilverPlan) r =
        (if r < ra.top2SilverPlan ∨ ra.top2SilverPlan.isZero then (ra.top1SilverPlan, r)
         else (ra.top1SilverPlan, ra.top2SilverPlan))) ∧
    (r = ra.top2SilverPlan → ¬ra.top2SilverPlan.isZero → ¬ra.top1SilverPlan.isZero →
      ra.top1SilverPlan ≤ ra.top2SilverPlan →
      rai.AddPlan sc state number planId "Silver" rate = .ok (rai, false)) := by
  have hstep : rai.AddPlan sc state number planId "Silver" rate =
      .ok ({ rai with
              rateAreasByName := rai.rateAreasByName.set (state ++ " " ++ number)
                { ra with
                  top1SilverPlan := (slotsAfter (ra.top1SilverPlan, ra.top2SilverPlan) r).1,
                  top2SilverPlan := (slotsAfter (ra.top1SilverPlan, ra.top2SilverPlan) r).2 } },
           decide ((r < ra.top1SilverPlan ∨ ra.top1SilverPlan.isZero) ∨
             (r < ra.top2SilverPlan ∨ ra.top2SilverPlan.isZero))) := by
    unfold AddPlan slotsAfter
    simp only [LEVEL_NAME_SILVER, hparse, hreg, if_true]
    by_cases h1 : r < ra.top1SilverPlan ∨ ra.top1SilverPlan.isZero
    · rw [decide_eq_true (Or.inl h1)]
      simp only [if_pos h1]
    · by_cases h2 : r < ra.top2SilverPlan ∨ ra.top2SilverPlan.isZero
      · rw [decide_eq_true (Or.inr h2)]
        simp only [if_neg h1, if_pos h2]
      · rw [decide_eq_false (not_or.mpr ⟨h1, h2⟩)]
        simp only [if_neg h1, if_neg h2]
        rw [withSlots_eta, GoMap.set_eq_self _ hreg]
  refine ⟨hstep, rfl, ?_, ?_⟩
  · intro he hset
    have h1 : ¬(r < ra.top1SilverPlan ∨ ra.top1SilverPlan.isZero) := by
      rintro (h | h)
      · rw [he] at h
        exact Float64.not_lt_self _ h
      · exact hset h
    unfold slotsAfter
    simp only [if_neg h1]
  · intro he hset2 hset1 hle
    have h1 : ¬(r < ra.top1SilverPlan ∨ ra.top1SilverPlan.isZero) := by
      rintro (h | h)
      · rw [he] at h
        exact Float64.not_lt_of_le hle h
      · exact hset1 h
    have h2 : ¬(r < ra.top2SilverPlan ∨ ra.top2SilverPlan.isZero) := by
      rintro (h | h)
      · rw [he] at h
        exact Float64.not_lt_self _ h
      · exact hset2 h
    rw [hstep, decide_eq_false (not_or.mpr ⟨h1, h2⟩)]
    simp only [slotsAfter, if_neg h1, if_neg h2]
    rw [withSlots_eta, GoMap.set_eq_self _ hreg]

/-- C15, on sample data: the area "NY 1" has the slots (10, 12); a silver plan of rate 12
changes nothing, and the step is the one of the rule. -/
theorem addPlan_single_step_rule_witness :
    AddPlan sampleStrconv
        ⟨[("10001", "NY 1")], [("NY 1", ⟨"NY", "1", 10, 12⟩)], [], [], []⟩
        "NY" "1" "p3" "Silver" "12" =
      .ok (⟨[("10001", "NY 1")], [("NY 1", ⟨"NY", "1", 10, 12⟩)], [], [], []⟩, false) ∧
    slotsAfter (10, 12) 8 = (8, 10) :=
  ⟨(addPlan_single_step_rule sampleStrconv
      ⟨[("10001", "NY 1")], [("NY 1", ⟨"NY", "1", 10, 12⟩)], [], [], []⟩
      "NY" "1" "p3" "12" 12 ⟨"NY", "1", 10, 12⟩ (by decide) (by decide)).2.2.2
      rfl (by decide) (by decide) (by decide),
    by decide⟩

/-- C16: there is no retroactive fix-up. On an index where the area `(state, number)` is not
registered, a silver plan observed for it is recorded as unmapped; when a zip code `z` is
registered for that area afterwards, the area is created with both rates unset, its key is
still in `unmappedPlanRateAreas`, and `GetSlcspForZipcode z` returns the empty string. The
fact used of `strconv` is that 0 is written "0". -/
theorem plan_before_mapping_is_lost (sc : Strconv) (rai : RateAreasIndex)
    (state number planId rate z : String) (r : Float64)
    (hparse : sc.ParseFloat rate = some r)
    (hreg : rai.rateAreasByName.contains (state ++ " " ++ number) = false)
    (hfmt : sc.FormatFloat 0 = "0") :
    ∃ rai1 rai3,
      rai.AddPlan sc state number planId "Silver" rate = .ok (rai1, false) ∧
      (rai1.AddMapping z state number).rateAreasByName.get? (state ++ " " ++ number) =
        some ⟨state, number, 0, 0⟩ ∧
      (rai1.AddMapping z state number).unmappedPlanRateAreas.contains
        (state ++ " " ++ number) = true ∧
      (rai1.AddMapping z state number).GetSlcspForZipcode sc z = .ok ("", rai3) := by
  have hnone : rai.rateAreasByName.get? (state ++ " " ++ number) = none := by
    simpa [GoMap.contains] using hreg
  have hstep := addPlan_of_unregistered sc rai state number planId rate r hparse hnone
  obtain ⟨hregs, rai3, hget⟩ := getSlcsp_after_late_mapping sc
    { rai with unmappedPlanRateAreas :=
        rai.unmappedPlanRateAreas.set (state ++ " " ++ number) true } state number z hnone hfmt
  refine ⟨_, rai3, hstep, hregs, ?_, hget⟩
  rw [(addMapping_frame _ z state number).1]
  simp [GoMap.contains_set]

/-- C16, on sample data: a silver plan of "NY 1" is observed on the empty index, then zip
10001 is registered for "NY 1". -/
theorem plan_before_mapping_is_lost_witness :
    ∃ rai1 rai3,
      empty.AddPlan sampleStrconv "NY" "1" "p1" "Silver" "10" = .ok (rai1, false) ∧
      (rai1.AddMapping "10001" "NY" "1").rateAreasByName.get? ("NY" ++ " " ++ "1") =
        some ⟨"NY", "1", 0, 0⟩ ∧
      (rai1.AddMapping "10001" "NY" "1").unmappedPlanRateAreas.contains
        ("NY" ++ " " ++ "1") = true ∧
      (rai1.AddMapping "10001" "NY" "1").GetSlcspForZipcode sampleStrconv "10001" =
        .ok ("", rai3) :=
  plan_before_mapping_is_lost sampleStrconv empty "NY" "1" "p1" "10" "10001" 10
    (by decide) (by decide) (by decide)

/-- C17: the index only grows. After `AddRateArea`, `AddMapping`, a call of `AddPlan` that
returns, or a call of `GetSlcspForZipcode` that returns, each of the five maps has all the
keys it had (no rate area is deleted, an ambiguous zip code stays ambiguous) and every zip
code that was mapped is mapped to the same name. `AddRateArea`, `AddMapping` and
`GetSlcspForZipcode` leave every existing rate area as it was, rates included; `AddPlan`
keeps the state and the number of every area and can change rates only. -/
theorem index_only_grows (sc : Strconv) (rai : RateAreasIndex)
    (zipCode state number planId level rate : String) :
    (Grows rai (rai.AddRateArea state number).1 ∧
      RatesKept rai (rai.AddRateArea state number).1) ∧
    (Grows rai (rai.AddMapping zipCode state number) ∧
      RatesKept rai (rai.AddMapping zipCode state number)) ∧
    (∀ rai' madeIt, rai.AddPlan sc state number planId level rate = .ok (rai', madeIt) →
      Grows rai rai' ∧
      ∀ k ra, rai.rateAreasByName.get? k = some ra →
        ∃ ra', rai'.rateAreasByName.get? k = some ra' ∧ ra'.state = ra.state ∧
          ra'.number = ra.number) ∧
    (∀ slcsp rai', rai.GetSlcspForZipcode sc zipCode = .ok (slcsp, rai') →
      Grows rai rai' ∧ RatesKept rai rai') := by
  refine ⟨grows_addRateArea rai state number, grows_addMapping rai zipCode state number, ?_, ?_⟩
  · intro rai' madeIt h
    exact ⟨grows_addPlan sc rai rai' state number planId level rate madeIt h,
      addPlan_keeps_identity sc rai rai' state number planId level rate madeIt h⟩
  · intro slcsp rai' h
    exact grows_getSlcsp sc rai rai' zipCode slcsp h

/-- C18: a silver plan whose rate string does not parse makes `AddPlan` abort with a fatal
error on every index, whether the rate area of the plan is registered or not: the parse comes
first, so nothing has been written to the index when the run ends, and a run of plans ends
at that plan. A plan whose level is not "Silver" never aborts, whatever its rate string. -/
theorem addPlan_unparsable_rate_is_fatal (sc : Strconv) (rai : RateAreasIndex)
    (state number planId rate : String) (ps : List PlanRecord)
    (hparse : sc.ParseFloat rate = none) :
    rai.AddPlan sc state number planId "Silver" rate = .error .fatal ∧
    AddPlans sc rai (⟨state, number, planId, "Silver", rate⟩ :: ps) = .error .fatal ∧
    (∀ level otherRate, level ≠ "Silver" →
      rai.AddPlan sc state number planId level otherRate = .ok (rai, false)) := by
  have hstep : rai.AddPlan sc state number planId "Silver" rate = .error .fatal := by
    unfold AddPlan
    simp [LEVEL_NAME_SILVER, hparse]
  refine ⟨hstep, ?_, ?_⟩
  · simp only [AddPlans, hstep]
  · intro level otherRate hlevel
    exact addPlan_of_not_silver sc rai state number planId level otherRate hlevel

/-- C18, on sample data: the rate string "abc" for the unregistered area "ZZ 9" and for the
registered area "NY 1", and the same rate string on a gold plan. -/
theorem addPlan_unparsable_rate_is_fatal_witness :
    (empty.AddMapping "10001" "NY" "1").AddPlan sampleStrconv "ZZ" "9" "p1" "Silver" "abc" =
      .error .fatal ∧
    (empty.AddMapping "10001" "NY" "1").AddPlan sampleStrconv "NY" "1" "p1" "Silver" "abc" =
      .error .fatal ∧
    (empty.AddMapping "10001" "NY" "1").AddPlan sampleStrconv "NY" "1" "p1" "Gold" "abc" =
      .ok (empty.AddMapping "10001" "NY" "1", false) :=
  ⟨(addPlan_unparsable_rate_is_fatal sampleStrconv (empty.AddMapping "10001" "NY" "1")
      "ZZ" "9" "p1" "abc" [] (by decide)).1,
    (addPlan_unparsable_rate_is_fatal sampleStrconv (empty.AddMapping "10001" "NY" "1")
      "NY" "1" "p1" "abc" [] (by decide)).1,
    (addPlan_unparsable_rate_is_fatal sampleStrconv (empty.AddMapping "10001" "NY" "1")
      "NY" "1" "p1" "abc" [] (by decide)).2.2 "Gold" "abc" (by decide)⟩

/-- C19: on an index whose zip codes are mapped to registered areas, `GetSlcspForZipcode z`
returns a string and an index that differs from the one it was given at most by the key `z`
added to `insufficientPlanZips`: the four other maps are unchanged; a second call with the
same zip code on the index left by the first returns the same string and leaves that index
exactly as it is. -/
theorem getSlcsp_read_only_idempotent (sc : Strconv) (rai : RateAreasIndex) (z : String)
    (hwf : AreasRegistered rai) :
    ∃ slcsp rai',
      rai.GetSlcspForZipcode sc z = .ok (slcsp, rai') ∧
      rai'.rateAreaNamesByZip = rai.rateAreaNamesByZip ∧
      rai'.rateAreasByName = rai.rateAreasByName ∧
      rai'.ambiguousZipcodes = rai.ambiguousZipcodes ∧
      rai'.unmappedPlanRateAreas = rai.unmappedPlanRateAreas ∧
      (rai'.insufficientPlanZips = rai.insufficientPlanZips ∨
        rai'.insufficientPlanZips = rai.insufficientPlanZips.set z true) ∧
      (∀ k, k ≠ z → rai'.insufficientPlanZips.get? k = rai.insufficientPlanZips.get? k) ∧
      rai'.GetSlcspForZipcode sc z = .ok (slcsp, rai') := by
  by_cases hamb : rai.ambiguousZipcodes.contains z = true
  · have h := getSlcsp_of_ambiguous sc rai z hamb
    exact ⟨"", rai, h, rfl, rfl, rfl, rfl, Or.inl rfl, fun _ _ => rfl, h⟩
  · cases hmap : rai.rateAreaNamesByZip.get? z with
    | none =>
      have h := getSlcsp_of_unmapped sc rai z hmap
      exact ⟨"", rai, h, rfl, rfl, rfl, rfl, Or.inl rfl, fun _ _ => rfl, h⟩
    | some a =>
      obtain ⟨ra, hra⟩ := Option.isSome_iff_exists.mp (hwf z a hmap)
      have hamb' : rai.ambiguousZipcodes.contains z = false := by simpa using hamb
      have h := getSlcsp_of_mapped sc rai z a ra hamb' hmap hra
      by_cases hzero : sc.FormatFloat ra.top2SilverPlan = "0"
      · rw [if_pos hzero] at h
        have h2 := getSlcsp_of_mapped sc
          { rai with insufficientPlanZips := rai.insufficientPlanZips.set z true } z a ra
          hamb' hmap hra
        rw [if_pos hzero] at h2
        simp only [GoMap.set_set_same] at h2
        exact ⟨"", _, h, rfl, rfl, rfl, rfl, Or.inr rfl,
          fun k hk => GoMap.get?_set_ne _ _ (Ne.symm hk), h2⟩
      · rw [if_neg hzero] at h
        exact ⟨_, rai, h, rfl, rfl, rfl, rfl, Or.inl rfl, fun _ _ => rfl, h⟩

/-- C19, on sample data: zip 10002 is mapped to "NY 2", which has one silver plan; the first
call returns the empty string and records the zip code, the second call changes nothing. -/
theorem getSlcsp_read_only_idempotent_witness :
    ∃ rai',
      GetSlcspForZipcode sampleStrconv
        ⟨[("10001", "NY 1"), ("10002", "NY 2")],
          [("NY 1", ⟨"NY", "1", 10, 12⟩), ("NY 2", ⟨"NY", "2", 7, 0⟩)], [], [], []⟩
        "10002" = .ok ("", rai') ∧
      rai'.insufficientPlanZips = [("10002", true)] ∧
      rai'.GetSlcspForZipcode sampleStrconv "10002" = .ok ("", rai') := by
  obtain ⟨slcsp, rai', h1, -, -, -, -, -, -, h2⟩ :=
    getSlcsp_read_only_idempotent sampleStrconv
      ⟨[("10001", "NY 1"), ("10002", "NY 2")],
        [("NY 1", ⟨"NY", "1", 10, 12⟩), ("NY 2", ⟨"NY", "2", 7, 0⟩)], [], [], []⟩
      "10002"
      (areasRegistered_built sampleStrconv
        [⟨"10001", "NY", "1"⟩, ⟨"10002", "NY", "2"⟩]
        [⟨"NY", "1", "p1", "Silver", "12"⟩, ⟨"NY", "2", "p2", "Silver", "7"⟩,
         ⟨"NY", "1", "p3", "Silver", "10"⟩] _ (by decide))
  have hval : GetSlcspForZipcode sampleStrconv
      ⟨[("10001", "NY 1"), ("10002", "NY 2")],
        [("NY 1", ⟨"NY", "1", 10, 12⟩), ("NY 2", ⟨"NY", "2", 7, 0⟩)], [], [], []⟩
      "10002" = .ok ("", ⟨[("10001", "NY 1"), ("10002", "NY 2")],
        [("NY 1", ⟨"NY", "1", 10, 12⟩), ("NY 2", ⟨"NY", "2", 7, 0⟩)], [], [],
        [("10002", true)]⟩) := by decide
  rw [hval] at h1
  cases h1
  exact ⟨_, hval, rfl, h2⟩

/-- C20, a run the claim does not cover: after the silver plans of rates 5 and NaN on the
fresh area "NY 1" the slots are lowest = 5, second lowest = NaN. Neither rate is a zero, the
second slot is set (NaN is not equal to 0), and `top1SilverPlan <= top2SilverPlan` is false,
as every comparison with NaN is. -/
theorem slots_unordered_after_nan_rate :
    (∀ r ∈ [5, Float64.nan], ¬r.isZero) ∧
    AddPlans sampleStrconv (empty.AddMapping "10001" "NY" "1")
        [⟨"NY", "1", "p1", "Silver", "5"⟩, ⟨"NY", "1", "p2", "Silver", "NaN"⟩] =
      .ok ⟨[("10001", "NY 1")], [("NY 1", ⟨"NY", "1", 5, .nan⟩)], [], [], []⟩ ∧
    ¬Float64.nan.isZero ∧ ¬((5 : Float64) ≤ Float64.nan) := by
  decide

/-- C20: the two slots stay ordered. On an area that is registered with both slots unset,
after any sequence of silver plans of that area whose rates are numbers (not NaN) and not
zero: if `top2SilverPlan` is set then `top1SilverPlan` is set and
`top1SilverPlan ≤ top2SilverPlan`; and `top1SilverPlan` is set as soon as the sequence is
not empty. A slot is set when it does not compare equal to 0. -/
theorem slots_stay_ordered (sc : Strconv) (rai : RateAreasIndex)
    (areaName : String) (ra : RateArea) (ps : List PlanRecord) (rs : List Float64)
    (hreg : rai.rateAreasByName.get? areaName = some ra)
    (hfresh : ra.top1SilverPlan = 0 ∧ ra.top2SilverPlan = 0)
    (hps : ∀ p ∈ ps, p.level = LEVEL_NAME_SILVER ∧ p.areaName = areaName)
    (hparse : ps.map (fun p => sc.ParseFloat p.rate) = rs.map some)
    (hnz : ∀ r ∈ rs, r.IsNonZeroNumber) :
    ∃ rai' ra', AddPlans sc rai ps = .ok rai' ∧
      rai'.rateAreasByName.get? areaName = some ra' ∧
      (¬ra'.top2SilverPlan.isZero →
        ¬ra'.top1SilverPlan.isZero ∧ ra'.top1SilverPlan ≤ ra'.top2SilverPlan) ∧
      (ps ≠ [] → ¬ra'.top1SilverPlan.isZero) := by
  have hrun := addPlans_one_area sc areaName ps rs rai ra hreg hps hparse
  rw [hfresh.1, hfresh.2, foldl_slotsAfter_sorted rs hnz] at hrun
  obtain ⟨hord, hset⟩ := firstTwo_sortedRates_ordered rs hnz
  refine ⟨_, _, hrun, GoMap.get?_set_self _ _ _, hord, ?_⟩
  intro hne
  apply hset
  intro hrs
  rw [hrs] at hparse
  simp at hparse
  exact hne hparse

/-- C20, on sample data: the silver plans 12, 10, 11 of the area "NY 1" leave the slots
set and ordered. -/
theorem slots_stay_ordered_witness :
    ∃ rai' ra',
      AddPlans sampleStrconv (empty.AddMapping "10001" "NY" "1")
        [⟨"NY", "1", "p1", "Silver", "12"⟩, ⟨"NY", "1", "p2", "Silver", "10"⟩,
         ⟨"NY", "1", "p3", "Silver", "11"⟩] = .ok rai' ∧
      rai'.rateAreasByName.get? "NY 1" = some ra' ∧
      (¬ra'.top2SilverPlan.isZero →
        ¬ra'.top1SilverPlan.isZero ∧ ra'.top1SilverPlan ≤ ra'.top2SilverPlan) ∧
      ¬ra'.top1SilverPlan.isZero := by
  obtain ⟨rai', ra', h1, h2, h3, h4⟩ :=
    slots_stay_ordered sampleStrconv (empty.AddMapping "10001" "NY" "1") "NY 1"
      (NewRateArea "NY" "1")
      [⟨"NY", "1", "p1", "Silver", "12"⟩, ⟨"NY", "1", "p2", "Silver", "10"⟩,
       ⟨"NY", "1", "p3", "Silver", "11"⟩]
      [12, 10, 11] (by decide) (by decide) (by decide) (by decide) (by decide)
  exact ⟨rai', ra', h1, h2, h3, h4 (by decide)⟩

end Slcsp
